import Mathlib

/-!
# Verification of three balanced-search-tree engines

Shallow embedding of the repository's three ordered-set engines
(`src/avl_tree.py`, `src/rb_tree.py`, `src/splay_tree.py`) and proofs of the
specified properties.  Keys are Python integers, modelled as `Int`.

* The AVL engine is recursive and is embedded as pure recursive functions.
* The red-black and splay engines walk parent pointers iteratively; they are
  embedded with a zipper: the node an imperative variable points at is a
  subtree together with the list of ancestor frames (direction, data of the
  parent, sibling subtree), innermost first.  Re-attaching the frames
  (`rplug` / `Splay.plug`) recovers the whole tree.
* Places where the Python code would raise an `AttributeError` (reading a
  field of `None`) are modelled by `Option`: the embedded operation returns
  `none` exactly where the source would crash.  The proofs show such states
  are unreachable.
-/

namespace AVL

/-- AVL node (`AVLNode`): key, children, stored height.  An absent child is
`leaf` (Python `None`). -/
inductive AVLT where
  | leaf : AVLT
  | node (l : AVLT) (key : Int) (height : Nat) (r : AVLT)
  deriving Repr, DecidableEq

open AVLT

/-- `get_height`: stored height of a node, 0 for `None`. -/
def getHeight : AVLT → Nat
  | leaf => 0
  | node _ _ h _ => h

/-- `get_balance`: stored left height minus stored right height. -/
def getBalance : AVLT → Int
  | leaf => 0
  | node l _ _ r => (getHeight l : Int) - (getHeight r : Int)

/-- `update_height`: recompute the root's height from the children. -/
def updateHeight : AVLT → AVLT
  | leaf => leaf
  | node l k _ r => node l k (1 + max (getHeight l) (getHeight r)) r

/-- Python `node.key`; the engines only read it on real nodes. -/
def keyOf : AVLT → Int
  | leaf => 0
  | node _ k _ _ => k

/-- Python `node.left`. -/
def leftOf : AVLT → AVLT
  | leaf => leaf
  | node l _ _ _ => l

/-- Python `node.right`. -/
def rightOf : AVLT → AVLT
  | leaf => leaf
  | node _ _ _ r => r

/-- `rotate_right(z)`; the engines only call it when `z.left` is a real node
(`balance > 1`), the fallback branch mirrors the crash being unreachable. -/
def rotateRight : AVLT → AVLT
  | node (node yl yk yh yr) zk zh zr =>
      updateHeight (node yl yk yh (updateHeight (node yr zk zh zr)))
  | t => t

/-- `rotate_left(z)`; only called when `z.right` is a real node. -/
def rotateLeft : AVLT → AVLT
  | node zl zk zh (node yl yk yh yr) =>
      updateHeight (node (updateHeight (node zl zk zh yl)) yk yh yr)
  | t => t

/-- The four rebalancing cases at the end of `_insert_helper`
(lines 142-163 of `avl_tree.py`). -/
def rebalanceIns (n : AVLT) (key : Int) : AVLT :=
  let balance := getBalance n
  if balance > 1 ∧ key < keyOf (leftOf n) then rotateRight n
  else if balance < -1 ∧ key > keyOf (rightOf n) then rotateLeft n
  else if balance > 1 ∧ key > keyOf (leftOf n) then
    rotateRight (node (rotateLeft (leftOf n)) (keyOf n) (getHeight n) (rightOf n))
  else if balance < -1 ∧ key < keyOf (rightOf n) then
    rotateLeft (node (leftOf n) (keyOf n) (getHeight n) (rotateRight (rightOf n)))
  else n

/-- `_insert_helper`: BST descent, height update, rebalancing; returns the new
subtree and the `inserted` flag. -/
def insertHelper : AVLT → Int → AVLT × Bool
  | leaf, key => (node leaf key 1 leaf, true)
  | node l k h r, key =>
    if key < k then
      let p := insertHelper l key
      (rebalanceIns (updateHeight (node p.1 k h r)) key, p.2)
    else if key > k then
      let p := insertHelper r key
      (rebalanceIns (updateHeight (node l k h p.1)) key, p.2)
    else (node l k h r, false)

/-- `_search_helper`. -/
def searchHelper : AVLT → Int → Bool
  | leaf, _ => false
  | node l k _ r, key =>
    if key = k then true
    else if key < k then searchHelper l key
    else searchHelper r key

/-- `get_min_node` (key of the leftmost node; only called on real nodes). -/
def getMinKey : AVLT → Int
  | leaf => 0
  | node leaf k _ _ => k
  | node (node a b c d) _ _ _ => getMinKey (node a b c d)

/-- The four rebalancing cases at the end of `_delete_helper`
(lines 244-264 of `avl_tree.py`), keyed off the child's balance factor. -/
def rebalanceDel (n : AVLT) : AVLT :=
  let balance := getBalance n
  if balance > 1 ∧ getBalance (leftOf n) ≥ 0 then rotateRight n
  else if balance > 1 ∧ getBalance (leftOf n) < 0 then
    rotateRight (node (rotateLeft (leftOf n)) (keyOf n) (getHeight n) (rightOf n))
  else if balance < -1 ∧ getBalance (rightOf n) ≤ 0 then rotateLeft n
  else if balance < -1 ∧ getBalance (rightOf n) > 0 then
    rotateLeft (node (leftOf n) (keyOf n) (getHeight n) (rotateRight (rightOf n)))
  else n

/-- `_delete_helper`. -/
def deleteHelper : AVLT → Int → AVLT
  | leaf, _ => leaf
  | node l k h r, key =>
    if key < k then rebalanceDel (updateHeight (node (deleteHelper l key) k h r))
    else if key > k then rebalanceDel (updateHeight (node l k h (deleteHelper r key)))
    else
      match l, r with
      | leaf, _ => r
      | node a b c d, leaf => node a b c d
      | node a b c d, node e f g i =>
        let m := getMinKey (node e f g i)
        rebalanceDel (updateHeight
          (node (node a b c d) m h (deleteHelper (node e f g i) m)))

/-- The `AVLTree` container: root and (Python-int, hence possibly negative)
size counter. -/
structure Tree where
  root : AVLT
  size : Int
  deriving Repr, DecidableEq

/-- `AVLTree.__init__`. -/
def Tree.empty : Tree := ⟨leaf, 0⟩

/-- `AVLTree.insert`. -/
def Tree.insert (t : Tree) (key : Int) : Tree :=
  let p := insertHelper t.root key
  ⟨p.1, if p.2 then t.size + 1 else t.size⟩

/-- `AVLTree.search`. -/
def Tree.search (t : Tree) (key : Int) : Bool := searchHelper t.root key

/-- `AVLTree.delete`: note the unconditional `self.size -= 1`
(line 211 of `avl_tree.py`). -/
def Tree.delete (t : Tree) (key : Int) : Tree :=
  ⟨deleteHelper t.root key, t.size - 1⟩

/-- In-order traversal of an AVL subtree. -/
def inorder : AVLT → List Int
  | leaf => []
  | node l k _ r => inorder l ++ k :: inorder r

end AVL

/-- Which child of its parent a node is. -/
inductive Dir where
  | left : Dir
  | right : Dir
  deriving Repr, DecidableEq

namespace Splay

/-- Splay node (`SplayNode`): key and children.  Parent pointers of the
imperative code are represented by zipper contexts (`Frame`). -/
inductive ST where
  | nil : ST
  | node (l : ST) (key : Int) (r : ST)
  deriving Repr, DecidableEq

open ST

/-- One ancestor on the parent-pointer chain: the direction the current node
hangs under it, the parent's key, and the parent's other child. -/
structure Frame where
  dir : Dir
  key : Int
  sib : ST
  deriving Repr, DecidableEq

/-- Re-attach the ancestor frames (innermost first): recovers the whole tree
from the node an imperative pointer designates. -/
def plug : ST → List Frame → ST
  | x, [] => x
  | x, ⟨Dir.left, k, s⟩ :: ctx => plug (node x k s) ctx
  | x, ⟨Dir.right, k, s⟩ :: ctx => plug (node s k x) ctx

/-- `splay(x)`: the while loop of `splay_tree.py` lines 92-114.  Each case is
the effect of the corresponding rotations on the local configuration; the
loop ends when the context is exhausted (`x.parent is None`).  `x` is always
a real node in the source; the `nil` fallbacks mirror that. -/
def splay : ST → List Frame → ST
  | x, [] => x
  | node xl xk xr, [⟨Dir.left, pk, ps⟩] =>
      node xl xk (node xr pk ps)
  | node xl xk xr, [⟨Dir.right, pk, ps⟩] =>
      node (node ps pk xl) xk xr
  | node xl xk xr, ⟨Dir.left, pk, ps⟩ :: ⟨Dir.left, gk, gs⟩ :: ctx =>
      splay (node xl xk (node xr pk (node ps gk gs))) ctx
  | node xl xk xr, ⟨Dir.right, pk, ps⟩ :: ⟨Dir.right, gk, gs⟩ :: ctx =>
      splay (node (node (node gs gk ps) pk xl) xk xr) ctx
  | node xl xk xr, ⟨Dir.right, pk, ps⟩ :: ⟨Dir.left, gk, gs⟩ :: ctx =>
      splay (node (node ps pk xl) xk (node xr gk gs)) ctx
  | node xl xk xr, ⟨Dir.left, pk, ps⟩ :: ⟨Dir.right, gk, gs⟩ :: ctx =>
      splay (node (node gs gk xl) xk (node xr pk ps)) ctx
  | nil, _ :: _ => nil

/-- The descent of `SplayTree.search` (lines 164-182): returns the found flag,
the last node visited, and its context.  The loop only steps into a real
child; on a missing child it stops at the current node. -/
def searchDescend : ST → List Frame → Int → Bool × ST × List Frame
  | nil, ctx, _ => (false, nil, ctx)
  | node l k r, ctx, key =>
    if key = k then (true, node l k r, ctx)
    else if key < k then
      match l with
      | nil => (false, node l k r, ctx)
      | node a b c => searchDescend (node a b c) (⟨Dir.left, k, r⟩ :: ctx) key
    else
      match r with
      | nil => (false, node l k r, ctx)
      | node a b c => searchDescend (node a b c) (⟨Dir.right, k, l⟩ :: ctx) key

/-- The descent of `SplayTree.insert` (lines 130-150): falls off the tree at
the attach point (returning the new leaf there) or stops at a duplicate. -/
def insertDescend : ST → List Frame → Int → ST × List Frame × Bool
  | nil, ctx, key => (node nil key nil, ctx, true)
  | node l k r, ctx, key =>
    if key < k then insertDescend l (⟨Dir.left, k, r⟩ :: ctx) key
    else if key > k then insertDescend r (⟨Dir.right, k, l⟩ :: ctx) key
    else (node l k r, ctx, false)

/-- The descent of `_subtree_maximum` with its context. -/
def maxDescend : ST → List Frame → ST × List Frame
  | node l k (node rl rk rr), ctx =>
      maxDescend (node rl rk rr) (⟨Dir.right, k, l⟩ :: ctx)
  | t, ctx => (t, ctx)

/-- The `SplayTree` container. -/
structure Tree where
  root : ST
  size : Int
  deriving Repr, DecidableEq

/-- `SplayTree.__init__`. -/
def Tree.empty : Tree := ⟨nil, 0⟩

/-- `SplayTree.search`: descend, then splay the found node (or the last node
visited on a failed search); an empty tree is left untouched. -/
def Tree.search (t : Tree) (key : Int) : Bool × Tree :=
  match t.root with
  | nil => (false, t)
  | node l k r =>
    let p := searchDescend (node l k r) [] key
    (p.1, ⟨splay p.2.1 p.2.2, t.size⟩)

/-- `SplayTree.insert`: an empty tree gets the new root directly; otherwise
descend, then splay the new node (or the duplicate). -/
def Tree.insert (t : Tree) (key : Int) : Tree :=
  match t.root with
  | nil => ⟨node nil key nil, t.size + 1⟩
  | node l k r =>
    let p := insertDescend (node l k r) [] key
    ⟨splay p.1 p.2.1, if p.2.2 then t.size + 1 else t.size⟩

/-- Python `self.root.right = right_subtree` on the splayed-max root. -/
def setRight : ST → ST → ST
  | nil, _ => nil
  | node l k _, r => node l k r

/-- `SplayTree.delete` (lines 208-251): search (which splays), then remove
the root, joining the two subtrees by splaying the maximum of the left one. -/
def Tree.delete (t : Tree) (key : Int) : Tree :=
  let p := t.search key
  if !p.1 then p.2
  else
    match p.2.root with
    | nil => p.2
    | node nil _ r => ⟨r, p.2.size - 1⟩
    | node (node a b c) _ nil => ⟨node a b c, p.2.size - 1⟩
    | node (node a b c) _ (node d e f) =>
      let q := maxDescend (node a b c) []
      ⟨setRight (splay q.1 q.2) (node d e f), p.2.size - 1⟩

/-- In-order traversal of a splay subtree. -/
def inorder : ST → List Int
  | nil => []
  | node l k r => inorder l ++ k :: inorder r

/-- Key at the root of a subtree, if any. -/
def rootKey : ST → Option Int
  | nil => none
  | node _ k _ => some k

end Splay

namespace RB

/-- Node colors (`Color.RED` / `Color.BLACK`). -/
inductive RBColor where
  | red : RBColor
  | black : RBColor
  deriving Repr, DecidableEq

/-- Red-black node (`RBNode`): color, children, key.  Every link to the shared
BLACK sentinel `NIL` is represented by `nil`; parent pointers are represented
by zipper contexts. -/
inductive RBT where
  | nil : RBT
  | node (c : RBColor) (l : RBT) (key : Int) (r : RBT)
  deriving Repr, DecidableEq

open RBT

/-- Color of a node; the sentinel is BLACK. -/
def colorOf : RBT → RBColor
  | nil => RBColor.black
  | node c _ _ _ => c

/-- Python `node.color = BLACK` (also used for the final root blackening). -/
def blacken : RBT → RBT
  | nil => nil
  | node _ l k r => node RBColor.black l k r

/-- One ancestor on the parent-pointer chain of the red-black tree. -/
structure RFrame where
  dir : Dir
  color : RBColor
  key : Int
  sib : RBT
  deriving Repr, DecidableEq

/-- Re-attach the ancestor frames, innermost first. -/
def rplug : RBT → List RFrame → RBT
  | x, [] => x
  | x, ⟨Dir.left, c, k, s⟩ :: ctx => rplug (node c x k s) ctx
  | x, ⟨Dir.right, c, k, s⟩ :: ctx => rplug (node c s k x) ctx

/-- The BST descent of `RedBlackTree.insert` (lines 112-121): context of the
sentinel position the new node replaces, or `none` on a duplicate key. -/
def insDescend : RBT → List RFrame → Int → Option (List RFrame)
  | nil, ctx, _ => some ctx
  | node c l k r, ctx, key =>
    if key < k then insDescend l (⟨Dir.left, c, k, r⟩ :: ctx) key
    else if key > k then insDescend r (⟨Dir.right, c, k, l⟩ :: ctx) key
    else none

/-- `_insert_fixup` (lines 137-184), one constructor case per loop case.  `z`
is the subtree the loop variable points at, the context its ancestors.  The
result is the whole tree after the final `self.root.color = BLACK`; `none`
marks the states where the source would dereference a missing grandparent. -/
def insertFixup : RBT → List RFrame → Option RBT
  | z, [] => some (blacken z)
  | z, pf :: ctx =>
    if pf.color = RBColor.black then some (blacken (rplug z (pf :: ctx)))
    else
      match ctx with
      | [] => none
      | gf :: rest =>
        match gf.dir with
        | Dir.left =>
          -- z.parent == z.parent.parent.left (line 145); uncle y (line 146)
          let y := gf.sib
          if colorOf y = RBColor.red then
            -- Case 1 (lines 148-153): recolor and continue from the grandparent
            let p := match pf.dir with
              | Dir.left => node RBColor.black z pf.key pf.sib
              | Dir.right => node RBColor.black pf.sib pf.key z
            insertFixup (node RBColor.red p gf.key (blacken y)) rest
          else
            match pf.dir with
            | Dir.left =>
              -- Case 3 (lines 161-163): recolor parent/grandparent, rotate right
              insertFixup z
                (⟨Dir.left, RBColor.black, pf.key, node RBColor.red pf.sib gf.key y⟩ :: rest)
            | Dir.right =>
              -- Case 2 then Case 3 (lines 155-163)
              match z with
              | nil => none
              | node zc zl zk zr =>
                insertFixup (node RBColor.red pf.sib pf.key zl)
                  (⟨Dir.left, RBColor.black, zk, node RBColor.red zr gf.key y⟩ :: rest)
        | Dir.right =>
          -- mirrored arm (lines 164-182); uncle y (line 165)
          let y := gf.sib
          if colorOf y = RBColor.red then
            let p := match pf.dir with
              | Dir.left => node RBColor.black z pf.key pf.sib
              | Dir.right => node RBColor.black pf.sib pf.key z
            insertFixup (node RBColor.red (blacken y) gf.key p) rest
          else
            match pf.dir with
            | Dir.right =>
              insertFixup z
                (⟨Dir.right, RBColor.black, pf.key, node RBColor.red y gf.key pf.sib⟩ :: rest)
            | Dir.left =>
              match z with
              | nil => none
              | node zc zl zk zr =>
                insertFixup (node RBColor.red zr pf.key pf.sib)
                  (⟨Dir.right, RBColor.black, zk, node RBColor.red y gf.key zl⟩ :: rest)
  termination_by z ctx => ctx.length
  decreasing_by all_goals simp_arith [List.length]

/-- The search loop of `RedBlackTree.search` (lines 186-203). -/
def searchFrom : RBT → Int → Bool
  | nil, _ => false
  | node _ l k r, key =>
    if key = k then true
    else if key < k then searchFrom l key
    else searchFrom r key

/-- `_search_node` (lines 272-287) with its context. -/
def findDescend : RBT → List RFrame → Int → RBT × List RFrame
  | nil, ctx, _ => (nil, ctx)
  | node c l k r, ctx, key =>
    if key = k then (node c l k r, ctx)
    else if key < k then findDescend l (⟨Dir.left, c, k, r⟩ :: ctx) key
    else findDescend r (⟨Dir.right, c, k, l⟩ :: ctx) key

/-- `_minimum` (lines 220-229) with its context. -/
def minDescend : RBT → List RFrame → RBT × List RFrame
  | node c (node lc ll lk lr) k r, ctx =>
      minDescend (node lc ll lk lr) (⟨Dir.left, c, k, r⟩ :: ctx)
  | t, ctx => (t, ctx)

/-- `_delete_fixup` (lines 289-354).  `x` is the (possibly sentinel) subtree
the loop variable points at.  The Python code crashes when the sibling `w` is
the sentinel (`w.left` is `None`); those states return `none`. -/
def deleteFixup : RBT → List RFrame → Option RBT
  | x, [] => some (blacken x)
  | x, f :: ctx =>
    if colorOf x = RBColor.red then some (rplug (blacken x) (f :: ctx))
    else
      match f.dir with
      | Dir.left =>
        -- x == x.parent.left (line 297); sibling w = f.sib
        match f.sib with
        | nil => none
        | node RBColor.red wl wk wr =>
          -- Case 1 (lines 300-305): rotate left; the new sibling is wl under
          -- a RED parent, all below a BLACK node keyed wk.
          match wl with
          | nil => none
          | node _ wa wak wb =>
            if colorOf wa = RBColor.black ∧ colorOf wb = RBColor.black then
              -- Case 2 (lines 307-310), then the loop exits on the RED parent
              some (rplug (node RBColor.black x f.key (node RBColor.red wa wak wb))
                (⟨Dir.left, RBColor.black, wk, wr⟩ :: ctx))
            else if colorOf wb = RBColor.black then
              -- Case 3 (lines 312-317) then Case 4 (lines 319-324)
              match wa with
              | nil => none
              | node _ waa wk2 wab =>
                some (blacken (rplug
                  (node RBColor.red (node RBColor.black x f.key waa) wk2
                    (node RBColor.black wab wak wb))
                  (⟨Dir.left, RBColor.black, wk, wr⟩ :: ctx)))
            else
              -- Case 4 (lines 319-324)
              some (blacken (rplug
                (node RBColor.red (node RBColor.black x f.key wa) wak (blacken wb))
                (⟨Dir.left, RBColor.black, wk, wr⟩ :: ctx)))
        | node RBColor.black wl wk wr =>
          if colorOf wl = RBColor.black ∧ colorOf wr = RBColor.black then
            -- Case 2 (lines 307-310): recolor w, move x to its parent
            deleteFixup (node f.color x f.key (node RBColor.red wl wk wr)) ctx
          else if colorOf wr = RBColor.black then
            -- Case 3 (lines 312-317) then Case 4 (lines 319-324)
            match wl with
            | nil => none
            | node _ wa wak wb =>
              some (blacken (rplug
                (node f.color (node RBColor.black x f.key wa) wak
                  (node RBColor.black wb wk wr)) ctx))
          else
            -- Case 4 (lines 319-324)
            some (blacken (rplug
              (node f.color (node RBColor.black x f.key wl) wk (blacken wr)) ctx))
      | Dir.right =>
        -- mirrored arm (lines 325-352); sibling w = f.sib = x.parent.left
        match f.sib with
        | nil => none
        | node RBColor.red wl wk wr =>
          -- Case 1 (lines 328-333): rotate right; the new sibling is wr
          match wr with
          | nil => none
          | node _ wa wak wb =>
            if colorOf wa = RBColor.black ∧ colorOf wb = RBColor.black then
              some (rplug (node RBColor.black (node RBColor.red wa wak wb) f.key x)
                (⟨Dir.right, RBColor.black, wk, wl⟩ :: ctx))
            else if colorOf wa = RBColor.black then
              -- Case 3 (lines 340-345) then Case 4 (lines 347-352)
              match wb with
              | nil => none
              | node _ wba wk2 wbb =>
                some (blacken (rplug
                  (node RBColor.red (node RBColor.black wa wak wba) wk2
                    (node RBColor.black wbb f.key x))
                  (⟨Dir.right, RBColor.black, wk, wl⟩ :: ctx)))
            else
              -- Case 4 (lines 347-352)
              some (blacken (rplug
                (node RBColor.red (blacken wa) wak (node RBColor.black wb f.key x))
                (⟨Dir.right, RBColor.black, wk, wl⟩ :: ctx)))
        | node RBColor.black wl wk wr =>
          if colorOf wl = RBColor.black ∧ colorOf wr = RBColor.black then
            deleteFixup (node f.color (node RBColor.red wl wk wr) f.key x) ctx
          else if colorOf wl = RBColor.black then
            match wr with
            | nil => none
            | node _ wa wak wb =>
              some (blacken (rplug
                (node f.color (node RBColor.black wl wk wa) wak
                  (node RBColor.black wb f.key x)) ctx))
          else
            some (blacken (rplug
              (node f.color (blacken wl) wk (node RBColor.black wr f.key x)) ctx))
  termination_by x ctx => ctx.length
  decreasing_by all_goals simp_arith [List.length]

/-- The `RedBlackTree` container. -/
structure Tree where
  root : RBT
  size : Int
  deriving Repr, DecidableEq

/-- `RedBlackTree.__init__`: the root is the sentinel. -/
def Tree.empty : Tree := ⟨nil, 0⟩

/-- `RedBlackTree.insert` (lines 98-135): BST descent, attach a RED node with
sentinel children, bump the size, fix up. -/
def Tree.insert (t : Tree) (key : Int) : Option Tree :=
  match insDescend t.root [] key with
  | none => some t
  | some ctx =>
    (insertFixup (node RBColor.red nil key nil) ctx).map fun r => ⟨r, t.size + 1⟩

/-- `RedBlackTree.search`. -/
def Tree.search (t : Tree) (key : Int) : Bool := searchFrom t.root key

/-- `RedBlackTree.delete` (lines 231-270): locate `z`; transplant its sole
child, or relocate the successor `y` (minimum of the right subtree) into its
place; run the fixup when the removed color was BLACK.  The zipper context of
the replacement `x` is the minimum's path, then the frame of the relocated
`y` (which takes `z`'s color, with `z`'s left subtree as its left child),
then `z`'s own context — uniformly for both the `y.parent == z` and the
transplant cases. -/
def Tree.delete (t : Tree) (key : Int) : Option Tree :=
  match findDescend t.root [] key with
  | (nil, _) => some t
  | (node zc zl _ zr, ctxz) =>
    let finish : RBT → RBColor → List RFrame → Option Tree := fun x yc ctxx =>
      (if yc = RBColor.black then deleteFixup x ctxx else some (rplug x ctxx)).map
        fun r => ⟨r, t.size - 1⟩
    match zl, zr with
    | nil, _ => finish zr zc ctxz
    | node a b c d, nil => finish (node a b c d) zc ctxz
    | node a b c d, node e f g i =>
      match minDescend (node e f g i) [] with
      | (nil, _) => none
      | (node yc _ yk yr, ctxm) =>
        finish yr yc (ctxm ++ ⟨Dir.right, zc, yk, node a b c d⟩ :: ctxz)

/-- In-order traversal of a red-black subtree. -/
def inorder : RBT → List Int
  | nil => []
  | node _ l k r => inorder l ++ k :: inorder r

end RB

/-! ## Reachable states and specification-level helpers -/

/-- One public operation of the engines' shared contract. -/
inductive Op where
  | ins (key : Int) : Op
  | del (key : Int) : Op
  | find (key : Int) : Op

/-- Insertion into a duplicate-free sorted list: the list-level effect of an
engine `insert`. -/
def insList (key : Int) : List Int → List Int
  | [] => [key]
  | x :: xs =>
    if key < x then key :: x :: xs
    else if x < key then x :: insList key xs
    else x :: xs

namespace AVL

/-- Effect of one public operation on an `AVLTree` (`search` performs no
writes, so it leaves the state unchanged). -/
def step (t : Tree) : Op → Tree
  | Op.ins k => t.insert k
  | Op.del k => t.delete k
  | Op.find _ => t

/-- Run a sequence of operations from the empty tree. -/
def runOps (ops : List Op) : Tree := ops.foldl step Tree.empty

/-- States reachable through the public interface. -/
def Reachable (t : Tree) : Prop := ∃ ops, runOps ops = t

/-- Actual height of a subtree, independent of the stored fields. -/
def realHeight : AVLT → Nat
  | AVLT.leaf => 0
  | AVLT.node l _ _ r => 1 + max (realHeight l) (realHeight r)

/-- All stored height fields agree with the actual heights. -/
def hOK : AVLT → Prop
  | AVLT.leaf => True
  | AVLT.node l _ h r => hOK l ∧ hOK r ∧ h = 1 + max (realHeight l) (realHeight r)

/-- AVL balance on actual heights at every node. -/
def BalT : AVLT → Prop
  | AVLT.leaf => True
  | AVLT.node l _ _ r => BalT l ∧ BalT r ∧
      (realHeight l : Int) - realHeight r ≤ 1 ∧ (realHeight r : Int) - realHeight l ≤ 1

/-- Every node's stored height field equals `1 + max` of the children's
stored heights (0 for an absent child). -/
def HeightFieldsOK : AVLT → Prop
  | AVLT.leaf => True
  | AVLT.node l _ h r =>
      HeightFieldsOK l ∧ HeightFieldsOK r ∧ h = 1 + max (getHeight l) (getHeight r)

/-- Every node satisfies `|height(left) − height(right)| ≤ 1` on the stored
height fields. -/
def BalancedStored : AVLT → Prop
  | AVLT.leaf => True
  | AVLT.node l _ _ r => BalancedStored l ∧ BalancedStored r ∧
      (getHeight l : Int) - getHeight r ≤ 1 ∧ (getHeight r : Int) - getHeight l ≤ 1

end AVL

namespace Splay

/-- Effect of one public operation on a `SplayTree` (`search` splays, so it
does restructure the state). -/
def step (t : Tree) : Op → Tree
  | Op.ins k => t.insert k
  | Op.del k => t.delete k
  | Op.find k => (t.search k).2

/-- Run a sequence of operations from the empty tree. -/
def runOps (ops : List Op) : Tree := ops.foldl step Tree.empty

/-- States reachable through the public interface. -/
def Reachable (t : Tree) : Prop := ∃ ops, runOps ops = t

/-- Keys appearing strictly to the left of the hole of a context. -/
def ctxL : List Frame → List Int
  | [] => []
  | ⟨Dir.left, _, _⟩ :: ctx => ctxL ctx
  | ⟨Dir.right, k, s⟩ :: ctx => ctxL ctx ++ inorder s ++ [k]

/-- Keys appearing strictly to the right of the hole of a context. -/
def ctxR : List Frame → List Int
  | [] => []
  | ⟨Dir.left, k, s⟩ :: ctx => k :: inorder s ++ ctxR ctx
  | ⟨Dir.right, _, _⟩ :: ctx => ctxR ctx

/-- Key of the last node visited on the pure BST search path for `key`
(the value of `current` when the search loop of `SplayTree.search` stops). -/
def searchPathLast : ST → Int → Option Int
  | ST.nil, _ => none
  | ST.node l k r, key =>
    if key = k then some k
    else if key < k then
      match l with
      | ST.nil => some k
      | ST.node a b c => searchPathLast (ST.node a b c) key
    else
      match r with
      | ST.nil => some k
      | ST.node a b c => searchPathLast (ST.node a b c) key

end Splay

namespace RB

/-- Effect of one public operation on a `RedBlackTree`; `none` marks a crash
of the source, shown unreachable below. -/
def step (t : Tree) : Op → Option Tree
  | Op.ins k => t.insert k
  | Op.del k => t.delete k
  | Op.find _ => some t

/-- Run a sequence of operations from the empty tree. -/
def runOps (ops : List Op) : Option Tree :=
  ops.foldl (fun s op => s.bind fun t => step t op) (some Tree.empty)

/-- States reachable through the public interface. -/
def Reachable (t : Tree) : Prop := ∃ ops, runOps ops = some t

/-- The standard red-black balance judgment: `Balanced t c n` says `t` is a
valid red-black subtree with root color `c` and black-height `n` (red nodes
have black children, both children of a node carry equal black-height). -/
inductive Balanced : RBT → RBColor → Nat → Prop where
  | nil : Balanced RBT.nil RBColor.black 0
  | red : Balanced l RBColor.black n → Balanced r RBColor.black n →
      Balanced (RBT.node RBColor.red l k r) RBColor.red n
  | black : Balanced l c₁ n → Balanced r c₂ n →
      Balanced (RBT.node RBColor.black l k r) RBColor.black (n + 1)

/-- Validity of a zipper context: `RCtx hc n ctx rc m` says that filling the
hole with any balanced subtree of color `hc` and black-height `n` yields a
balanced tree of color `rc` and black-height `m`.  A red frame requires a
black hole and a black parent side. -/
inductive RCtx : RBColor → Nat → List RFrame → RBColor → Nat → Prop where
  | nil : RCtx c n [] c n
  | blackL : Balanced s cs n → RCtx RBColor.black (n + 1) ctx rc m →
      RCtx c n (⟨Dir.left, RBColor.black, k, s⟩ :: ctx) rc m
  | blackR : Balanced s cs n → RCtx RBColor.black (n + 1) ctx rc m →
      RCtx c n (⟨Dir.right, RBColor.black, k, s⟩ :: ctx) rc m
  | redL : Balanced s RBColor.black n → RCtx RBColor.red n ctx rc m →
      RCtx RBColor.black n (⟨Dir.left, RBColor.red, k, s⟩ :: ctx) rc m
  | redR : Balanced s RBColor.black n → RCtx RBColor.red n ctx rc m →
      RCtx RBColor.black n (⟨Dir.right, RBColor.red, k, s⟩ :: ctx) rc m

/-- No RED node has a RED child. -/
def NoRedRed : RBT → Prop
  | RBT.nil => True
  | RBT.node c l _ r => NoRedRed l ∧ NoRedRed r ∧
      (c = RBColor.red → colorOf l = RBColor.black ∧ colorOf r = RBColor.black)

/-- `EqBH t n`: every path from the root of `t` to a sentinel leaf contains
exactly `n` BLACK nodes. -/
inductive EqBH : RBT → Nat → Prop where
  | nil : EqBH RBT.nil 0
  | node : EqBH l n → EqBH r n →
      EqBH (RBT.node c l k r) (n + (if c = RBColor.black then 1 else 0))

/-- Keys appearing strictly to the left of the hole of a context. -/
def ctxL : List RFrame → List Int
  | [] => []
  | ⟨Dir.left, _, _, _⟩ :: ctx => ctxL ctx
  | ⟨Dir.right, _, k, s⟩ :: ctx => ctxL ctx ++ inorder s ++ [k]

/-- Keys appearing strictly to the right of the hole of a context. -/
def ctxR : List RFrame → List Int
  | [] => []
  | ⟨Dir.left, _, k, s⟩ :: ctx => k :: inorder s ++ ctxR ctx
  | ⟨Dir.right, _, _, _⟩ :: ctx => ctxR ctx

end RB

namespace AVL

/-- Invariant of reachable AVL states: stored heights correct, balanced,
keys in strictly ascending in-order (the size counter is deliberately not
constrained: `AVLTree.delete` decrements it even for absent keys). -/
def Inv (t : Tree) : Prop :=
  hOK t.root ∧ BalT t.root ∧ (inorder t.root).Sorted (· < ·)

end AVL

namespace Splay

/-- Invariant of reachable splay states: sorted in-order and an accurate
size counter. -/
def Inv (t : Tree) : Prop :=
  (inorder t.root).Sorted (· < ·) ∧ t.size = (inorder t.root).length

end Splay

namespace RB

/-- Invariant of reachable red-black states: a balanced black root, sorted
in-order and an accurate size counter. -/
def Inv (t : Tree) : Prop :=
  (∃ n, Balanced t.root RBColor.black n) ∧
  (inorder t.root).Sorted (· < ·) ∧ t.size = (inorder t.root).length

end RB

/-! ## List-level lemmas about `insList` -/

theorem mem_insList (key x : Int) : ∀ l : List Int, x ∈ insList key l ↔ x = key ∨ x ∈ l := by
  intro l
  induction l with
  | nil => simp [insList]
  | cons a as ih =>
    by_cases h1 : key < a
    · simp [insList, h1]
    · by_cases h2 : a < key
      · simp only [insList, h1, if_false, h2, if_true, List.mem_cons, ih]
        tauto
      · have : key = a := le_antisymm (not_lt.mp h2) (not_lt.mp h1)
        subst this
        simp [insList, h1, h2]

theorem insList_append_lt {key k : Int} (h : key < k) :
    ∀ A B : List Int, insList key (A ++ k :: B) = insList key A ++ k :: B := by
  intro A B
  induction A with
  | nil => simp [insList, h]
  | cons a as ih =>
    by_cases h1 : key < a
    · simp [insList, h1]
    · by_cases h2 : a < key
      · simp [insList, h1, h2, ih]
      · simp [insList, h1, h2]

theorem insList_append_gt {key k : Int} (h : k < key) :
    ∀ A B : List Int, (∀ x ∈ A, x < key) →
      insList key (A ++ k :: B) = A ++ k :: insList key B := by
  intro A B hA
  induction A with
  | nil => simp [insList, not_lt.mpr h.le, h]
  | cons a as ih =>
    have ha : a < key := hA a (by simp)
    simp only [List.cons_append, insList, not_lt.mpr ha.le, if_false, ha, if_true]
    rw [show as.append (k :: B) = as ++ k :: B from rfl, ih (fun x hx => hA x (by simp [hx]))]

theorem insList_of_mem {key : Int} :
    ∀ l : List Int, l.Sorted (· < ·) → key ∈ l → insList key l = l := by
  intro l hs hm
  induction l with
  | nil => simp at hm
  | cons a as ih =>
    rcases List.mem_cons.mp hm with h | h
    · subst h; simp [insList]
    · have ha : a < key := (List.sorted_cons.mp hs).1 key h
      simp [insList, not_lt.mpr ha.le, ha, ih (List.sorted_cons.mp hs).2 h]

theorem sorted_insList (key : Int) :
    ∀ l : List Int, l.Sorted (· < ·) → (insList key l).Sorted (· < ·) := by
  intro l hs
  induction l with
  | nil => simp [insList]
  | cons a as ih =>
    obtain ⟨ha, has⟩ := List.sorted_cons.mp hs
    by_cases h1 : key < a
    · simp only [insList, h1, if_true]
      exact List.sorted_cons.mpr ⟨fun b hb => by
        rcases List.mem_cons.mp hb with h | h
        · exact h ▸ h1
        · exact h1.trans (ha b h), hs⟩
    · by_cases h2 : a < key
      · simp only [insList, h1, if_false, h2, if_true]
        refine List.sorted_cons.mpr ⟨fun b hb => ?_, ih has⟩
        rcases (mem_insList key b as).mp hb with h | h
        · exact h ▸ h2
        · exact ha b h
      · simpa [insList, h1, h2] using hs

theorem length_insList_of_not_mem {key : Int} :
    ∀ l : List Int, key ∉ l → (insList key l).length = l.length + 1 := by
  intro l hm
  induction l with
  | nil => simp [insList]
  | cons a as ih =>
    have hne : key ≠ a := fun h => hm (h ▸ List.mem_cons_self a as)
    by_cases h1 : key < a
    · simp [insList, h1]
    · have h2 : a < key := lt_of_le_of_ne (not_lt.mp h1) (fun h => hne h.symm)
      simp [insList, h1, h2, ih (fun h => hm (List.mem_cons_of_mem a h))]

/-! ## AVL: basic lemmas -/

namespace AVL

open AVLT

theorem inorder_updateHeight (t : AVLT) : inorder (updateHeight t) = inorder t := by
  cases t <;> simp [updateHeight, inorder]

theorem inorder_rotateRight (t : AVLT) : inorder (rotateRight t) = inorder t := by
  match t with
  | leaf => rfl
  | node leaf k h r => rfl
  | node (node yl yk yh yr) zk zh zr =>
    simp [rotateRight, inorder, inorder_updateHeight, updateHeight]

theorem inorder_rotateLeft (t : AVLT) : inorder (rotateLeft t) = inorder t := by
  match t with
  | leaf => rfl
  | node l k h leaf => rfl
  | node zl zk zh (node yl yk yh yr) =>
    simp [rotateLeft, inorder, inorder_updateHeight, updateHeight]

theorem inorder_rebalanceIns (n : AVLT) (key : Int) :
    inorder (rebalanceIns n key) = inorder n := by
  cases n with
  | leaf => simp [rebalanceIns, getBalance, getHeight]
  | node l k h r =>
    simp only [rebalanceIns]
    split_ifs <;>
      simp [inorder_rotateRight, inorder_rotateLeft, inorder, leftOf, rightOf, keyOf]

theorem inorder_rebalanceDel (n : AVLT) :
    inorder (rebalanceDel n) = inorder n := by
  cases n with
  | leaf => simp [rebalanceDel, getBalance, getHeight]
  | node l k h r =>
    simp only [rebalanceDel]
    split_ifs <;>
      simp [inorder_rotateRight, inorder_rotateLeft, inorder, leftOf, rightOf, keyOf]

theorem getHeight_eq {t : AVLT} (h : hOK t) : getHeight t = realHeight t := by
  cases t with
  | leaf => rfl
  | node l k hh r => simpa [getHeight, realHeight] using h.2.2

theorem rotateRight_node (la : AVLT) (lk : Int) (lh : Nat) (lb : AVLT) (k : Int) (h : Nat)
    (r : AVLT) :
    rotateRight (node (node la lk lh lb) k h r) =
      node la lk (1 + max (getHeight la) (1 + max (getHeight lb) (getHeight r)))
        (node lb k (1 + max (getHeight lb) (getHeight r)) r) := by
  simp [rotateRight, updateHeight, getHeight]

theorem rotateLeft_node (l : AVLT) (k : Int) (h : Nat) (ra : AVLT) (rk : Int) (rh : Nat)
    (rb : AVLT) :
    rotateLeft (node l k h (node ra rk rh rb)) =
      node (node l k (1 + max (getHeight l) (getHeight ra)) ra) rk
        (1 + max (1 + max (getHeight l) (getHeight ra)) (getHeight rb)) rb := by
  simp [rotateLeft, updateHeight, getHeight]

theorem realHeight_node (l : AVLT) (k : Int) (h : Nat) (r : AVLT) :
    realHeight (node l k h r) = 1 + max (realHeight l) (realHeight r) := rfl

theorem hOK_node {l r : AVLT} {k : Int} {h : Nat} :
    hOK (node l k h r) ↔ hOK l ∧ hOK r ∧ h = 1 + max (realHeight l) (realHeight r) :=
  Iff.rfl

theorem balT_node {l r : AVLT} {k : Int} {h : Nat} :
    BalT (node l k h r) ↔ BalT l ∧ BalT r ∧
      (realHeight l : Int) - realHeight r ≤ 1 ∧ (realHeight r : Int) - realHeight l ≤ 1 :=
  Iff.rfl

theorem hOK_updateHeight {l r : AVLT} (k : Int) (h : Nat) (hl : hOK l) (hr : hOK r) :
    hOK (updateHeight (node l k h r)) := by
  simp [updateHeight, hOK_node, hl, hr, getHeight_eq hl, getHeight_eq hr]

theorem getBalance_node (l : AVLT) (k : Int) (h : Nat) (r : AVLT) :
    getBalance (node l k h r) = (getHeight l : Int) - getHeight r := rfl

theorem getHeight_node (l : AVLT) (k : Int) (h : Nat) (r : AVLT) :
    getHeight (node l k h r) = h := rfl

end AVL

namespace AVL

open AVLT


theorem rebalanceIns_LL {n : AVLT} {key : Int} (h1 : getBalance n > 1)
    (h2 : key < keyOf (leftOf n)) : rebalanceIns n key = rotateRight n := by
  simp only [rebalanceIns]
  rw [if_pos ⟨h1, h2⟩]

theorem rebalanceIns_RR {n : AVLT} {key : Int} (h1 : getBalance n < -1)
    (h2 : keyOf (rightOf n) < key) : rebalanceIns n key = rotateLeft n := by
  simp only [rebalanceIns]
  rw [if_neg (by rintro ⟨c, -⟩; omega), if_pos ⟨h1, h2⟩]

theorem rebalanceIns_LR {n : AVLT} {key : Int} (h1 : getBalance n > 1)
    (h2 : keyOf (leftOf n) < key) :
    rebalanceIns n key =
      rotateRight (node (rotateLeft (leftOf n)) (keyOf n) (getHeight n) (rightOf n)) := by
  simp only [rebalanceIns]
  rw [if_neg (by rintro ⟨-, c⟩; exact absurd c (not_lt.mpr h2.le)),
    if_neg (by rintro ⟨c, -⟩; omega), if_pos ⟨h1, h2⟩]

theorem rebalanceIns_RL {n : AVLT} {key : Int} (h1 : getBalance n < -1)
    (h2 : key < keyOf (rightOf n)) :
    rebalanceIns n key =
      rotateLeft (node (leftOf n) (keyOf n) (getHeight n) (rotateRight (rightOf n))) := by
  simp only [rebalanceIns]
  rw [if_neg (by rintro ⟨c, -⟩; omega),
    if_neg (by rintro ⟨-, c⟩; exact absurd c (not_lt.mpr h2.le)),
    if_neg (by rintro ⟨c, -⟩; omega), if_pos ⟨h1, h2⟩]

theorem rebalanceIns_id {n : AVLT} {key : Int} (h1 : -1 ≤ getBalance n)
    (h2 : getBalance n ≤ 1) : rebalanceIns n key = n := by
  simp only [rebalanceIns]
  rw [if_neg (by rintro ⟨c, -⟩; omega), if_neg (by rintro ⟨c, -⟩; omega),
    if_neg (by rintro ⟨c, -⟩; omega), if_neg (by rintro ⟨c, -⟩; omega)]

theorem rebalanceDel_L0 {n : AVLT} (h1 : getBalance n > 1)
    (h2 : getBalance (leftOf n) ≥ 0) : rebalanceDel n = rotateRight n := by
  simp only [rebalanceDel]
  rw [if_pos ⟨h1, h2⟩]

theorem rebalanceDel_L1 {n : AVLT} (h1 : getBalance n > 1)
    (h2 : getBalance (leftOf n) < 0) :
    rebalanceDel n =
      rotateRight (node (rotateLeft (leftOf n)) (keyOf n) (getHeight n) (rightOf n)) := by
  simp only [rebalanceDel]
  rw [if_neg (by rintro ⟨-, c⟩; omega), if_pos ⟨h1, h2⟩]

theorem rebalanceDel_R0 {n : AVLT} (h1 : getBalance n < -1)
    (h2 : getBalance (rightOf n) ≤ 0) : rebalanceDel n = rotateLeft n := by
  simp only [rebalanceDel]
  rw [if_neg (by rintro ⟨c, -⟩; omega), if_neg (by rintro ⟨c, -⟩; omega), if_pos ⟨h1, h2⟩]

theorem rebalanceDel_R1 {n : AVLT} (h1 : getBalance n < -1)
    (h2 : getBalance (rightOf n) > 0) :
    rebalanceDel n =
      rotateLeft (node (leftOf n) (keyOf n) (getHeight n) (rotateRight (rightOf n))) := by
  simp only [rebalanceDel]
  rw [if_neg (by rintro ⟨c, -⟩; omega), if_neg (by rintro ⟨c, -⟩; omega),
    if_neg (by rintro ⟨-, c⟩; omega), if_pos ⟨h1, h2⟩]

theorem rebalanceDel_id {n : AVLT} (h1 : -1 ≤ getBalance n) (h2 : getBalance n ≤ 1) :
    rebalanceDel n = n := by
  simp only [rebalanceDel]
  rw [if_neg (by rintro ⟨c, -⟩; omega), if_neg (by rintro ⟨c, -⟩; omega),
    if_neg (by rintro ⟨c, -⟩; omega), if_neg (by rintro ⟨c, -⟩; omega)]

set_option maxHeartbeats 1600000 in
theorem rebalanceIns_spec (key k : Int) (h : Nat) (l r : AVLT)
    (hl : hOK l) (hr : hOK r) (bl : BalT l) (br : BalT r)
    (hsL : (realHeight l : Int) = realHeight r + 2 →
      getBalance l ≠ 0 ∧ (0 < getBalance l → key < keyOf l) ∧
        (getBalance l < 0 → keyOf l < key))
    (hsR : (realHeight r : Int) = realHeight l + 2 →
      getBalance r ≠ 0 ∧ (getBalance r < 0 → keyOf r < key) ∧
        (0 < getBalance r → key < keyOf r))
    (hb2 : (realHeight l : Int) ≤ realHeight r + 2 ∧ (realHeight r : Int) ≤ realHeight l + 2) :
    hOK (rebalanceIns (updateHeight (node l k h r)) key) ∧
    BalT (rebalanceIns (updateHeight (node l k h r)) key) ∧
    inorder (rebalanceIns (updateHeight (node l k h r)) key) = inorder l ++ k :: inorder r ∧
    realHeight (rebalanceIns (updateHeight (node l k h r)) key) ≤
      1 + max (realHeight l) (realHeight r) ∧
    max (realHeight l) (realHeight r) ≤
      realHeight (rebalanceIns (updateHeight (node l k h r)) key) ∧
    (((realHeight l : Int) ≤ realHeight r + 1 ∧ (realHeight r : Int) ≤ realHeight l + 1) →
      rebalanceIns (updateHeight (node l k h r)) key = updateHeight (node l k h r)) ∧
    (((realHeight l : Int) = realHeight r + 2 ∨ (realHeight r : Int) = realHeight l + 2) →
      realHeight (rebalanceIns (updateHeight (node l k h r)) key) =
        max (realHeight l) (realHeight r)) := by
  have hgl := getHeight_eq hl
  have hgr := getHeight_eq hr
  have hn' : updateHeight (node l k h r) = node l k (1 + max (getHeight l) (getHeight r)) r := by
    simp [updateHeight]
  by_cases hA : (realHeight l : Int) ≤ realHeight r + 1 ∧ (realHeight r : Int) ≤ realHeight l + 1
  · have e : rebalanceIns (updateHeight (node l k h r)) key = updateHeight (node l k h r) := by
      rw [hn']
      simp only [rebalanceIns, getBalance_node, leftOf, rightOf, keyOf, hgl, hgr]
      rw [if_neg, if_neg, if_neg, if_neg] <;> rintro ⟨h1, -⟩ <;> omega
    rw [e, hn']
    refine ⟨⟨hl, hr, by rw [hgl, hgr]⟩, ⟨bl, br, by omega, by omega⟩, by simp [inorder],
      by simp [realHeight_node], by simp [realHeight_node], fun _ => rfl,
      fun hcon => by omega⟩
  · have hBC : (realHeight l : Int) = realHeight r + 2 ∨ (realHeight r : Int) = realHeight l + 2 := by
      omega
    rcases hBC with hB | hC
    · -- the left subtree is two levels higher
      obtain ⟨la, lk, lh, lb, rfl⟩ : ∃ la lk lh lb, l = node la lk lh lb := by
        cases l with
        | leaf => exfalso; simp [realHeight] at hB; omega
        | node a b c d => exact ⟨a, b, c, d, rfl⟩
      rw [hOK_node] at hl
      obtain ⟨hla, hlb, hlh⟩ := hl
      rw [balT_node] at bl
      obtain ⟨bla, blb, bl1, bl2⟩ := bl
      have hgla := getHeight_eq hla
      have hglb := getHeight_eq hlb
      have hbl : getBalance (node la lk lh lb) = (realHeight la : Int) - realHeight lb := by
        simp [getBalance_node, hgla, hglb]
      have hsp := hsL hB
      have hmax : 1 + max (realHeight la) (realHeight lb) = realHeight r + 2 := by
        simp [realHeight_node] at hB; omega
      by_cases hLL : realHeight lb + 1 = realHeight la
      · -- Left-Left case: single right rotation
        have hkey : key < lk := hsp.2.1 (by rw [hbl]; omega)
        have hra : realHeight la = realHeight r + 1 := by omega
        have hrb : realHeight lb = realHeight r := by omega
        have e : rebalanceIns (updateHeight (node (node la lk lh lb) k h r)) key =
            node la lk (1 + max (getHeight la) (1 + max (getHeight lb) (getHeight r)))
              (node lb k (1 + max (getHeight lb) (getHeight r)) r) := by
          rw [hn', rebalanceIns_LL (by simp [getBalance_node, hgl, hgr]; omega)
            (by simpa [leftOf, keyOf] using hkey), rotateRight_node]
        rw [e]
        clear e hn' hsL hsR hsp hb2 hbl hgl hlh
        refine ⟨⟨hla, ⟨hlb, hr, by rw [hglb, hgr]⟩, ?_⟩,
          ⟨bla, ⟨blb, br, by omega, by omega⟩, ?_, ?_⟩,
          by simp [inorder], ?_, ?_, fun hcon => absurd hcon hA, fun _ => ?_⟩ <;>
          simp [realHeight_node, hgla, hglb, hgr] <;> omega
      · -- Left-Right case: double rotation
        have hlbal : realHeight lb = realHeight la + 1 := by
          have h0 := hsp.1
          rw [hbl] at h0; omega
        have hra : realHeight la = realHeight r := by omega
        have hrb : realHeight lb = realHeight r + 1 := by omega
        have hkey : lk < key := hsp.2.2 (by rw [hbl]; omega)
        obtain ⟨ba, bk, bh, bb, rfl⟩ : ∃ ba bk bh bb, lb = node ba bk bh bb := by
          cases lb with
        | leaf => exfalso; simp [realHeight] at hrb
        | node a b c d => exact ⟨a, b, c, d, rfl⟩
        rw [hOK_node] at hlb
        obtain ⟨hba, hbb, hbh⟩ := hlb
        rw [balT_node] at blb
        obtain ⟨bba, bbb, bb1, bb2⟩ := blb
        have hgba := getHeight_eq hba
        have hgbb := getHeight_eq hbb
        have hmax2 : 1 + max (realHeight ba) (realHeight bb) = realHeight r + 1 := by
          simp [realHeight_node] at hrb; omega
        have e : rebalanceIns (updateHeight (node (node la lk lh (node ba bk bh bb)) k h r)) key =
            node (node la lk (1 + max (getHeight la) (getHeight ba)) ba) bk
              (1 + max (getHeight (node la lk (1 + max (getHeight la) (getHeight ba)) ba))
                (1 + max (getHeight bb) (getHeight r)))
              (node bb k (1 + max (getHeight bb) (getHeight r)) r) := by
          rw [hn', rebalanceIns_LR (by simp [getBalance_node, hgl, hgr]; omega)
            (by simpa [leftOf, keyOf] using hkey)]
          simp only [leftOf, rightOf, keyOf, getHeight_node]
          rw [rotateLeft_node, rotateRight_node]
          simp only [getHeight_node]
        rw [e]
        clear e hn' hsL hsR hsp hb2 hbl hgl hlh hbh
        refine ⟨⟨⟨hla, hba, by rw [hgla, hgba]⟩, ⟨hbb, hr, by rw [hgbb, hgr]⟩, ?_⟩,
          ⟨⟨bla, bba, by omega, by omega⟩, ⟨bbb, br, by omega, by omega⟩, ?_, ?_⟩,
          by simp [inorder], ?_, ?_, fun hcon => absurd hcon hA, fun _ => ?_⟩ <;>
          simp [realHeight_node, getHeight_node, hgla, hglb, hgba, hgbb, hgr] <;> omega
    · -- the right subtree is two levels higher
      obtain ⟨ra, rk, rh, rb, rfl⟩ : ∃ ra rk rh rb, r = node ra rk rh rb := by
        cases r with
        | leaf => exfalso; simp [realHeight] at hC; omega
        | node a b c d => exact ⟨a, b, c, d, rfl⟩
      rw [hOK_node] at hr
      obtain ⟨hra, hrb, hrh⟩ := hr
      rw [balT_node] at br
      obtain ⟨bra, brb, br1, br2⟩ := br
      have hgra := getHeight_eq hra
      have hgrb := getHeight_eq hrb
      have hbr : getBalance (node ra rk rh rb) = (realHeight ra : Int) - realHeight rb := by
        simp [getBalance_node, hgra, hgrb]
      have hsp := hsR hC
      have hmax : 1 + max (realHeight ra) (realHeight rb) = realHeight l + 2 := by
        simp [realHeight_node] at hC; omega
      by_cases hRR : realHeight ra + 1 = realHeight rb
      · -- Right-Right case: single left rotation
        have hkey : rk < key := hsp.2.1 (by rw [hbr]; omega)
        have hh1 : realHeight rb = realHeight l + 1 := by omega
        have hh2 : realHeight ra = realHeight l := by omega
        have e : rebalanceIns (updateHeight (node l k h (node ra rk rh rb))) key =
            node (node l k (1 + max (getHeight l) (getHeight ra)) ra) rk
              (1 + max (1 + max (getHeight l) (getHeight ra)) (getHeight rb)) rb := by
          rw [hn', rebalanceIns_RR (by simp [getBalance_node, hgl, hgr]; omega)
            (by simpa [rightOf, keyOf] using hkey), rotateLeft_node]
        rw [e]
        clear e hn' hsL hsR hsp hb2 hbr hgr hrh
        refine ⟨⟨⟨hl, hra, by rw [hgl, hgra]⟩, hrb, ?_⟩,
          ⟨⟨bl, bra, by omega, by omega⟩, brb, ?_, ?_⟩,
          by simp [inorder], ?_, ?_, fun hcon => absurd hcon hA, fun _ => ?_⟩ <;>
          simp [realHeight_node, getHeight_node, hgl, hgra, hgrb] <;> omega
      · -- Right-Left case: double rotation
        have hrbal : realHeight ra = realHeight rb + 1 := by
          have h0 := hsp.1
          rw [hbr] at h0; omega
        have hh1 : realHeight ra = realHeight l + 1 := by omega
        have hh2 : realHeight rb = realHeight l := by omega
        have hkey : key < rk := hsp.2.2 (by rw [hbr]; omega)
        obtain ⟨aa, ak, ah, ab, rfl⟩ : ∃ aa ak ah ab, ra = node aa ak ah ab := by
          cases ra with
        | leaf => exfalso; simp [realHeight] at hh1
        | node a b c d => exact ⟨a, b, c, d, rfl⟩
        rw [hOK_node] at hra
        obtain ⟨haa, hab, hah⟩ := hra
        rw [balT_node] at bra
        obtain ⟨baa, bab, ba1, ba2⟩ := bra
        have hgaa := getHeight_eq haa
        have hgab := getHeight_eq hab
        have hmax2 : 1 + max (realHeight aa) (realHeight ab) = realHeight l + 1 := by
          simp [realHeight_node] at hh1; omega
        have e : rebalanceIns (updateHeight (node l k h (node (node aa ak ah ab) rk rh rb))) key =
            node (node l k (1 + max (getHeight l) (getHeight aa)) aa) ak
              (1 + max (1 + max (getHeight l) (getHeight aa))
                (getHeight (node ab rk (1 + max (getHeight ab) (getHeight rb)) rb)))
              (node ab rk (1 + max (getHeight ab) (getHeight rb)) rb) := by
          rw [hn', rebalanceIns_RL (by simp [getBalance_node, hgl, hgr]; omega)
            (by simpa [rightOf, keyOf] using hkey)]
          simp only [leftOf, rightOf, keyOf, getHeight_node]
          rw [rotateRight_node, rotateLeft_node]
          simp only [getHeight_node]
        rw [e]
        clear e hn' hsL hsR hsp hb2 hbr hgr hrh hah
        refine ⟨⟨⟨hl, haa, by rw [hgl, hgaa]⟩, ⟨hab, hrb, by rw [hgab, hgrb]⟩, ?_⟩,
          ⟨⟨bl, baa, by omega, by omega⟩, ⟨bab, brb, by omega, by omega⟩, ?_, ?_⟩,
          by simp [inorder], ?_, ?_, fun hcon => absurd hcon hA, fun _ => ?_⟩ <;>
          simp [realHeight_node, getHeight_node, hgl, hgaa, hgab, hgrb] <;> omega

end AVL

theorem sorted_node_parts {A B : List Int} {k : Int}
    (h : (A ++ k :: B).Sorted (· < ·)) :
    A.Sorted (· < ·) ∧ B.Sorted (· < ·) ∧ (∀ a ∈ A, a < k) ∧ (∀ b ∈ B, k < b) := by
  rw [List.Sorted, List.pairwise_append] at h
  obtain ⟨hA, hkB, hcross⟩ := h
  rw [List.pairwise_cons] at hkB
  exact ⟨hA, hkB.2, fun a ha => hcross a ha k (by simp), fun b hb => hkB.1 b hb⟩

theorem mem_split_left {A B : List Int} {k key : Int}
    (h : (A ++ k :: B).Sorted (· < ·)) (hlt : key < k) :
    key ∈ A ++ k :: B ↔ key ∈ A := by
  obtain ⟨-, -, -, hB⟩ := sorted_node_parts h
  simp only [List.mem_append, List.mem_cons]
  constructor
  · rintro (h | h | h)
    · exact h
    · exact absurd h (by omega)
    · exact absurd (hB key h) (by omega)
  · exact fun h => Or.inl h

theorem mem_split_right {A B : List Int} {k key : Int}
    (h : (A ++ k :: B).Sorted (· < ·)) (hgt : k < key) :
    key ∈ A ++ k :: B ↔ key ∈ B := by
  obtain ⟨-, -, hA, -⟩ := sorted_node_parts h
  simp only [List.mem_append, List.mem_cons]
  constructor
  · rintro (h | h | h)
    · exact absurd (hA key h) (by omega)
    · exact absurd h (by omega)
    · exact h
  · exact fun h => Or.inr (Or.inr h)

namespace AVL

open AVLT

theorem realHeight_updateHeight (l : AVLT) (k : Int) (h : Nat) (r : AVLT) :
    realHeight (updateHeight (node l k h r)) = 1 + max (realHeight l) (realHeight r) := rfl

set_option maxHeartbeats 2000000 in
theorem insertHelper_spec :
    ∀ (t : AVLT) (key : Int), hOK t → BalT t → (inorder t).Sorted (· < ·) →
    hOK (insertHelper t key).1 ∧ BalT (insertHelper t key).1 ∧
    inorder (insertHelper t key).1 = insList key (inorder t) ∧
    ((insertHelper t key).2 = true ↔ key ∉ inorder t) ∧
    realHeight t ≤ realHeight (insertHelper t key).1 ∧
    realHeight (insertHelper t key).1 ≤ realHeight t + 1 ∧
    (realHeight (insertHelper t key).1 = realHeight t + 1 → 1 ≤ realHeight t →
      getBalance (insertHelper t key).1 ≠ 0 ∧
      (0 < getBalance (insertHelper t key).1 → key < keyOf (insertHelper t key).1) ∧
      (getBalance (insertHelper t key).1 < 0 → keyOf (insertHelper t key).1 < key)) := by
  intro t
  induction t with
  | leaf =>
    intro key _ _ _
    refine ⟨⟨trivial, trivial, rfl⟩, ⟨trivial, trivial, by simp [realHeight], by simp [realHeight]⟩,
      rfl, by simp [insertHelper, inorder], by simp [insertHelper, realHeight],
      by simp [insertHelper, realHeight], fun _ h2 => absurd h2 (by simp [realHeight])⟩
  | node l k h r ihl ihr =>
    intro key hOKt balt hs
    rw [hOK_node] at hOKt
    obtain ⟨hl, hr, hh⟩ := hOKt
    rw [balT_node] at balt
    obtain ⟨bl, br, b1, b2⟩ := balt
    rw [show inorder (node l k h r) = inorder l ++ k :: inorder r from rfl] at hs
    obtain ⟨hsl, hsr, hkl, hkr⟩ := sorted_node_parts hs
    rcases lt_trichotomy key k with hlt | heq | hgt
    · -- descend left
      obtain ⟨ih1, ih2, ih3, ih4, ih5, ih6, ih7⟩ := ihl key hl bl hsl
      rcases hpe : insertHelper l key with ⟨l1, fl⟩
      rw [hpe] at ih1 ih2 ih3 ih4 ih5 ih6 ih7
      dsimp only at ih1 ih2 ih3 ih4 ih5 ih6 ih7
      have hred : insertHelper (node l k h r) key =
          (rebalanceIns (updateHeight (node l1 k h r)) key, fl) := by
        simp [insertHelper, hlt, hpe]
      clear ihl ihr hpe hh
      have hsL : (realHeight l1 : Int) = realHeight r + 2 →
          getBalance l1 ≠ 0 ∧ (0 < getBalance l1 → key < keyOf l1) ∧
            (getBalance l1 < 0 → keyOf l1 < key) := by
        intro hgrow
        exact ih7 (by omega) (by omega)
      have hsR : (realHeight r : Int) = realHeight l1 + 2 →
          getBalance r ≠ 0 ∧ (getBalance r < 0 → keyOf r < key) ∧
            (0 < getBalance r → key < keyOf r) :=
        fun hcon => absurd hcon (by omega)
      obtain ⟨s1, s2, s3, s4, s5, s6, s7⟩ :=
        rebalanceIns_spec key k h l1 r ih1 hr ih2 br hsL hsR (by omega)
      rw [hred]
      dsimp only
      refine ⟨s1, s2, ?_, ?_, ?_, ?_, ?_⟩
      · rw [s3, ih3, show inorder (node l k h r) = inorder l ++ k :: inorder r from rfl,
          insList_append_lt hlt]
      · have hmm : key ∈ inorder (node l k h r) ↔ key ∈ inorder l :=
          mem_split_left hs hlt
        simpa [hmm] using ih4
      · rw [realHeight_node]
        by_cases hd : (realHeight l1 : Int) ≤ realHeight r + 1 ∧
            (realHeight r : Int) ≤ realHeight l1 + 1
        · rw [s6 hd, realHeight_updateHeight]
          omega
        · have := s7 (by omega)
          omega
      · rw [realHeight_node]; omega
      · rw [realHeight_node]
        intro hgrow hpos
        by_cases hd : (realHeight l1 : Int) ≤ realHeight r + 1 ∧
            (realHeight r : Int) ≤ realHeight l1 + 1
        · have e := s6 hd
          rw [e] at hgrow ⊢
          rw [realHeight_updateHeight] at hgrow
          have e2 : updateHeight (node l1 k h r) =
              node l1 k (1 + max (getHeight l1) (getHeight r)) r := by
            simp [updateHeight]
          rw [e2, getBalance_node, keyOf, getHeight_eq ih1, getHeight_eq hr]
          refine ⟨by omega, fun _ => hlt, fun hneg => absurd hneg (by omega)⟩
        · have := s7 (by omega)
          omega
    · -- duplicate key
      have hred : insertHelper (node l k h r) key = (node l k h r, false) := by
        simp [insertHelper, heq]
      clear ihl ihr
      rw [hred]
      dsimp only
      have hmem : key ∈ inorder (node l k h r) := by
        rw [show inorder (node l k h r) = inorder l ++ k :: inorder r from rfl]
        simp [heq]
      refine ⟨⟨hl, hr, hh⟩, ⟨bl, br, b1, b2⟩, ?_, ?_, le_refl _, by omega, ?_⟩
      · exact (insList_of_mem _ hs hmem).symm
      · simp [hmem]
      · intro hcon
        omega
    · -- descend right
      obtain ⟨ih1, ih2, ih3, ih4, ih5, ih6, ih7⟩ := ihr key hr br hsr
      rcases hpe : insertHelper r key with ⟨r1, fl⟩
      rw [hpe] at ih1 ih2 ih3 ih4 ih5 ih6 ih7
      dsimp only at ih1 ih2 ih3 ih4 ih5 ih6 ih7
      have hred : insertHelper (node l k h r) key =
          (rebalanceIns (updateHeight (node l k h r1)) key, fl) := by
        simp [insertHelper, hgt, show ¬ key < k by omega, hpe]
      clear ihl ihr hpe hh
      have hsR : (realHeight r1 : Int) = realHeight l + 2 →
          getBalance r1 ≠ 0 ∧ (getBalance r1 < 0 → keyOf r1 < key) ∧
            (0 < getBalance r1 → key < keyOf r1) := by
        intro hgrow
        have h7 := ih7 (by omega) (by omega)
        exact ⟨h7.1, h7.2.2, h7.2.1⟩
      have hsL : (realHeight l : Int) = realHeight r1 + 2 →
          getBalance l ≠ 0 ∧ (0 < getBalance l → key < keyOf l) ∧
            (getBalance l < 0 → keyOf l < key) :=
        fun hcon => absurd hcon (by omega)
      obtain ⟨s1, s2, s3, s4, s5, s6, s7⟩ :=
        rebalanceIns_spec key k h l r1 hl ih1 bl ih2 hsL hsR (by omega)
      rw [hred]
      dsimp only
      refine ⟨s1, s2, ?_, ?_, ?_, ?_, ?_⟩
      · rw [s3, ih3, show inorder (node l k h r) = inorder l ++ k :: inorder r from rfl,
          insList_append_gt hgt _ _ (fun x hx => lt_trans (hkl x hx) hgt)]
      · have hmm : key ∈ inorder (node l k h r) ↔ key ∈ inorder r :=
          mem_split_right hs hgt
        simpa [hmm] using ih4
      · rw [realHeight_node]
        by_cases hd : (realHeight l : Int) ≤ realHeight r1 + 1 ∧
            (realHeight r1 : Int) ≤ realHeight l + 1
        · rw [s6 hd, realHeight_updateHeight]
          omega
        · have := s7 (by omega)
          omega
      · rw [realHeight_node]; omega
      · rw [realHeight_node]
        intro hgrow hpos
        by_cases hd : (realHeight l : Int) ≤ realHeight r1 + 1 ∧
            (realHeight r1 : Int) ≤ realHeight l + 1
        · have e := s6 hd
          rw [e] at hgrow ⊢
          rw [realHeight_updateHeight] at hgrow
          have e2 : updateHeight (node l k h r1) =
              node l k (1 + max (getHeight l) (getHeight r1)) r1 := by
            simp [updateHeight]
          rw [e2, getBalance_node, keyOf, getHeight_eq hl, getHeight_eq ih1]
          refine ⟨by omega, fun hposb => absurd hposb (by omega), fun _ => hgt⟩
        · have := s7 (by omega)
          omega

end AVL

theorem erase_middle_lt {A B : List Int} {k key : Int}
    (h : (A ++ k :: B).Sorted (· < ·)) (hlt : key < k) :
    (A ++ k :: B).erase key = A.erase key ++ k :: B := by
  by_cases hm : key ∈ A
  · exact List.erase_append_left _ hm
  · rw [List.erase_append_right _ hm, List.erase_of_not_mem hm]
    have : key ∉ k :: B := by
      obtain ⟨-, -, -, hB⟩ := sorted_node_parts h
      simp only [List.mem_cons]
      rintro (rfl | hx)
      · omega
      · exact absurd (hB key hx) (by omega)
    rw [List.erase_of_not_mem this]

theorem erase_middle_gt {A B : List Int} {k key : Int}
    (h : (A ++ k :: B).Sorted (· < ·)) (hgt : k < key) :
    (A ++ k :: B).erase key = A ++ k :: B.erase key := by
  have hmA : key ∉ A := by
    obtain ⟨-, -, hA, -⟩ := sorted_node_parts h
    intro hx
    exact absurd (hA key hx) (by omega)
  rw [List.erase_append_right _ hmA, List.erase_cons_tail (by simp; omega)]

theorem erase_middle_eq {A B : List Int} {k : Int} (hA : ∀ a ∈ A, a < k) :
    (A ++ k :: B).erase k = A ++ B := by
  have hmA : k ∉ A := fun hx => absurd (hA k hx) (by omega)
  rw [List.erase_append_right _ hmA, List.erase_cons_head]

theorem sorted_erase {l : List Int} (h : l.Sorted (· < ·)) (key : Int) :
    (l.erase key).Sorted (· < ·) :=
  List.Pairwise.sublist (List.erase_sublist key l) h

namespace AVL

open AVLT

theorem getMinKey_head (e : AVLT) (f : Int) (g : Nat) (i : AVLT) :
    ∃ tl, inorder (node e f g i) = getMinKey (node e f g i) :: tl := by
  induction e generalizing f g i with
  | leaf => exact ⟨inorder i, rfl⟩
  | node a b c d iha _ =>
    obtain ⟨tl, htl⟩ := iha b c d
    refine ⟨tl ++ f :: inorder i, ?_⟩
    rw [show inorder (node (node a b c d) f g i) =
      inorder (node a b c d) ++ f :: inorder i from rfl, htl,
      show getMinKey (node (node a b c d) f g i) = getMinKey (node a b c d) from rfl]
    simp

theorem searchHelper_spec :
    ∀ (t : AVLT) (key : Int), (inorder t).Sorted (· < ·) →
    (searchHelper t key = true ↔ key ∈ inorder t) := by
  intro t
  induction t with
  | leaf => intro key _; simp [searchHelper, inorder]
  | node l k h r ihl ihr =>
    intro key hs
    rw [show inorder (node l k h r) = inorder l ++ k :: inorder r from rfl] at hs ⊢
    obtain ⟨hsl, hsr, -, -⟩ := sorted_node_parts hs
    rcases lt_trichotomy key k with hlt | heq | hgt
    · rw [show searchHelper (node l k h r) key = searchHelper l key by
        simp [searchHelper, hlt, show key ≠ k by omega]]
      rw [ihl key hsl, mem_split_left hs hlt]
    · subst heq
      simp [searchHelper]
    · rw [show searchHelper (node l k h r) key = searchHelper r key by
        simp [searchHelper, show ¬ key < k by omega, show key ≠ k by omega]]
      rw [ihr key hsr, mem_split_right hs hgt]

end AVL

namespace AVL

open AVLT

set_option maxHeartbeats 1600000 in
theorem rebalanceDel_spec (k : Int) (h : Nat) (l r : AVLT)
    (hl : hOK l) (hr : hOK r) (bl : BalT l) (br : BalT r)
    (hb2 : (realHeight l : Int) ≤ realHeight r + 2 ∧ (realHeight r : Int) ≤ realHeight l + 2) :
    hOK (rebalanceDel (updateHeight (node l k h r))) ∧
    BalT (rebalanceDel (updateHeight (node l k h r))) ∧
    inorder (rebalanceDel (updateHeight (node l k h r))) = inorder l ++ k :: inorder r ∧
    realHeight (rebalanceDel (updateHeight (node l k h r))) ≤
      1 + max (realHeight l) (realHeight r) ∧
    max (realHeight l) (realHeight r) ≤
      realHeight (rebalanceDel (updateHeight (node l k h r))) ∧
    (((realHeight l : Int) ≤ realHeight r + 1 ∧ (realHeight r : Int) ≤ realHeight l + 1) →
      rebalanceDel (updateHeight (node l k h r)) = updateHeight (node l k h r)) := by
  have hgl := getHeight_eq hl
  have hgr := getHeight_eq hr
  have hn' : updateHeight (node l k h r) = node l k (1 + max (getHeight l) (getHeight r)) r := by
    simp [updateHeight]
  by_cases hA : (realHeight l : Int) ≤ realHeight r + 1 ∧ (realHeight r : Int) ≤ realHeight l + 1
  · have e : rebalanceDel (updateHeight (node l k h r)) = updateHeight (node l k h r) := by
      rw [hn', rebalanceDel_id (by simp [getBalance_node, hgl, hgr]; omega)
        (by simp [getBalance_node, hgl, hgr]; omega)]
    rw [e, hn']
    exact ⟨⟨hl, hr, by rw [hgl, hgr]⟩, ⟨bl, br, by omega, by omega⟩, by simp [inorder],
      by simp [realHeight_node], by simp [realHeight_node], fun _ => hn'.symm⟩
  · have hBC : (realHeight l : Int) = realHeight r + 2 ∨
        (realHeight r : Int) = realHeight l + 2 := by omega
    rcases hBC with hB | hC
    · obtain ⟨la, lk, lh, lb, rfl⟩ : ∃ la lk lh lb, l = node la lk lh lb := by
        cases l with
        | leaf => exfalso; simp [realHeight] at hB; omega
        | node a b c d => exact ⟨a, b, c, d, rfl⟩
      rw [hOK_node] at hl
      obtain ⟨hla, hlb, hlh⟩ := hl
      rw [balT_node] at bl
      obtain ⟨bla, blb, bl1, bl2⟩ := bl
      have hgla := getHeight_eq hla
      have hglb := getHeight_eq hlb
      have hmax : 1 + max (realHeight la) (realHeight lb) = realHeight r + 2 := by
        simp [realHeight_node] at hB; omega
      by_cases hLL : realHeight lb ≤ realHeight la
      · -- balance(left) >= 0: single right rotation
        have e : rebalanceDel (updateHeight (node (node la lk lh lb) k h r)) =
            node la lk (1 + max (getHeight la) (1 + max (getHeight lb) (getHeight r)))
              (node lb k (1 + max (getHeight lb) (getHeight r)) r) := by
          rw [hn', rebalanceDel_L0 (by simp [getBalance_node, hgl, hgr]; omega)
            (by simp [leftOf, getBalance_node, hgla, hglb]; omega), rotateRight_node]
        rw [e]
        clear e hn' hb2 hgl hlh
        refine ⟨⟨hla, ⟨hlb, hr, by rw [hglb, hgr]⟩, ?_⟩,
          ⟨bla, ⟨blb, br, by omega, by omega⟩, ?_, ?_⟩,
          by simp [inorder], ?_, ?_, fun hcon => absurd hcon hA⟩ <;>
          simp [realHeight_node, getHeight_node, hgla, hglb, hgr] <;> omega
      · -- balance(left) < 0: double rotation
        have hlbal : realHeight lb = realHeight la + 1 := by omega
        have hra : realHeight la = realHeight r := by omega
        have hrb : realHeight lb = realHeight r + 1 := by omega
        obtain ⟨ba, bk, bh, bb, rfl⟩ : ∃ ba bk bh bb, lb = node ba bk bh bb := by
          cases lb with
        | leaf => exfalso; simp [realHeight] at hrb
        | node a b c d => exact ⟨a, b, c, d, rfl⟩
        rw [hOK_node] at hlb
        obtain ⟨hba, hbb, hbh⟩ := hlb
        rw [balT_node] at blb
        obtain ⟨bba, bbb, bb1, bb2⟩ := blb
        have hgba := getHeight_eq hba
        have hgbb := getHeight_eq hbb
        have hmax2 : 1 + max (realHeight ba) (realHeight bb) = realHeight r + 1 := by
          simp [realHeight_node] at hrb; omega
        have e : rebalanceDel (updateHeight (node (node la lk lh (node ba bk bh bb)) k h r)) =
            node (node la lk (1 + max (getHeight la) (getHeight ba)) ba) bk
              (1 + max (1 + max (getHeight la) (getHeight ba))
                (1 + max (getHeight bb) (getHeight r)))
              (node bb k (1 + max (getHeight bb) (getHeight r)) r) := by
          rw [hn', rebalanceDel_L1 (by simp [getBalance_node, hgl, hgr]; omega)
            (by simp [leftOf, getBalance_node, hgla, hglb]; omega)]
          simp only [leftOf, rightOf, keyOf, getHeight_node]
          rw [rotateLeft_node, rotateRight_node]
          simp only [getHeight_node]
        rw [e]
        clear e hn' hb2 hgl hlh hglb hbh
        refine ⟨⟨⟨hla, hba, by rw [hgla, hgba]⟩, ⟨hbb, hr, by rw [hgbb, hgr]⟩, ?_⟩,
          ⟨⟨bla, bba, by omega, by omega⟩, ⟨bbb, br, by omega, by omega⟩, ?_, ?_⟩,
          by simp [inorder], ?_, ?_, fun hcon => absurd hcon hA⟩ <;>
          simp [realHeight_node, getHeight_node, hgla, hgba, hgbb, hgr] <;> omega
    · obtain ⟨ra, rk, rh, rb, rfl⟩ : ∃ ra rk rh rb, r = node ra rk rh rb := by
        cases r with
        | leaf => exfalso; simp [realHeight] at hC; omega
        | node a b c d => exact ⟨a, b, c, d, rfl⟩
      rw [hOK_node] at hr
      obtain ⟨hra, hrb, hrh⟩ := hr
      rw [balT_node] at br
      obtain ⟨bra, brb, br1, br2⟩ := br
      have hgra := getHeight_eq hra
      have hgrb := getHeight_eq hrb
      have hmax : 1 + max (realHeight ra) (realHeight rb) = realHeight l + 2 := by
        simp [realHeight_node] at hC; omega
      by_cases hRR : realHeight ra ≤ realHeight rb
      · -- balance(right) <= 0: single left rotation
        have e : rebalanceDel (updateHeight (node l k h (node ra rk rh rb))) =
            node (node l k (1 + max (getHeight l) (getHeight ra)) ra) rk
              (1 + max (1 + max (getHeight l) (getHeight ra)) (getHeight rb)) rb := by
          rw [hn', rebalanceDel_R0 (by simp [getBalance_node, hgl, hgr]; omega)
            (by simp [rightOf, getBalance_node, hgra, hgrb]; omega), rotateLeft_node]
        rw [e]
        clear e hn' hb2 hgr hrh
        refine ⟨⟨⟨hl, hra, by rw [hgl, hgra]⟩, hrb, ?_⟩,
          ⟨⟨bl, bra, by omega, by omega⟩, brb, ?_, ?_⟩,
          by simp [inorder], ?_, ?_, fun hcon => absurd hcon hA⟩ <;>
          simp [realHeight_node, getHeight_node, hgl, hgra, hgrb] <;> omega
      · -- balance(right) > 0: double rotation
        have hrbal : realHeight ra = realHeight rb + 1 := by omega
        have hh1 : realHeight ra = realHeight l + 1 := by omega
        have hh2 : realHeight rb = realHeight l := by omega
        obtain ⟨aa, ak, ah, ab, rfl⟩ : ∃ aa ak ah ab, ra = node aa ak ah ab := by
          cases ra with
        | leaf => exfalso; simp [realHeight] at hh1
        | node a b c d => exact ⟨a, b, c, d, rfl⟩
        rw [hOK_node] at hra
        obtain ⟨haa, hab, hah⟩ := hra
        rw [balT_node] at bra
        obtain ⟨baa, bab, ba1, ba2⟩ := bra
        have hgaa := getHeight_eq haa
        have hgab := getHeight_eq hab
        have hmax2 : 1 + max (realHeight aa) (realHeight ab) = realHeight l + 1 := by
          simp [realHeight_node] at hh1; omega
        have e : rebalanceDel (updateHeight (node l k h (node (node aa ak ah ab) rk rh rb))) =
            node (node l k (1 + max (getHeight l) (getHeight aa)) aa) ak
              (1 + max (1 + max (getHeight l) (getHeight aa))
                (getHeight (node ab rk (1 + max (getHeight ab) (getHeight rb)) rb)))
              (node ab rk (1 + max (getHeight ab) (getHeight rb)) rb) := by
          rw [hn', rebalanceDel_R1 (by simp [getBalance_node, hgl, hgr]; omega)
            (by simp [rightOf, getBalance_node, hgaa, hgab]; omega)]
          simp only [leftOf, rightOf, keyOf, getHeight_node]
          rw [rotateRight_node, rotateLeft_node]
          simp only [getHeight_node]
        rw [e]
        clear e hn' hb2 hgr hrh hah
        refine ⟨⟨⟨hl, haa, by rw [hgl, hgaa]⟩, ⟨hab, hrb, by rw [hgab, hgrb]⟩, ?_⟩,
          ⟨⟨bl, baa, by omega, by omega⟩, ⟨bab, brb, by omega, by omega⟩, ?_, ?_⟩,
          by simp [inorder], ?_, ?_, fun hcon => absurd hcon hA⟩ <;>
          simp [realHeight_node, getHeight_node, hgl, hgaa, hgab, hgrb] <;> omega

end AVL

namespace AVL

open AVLT

theorem deleteHelper_lt {l r : AVLT} {k key : Int} {h : Nat} (hlt : key < k) :
    deleteHelper (node l k h r) key =
      rebalanceDel (updateHeight (node (deleteHelper l key) k h r)) := by
  cases l <;> cases r <;> simp [deleteHelper, hlt]

theorem deleteHelper_gt {l r : AVLT} {k key : Int} {h : Nat} (hgt : k < key) :
    deleteHelper (node l k h r) key =
      rebalanceDel (updateHeight (node l k h (deleteHelper r key))) := by
  cases l <;> cases r <;>
    simp [deleteHelper, show ¬ key < k by omega, hgt, show key ≠ k by omega]

set_option maxHeartbeats 1000000 in
theorem deleteHelper_spec :
    ∀ (t : AVLT) (key : Int), hOK t → BalT t → (inorder t).Sorted (· < ·) →
    hOK (deleteHelper t key) ∧ BalT (deleteHelper t key) ∧
    inorder (deleteHelper t key) = (inorder t).erase key ∧
    realHeight (deleteHelper t key) ≤ realHeight t ∧
    realHeight t ≤ realHeight (deleteHelper t key) + 1 := by
  intro t
  induction t with
  | leaf =>
    intro key _ _ _
    exact ⟨trivial, trivial, by simp [deleteHelper, inorder], le_refl _,
      by simp [deleteHelper, realHeight]⟩
  | node l k h r ihl ihr =>
    intro key hOKt balt hs
    rw [hOK_node] at hOKt
    obtain ⟨hl, hr, hh⟩ := hOKt
    rw [balT_node] at balt
    obtain ⟨bl, br, b1, b2⟩ := balt
    rw [show inorder (node l k h r) = inorder l ++ k :: inorder r from rfl] at hs ⊢
    obtain ⟨hsl, hsr, hkl, hkr⟩ := sorted_node_parts hs
    rcases lt_trichotomy key k with hlt | heq | hgt
    · -- descend left
      obtain ⟨ih1, ih2, ih3, ih4, ih5⟩ := ihl key hl bl hsl
      have hpe : ∃ l1, deleteHelper l key = l1 := ⟨_, rfl⟩
      obtain ⟨l1, hpe⟩ := hpe
      rw [hpe] at ih1 ih2 ih3 ih4 ih5
      have hred : deleteHelper (node l k h r) key =
          rebalanceDel (updateHeight (node l1 k h r)) := by
        rw [deleteHelper_lt hlt, hpe]
      clear ihl ihr hpe hh
      obtain ⟨s1, s2, s3, s4, s5, s6⟩ := rebalanceDel_spec k h l1 r ih1 hr ih2 br (by omega)
      rw [hred]
      refine ⟨s1, s2, ?_, ?_, ?_⟩
      · rw [s3, ih3, erase_middle_lt hs hlt]
      · rw [realHeight_node l k h r]; omega
      · rw [realHeight_node l k h r]
        by_cases hd : (realHeight l1 : Int) ≤ realHeight r + 1 ∧
            (realHeight r : Int) ≤ realHeight l1 + 1
        · rw [s6 hd, realHeight_updateHeight]
          omega
        · omega
    · -- the key is at this node
      subst heq
      rcases l with _ | ⟨a, b, c, d⟩
      · have hred : deleteHelper (node leaf key h r) key = r := by
          simp [deleteHelper]
        rw [hred]
        have hz : realHeight (leaf : AVLT) = 0 := rfl
        refine ⟨hr, br, ?_, ?_, ?_⟩
        · rw [show inorder (leaf : AVLT) = ([] : List Int) from rfl, List.nil_append,
            List.erase_cons_head]
        · rw [realHeight_node leaf key h r]; omega
        · rw [realHeight_node leaf key h r]; omega
      · rcases r with _ | ⟨e, f, g, i⟩
        · have hred : deleteHelper (node (node a b c d) key h leaf) key = node a b c d := by
            simp [deleteHelper]
          rw [hred]
          have hz : realHeight (leaf : AVLT) = 0 := rfl
          refine ⟨hl, bl, ?_, ?_, ?_⟩
          · rw [show inorder (leaf : AVLT) = ([] : List Int) from rfl, erase_middle_eq hkl,
              List.append_nil]
          · rw [realHeight_node (node a b c d) key h leaf]; omega
          · rw [realHeight_node (node a b c d) key h leaf]; omega
        · -- two children: copy the successor key, delete it from the right subtree
          obtain ⟨tl, htl⟩ := getMinKey_head e f g i
          obtain ⟨ih1, ih2, ih3, ih4, ih5⟩ := ihr (getMinKey (node e f g i)) hr br hsr
          have hpe : ∃ r1, deleteHelper (node e f g i) (getMinKey (node e f g i)) = r1 :=
            ⟨_, rfl⟩
          obtain ⟨r1, hpe⟩ := hpe
          rw [hpe] at ih1 ih2 ih3 ih4 ih5
          have hred : deleteHelper (node (node a b c d) key h (node e f g i)) key =
              rebalanceDel (updateHeight
                (node (node a b c d) (getMinKey (node e f g i)) h r1)) := by
            rw [show deleteHelper (node (node a b c d) key h (node e f g i)) key =
              rebalanceDel (updateHeight
                (node (node a b c d) (getMinKey (node e f g i)) h
                  (deleteHelper (node e f g i) (getMinKey (node e f g i))))) by
              simp [deleteHelper], hpe]
          clear ihl ihr hpe hh
          obtain ⟨s1, s2, s3, s4, s5, s6⟩ :=
            rebalanceDel_spec (getMinKey (node e f g i)) h (node a b c d) r1 hl ih1 bl ih2
              (by omega)
          rw [hred]
          refine ⟨s1, s2, ?_, ?_, ?_⟩
          · rw [s3, ih3, erase_middle_eq hkl, htl, List.erase_cons_head]
          · rw [realHeight_node (node a b c d) key h (node e f g i)]; omega
          · rw [realHeight_node (node a b c d) key h (node e f g i)]
            by_cases hd : (realHeight (node a b c d) : Int) ≤ realHeight r1 + 1 ∧
                (realHeight r1 : Int) ≤ realHeight (node a b c d) + 1
            · rw [s6 hd, realHeight_updateHeight]
              omega
            · omega
    · -- descend right
      obtain ⟨ih1, ih2, ih3, ih4, ih5⟩ := ihr key hr br hsr
      have hpe : ∃ r1, deleteHelper r key = r1 := ⟨_, rfl⟩
      obtain ⟨r1, hpe⟩ := hpe
      rw [hpe] at ih1 ih2 ih3 ih4 ih5
      have hred : deleteHelper (node l k h r) key =
          rebalanceDel (updateHeight (node l k h r1)) := by
        rw [deleteHelper_gt hgt, hpe]
      clear ihl ihr hpe hh
      obtain ⟨s1, s2, s3, s4, s5, s6⟩ := rebalanceDel_spec k h l r1 hl ih1 bl ih2 (by omega)
      rw [hred]
      refine ⟨s1, s2, ?_, ?_, ?_⟩
      · rw [s3, ih3, erase_middle_gt hs hgt]
      · rw [realHeight_node l k h r]; omega
      · rw [realHeight_node l k h r]
        by_cases hd : (realHeight l : Int) ≤ realHeight r1 + 1 ∧
            (realHeight r1 : Int) ≤ realHeight l + 1
        · rw [s6 hd, realHeight_updateHeight]
          omega
        · omega

end AVL

namespace AVL

open AVLT

theorem insert_spec {t : Tree} (h : Inv t) (key : Int) :
    Inv (t.insert key) ∧
    inorder (t.insert key).root = insList key (inorder t.root) ∧
    (t.insert key).size = (if key ∈ inorder t.root then t.size else t.size + 1) := by
  obtain ⟨h1, h2, h3⟩ := h
  obtain ⟨s1, s2, s3, s4, -, -, -⟩ := insertHelper_spec t.root key h1 h2 h3
  refine ⟨⟨s1, s2, ?_⟩, s3, ?_⟩
  · rw [show inorder (t.insert key).root = inorder (insertHelper t.root key).1 from rfl, s3]
    exact sorted_insList key _ h3
  · rw [show (t.insert key).size =
      (if (insertHelper t.root key).2 then t.size + 1 else t.size) from rfl]
    by_cases hm : key ∈ inorder t.root
    · rw [if_pos hm, if_neg (by rw [s4]; simp [hm])]
    · rw [if_neg hm, if_pos (s4.mpr hm)]

theorem delete_spec {t : Tree} (h : Inv t) (key : Int) :
    Inv (t.delete key) ∧
    inorder (t.delete key).root = (inorder t.root).erase key ∧
    (t.delete key).size = t.size - 1 := by
  obtain ⟨h1, h2, h3⟩ := h
  obtain ⟨s1, s2, s3, -, -⟩ := deleteHelper_spec t.root key h1 h2 h3
  exact ⟨⟨s1, s2, by
    rw [show inorder (t.delete key).root = inorder (deleteHelper t.root key) from rfl, s3]
    exact sorted_erase h3 key⟩, s3, rfl⟩

theorem search_spec {t : Tree} (h : Inv t) (key : Int) :
    (t.search key = true ↔ key ∈ inorder t.root) :=
  searchHelper_spec t.root key h.2.2

theorem empty_Inv : Inv Tree.empty := ⟨trivial, trivial, List.sorted_nil⟩

theorem step_Inv {t : Tree} (h : Inv t) (op : Op) : Inv (step t op) := by
  cases op with
  | ins k => exact (insert_spec h k).1
  | del k => exact (delete_spec h k).1
  | find k => exact h

theorem runOps_Inv (ops : List Op) : Inv (runOps ops) := by
  rw [runOps]
  have : ∀ t, Inv t → Inv (ops.foldl step t) := by
    induction ops with
    | nil => exact fun t h => h
    | cons op ops ih => exact fun t h => ih _ (step_Inv h op)
  exact this _ empty_Inv

theorem reachable_Inv {t : Tree} (h : Reachable t) : Inv t := by
  obtain ⟨ops, rfl⟩ := h
  exact runOps_Inv ops

theorem hOK_fields {t : AVLT} (h : hOK t) : HeightFieldsOK t := by
  induction t with
  | leaf => trivial
  | node l k hh r ihl ihr =>
    rw [hOK_node] at h
    exact ⟨ihl h.1, ihr h.2.1, by
      rw [getHeight_eq h.1, getHeight_eq h.2.1]; exact h.2.2⟩

theorem balT_fields {t : AVLT} (h : hOK t) (b : BalT t) : BalancedStored t := by
  induction t with
  | leaf => trivial
  | node l k hh r ihl ihr =>
    rw [hOK_node] at h
    rw [balT_node] at b
    exact ⟨ihl h.1 b.1, ihr h.2.1 b.2.1, by
      rw [getHeight_eq h.1, getHeight_eq h.2.1]; exact ⟨b.2.2.1, b.2.2.2⟩⟩

end AVL

namespace Splay

open ST

theorem inorder_plug : ∀ (ctx : List Frame) (x : ST),
    inorder (plug x ctx) = ctxL ctx ++ inorder x ++ ctxR ctx := by
  intro ctx
  induction ctx with
  | nil => intro x; simp [plug, ctxL, ctxR]
  | cons f ctx ih =>
    intro x
    rcases f with ⟨d, k, s⟩
    cases d with
    | left =>
      rw [show plug x (⟨Dir.left, k, s⟩ :: ctx) = plug (node x k s) ctx from rfl, ih,
        show ctxL (⟨Dir.left, k, s⟩ :: ctx) = ctxL ctx from rfl,
        show ctxR (⟨Dir.left, k, s⟩ :: ctx) = k :: inorder s ++ ctxR ctx from rfl]
      simp [inorder]
    | right =>
      rw [show plug x (⟨Dir.right, k, s⟩ :: ctx) = plug (node s k x) ctx from rfl, ih,
        show ctxL (⟨Dir.right, k, s⟩ :: ctx) = ctxL ctx ++ inorder s ++ [k] from rfl,
        show ctxR (⟨Dir.right, k, s⟩ :: ctx) = ctxR ctx from rfl]
      simp [inorder]

theorem inorder_splay : ∀ (x : ST) (ctx : List Frame), x ≠ nil →
    inorder (splay x ctx) = inorder (plug x ctx) := by
  intro x ctx
  induction x, ctx using splay.induct with
  | case1 x => intro _; rw [splay, plug]
  | case2 xl xk xr pk ps =>
    intro _
    rw [show splay (node xl xk xr) [⟨Dir.left, pk, ps⟩] =
      node xl xk (node xr pk ps) from rfl]
    simp [inorder_plug, inorder, ctxL, ctxR]
  | case3 xl xk xr pk ps =>
    intro _
    rw [show splay (node xl xk xr) [⟨Dir.right, pk, ps⟩] =
      node (node ps pk xl) xk xr from rfl]
    simp [inorder_plug, inorder, ctxL, ctxR]
  | case4 xl xk xr pk ps gk gs ctx ih =>
    intro _
    rw [show splay (node xl xk xr) (⟨Dir.left, pk, ps⟩ :: ⟨Dir.left, gk, gs⟩ :: ctx) =
      splay (node xl xk (node xr pk (node ps gk gs))) ctx from rfl, ih (by simp)]
    simp [inorder_plug, inorder, ctxL, ctxR]
  | case5 xl xk xr pk ps gk gs ctx ih =>
    intro _
    rw [show splay (node xl xk xr) (⟨Dir.right, pk, ps⟩ :: ⟨Dir.right, gk, gs⟩ :: ctx) =
      splay (node (node (node gs gk ps) pk xl) xk xr) ctx from rfl, ih (by simp)]
    simp [inorder_plug, inorder, ctxL, ctxR]
  | case6 xl xk xr pk ps gk gs ctx ih =>
    intro _
    rw [show splay (node xl xk xr) (⟨Dir.right, pk, ps⟩ :: ⟨Dir.left, gk, gs⟩ :: ctx) =
      splay (node (node ps pk xl) xk (node xr gk gs)) ctx from rfl, ih (by simp)]
    simp [inorder_plug, inorder, ctxL, ctxR]
  | case7 xl xk xr pk ps gk gs ctx ih =>
    intro _
    rw [show splay (node xl xk xr) (⟨Dir.left, pk, ps⟩ :: ⟨Dir.right, gk, gs⟩ :: ctx) =
      splay (node (node gs gk xl) xk (node xr pk ps)) ctx from rfl, ih (by simp)]
    simp [inorder_plug, inorder, ctxL, ctxR]
  | case8 f ctx => exact fun hx => absurd rfl hx

theorem splay_node : ∀ (x : ST) (ctx : List Frame), x ≠ nil →
    ∃ a b, splay x ctx = node a (match x with | nil => 0 | node _ k _ => k) b := by
  intro x ctx
  induction x, ctx using splay.induct with
  | case1 x =>
    intro hx
    cases x with
    | nil => exact absurd rfl hx
    | node a k b => exact ⟨a, b, rfl⟩
  | case2 xl xk xr pk ps => exact fun _ => ⟨xl, node xr pk ps, rfl⟩
  | case3 xl xk xr pk ps => exact fun _ => ⟨node ps pk xl, xr, rfl⟩
  | case4 xl xk xr pk ps gk gs ctx ih =>
    intro hx
    obtain ⟨a, b, hab⟩ := ih (by simp)
    exact ⟨a, b, by rw [show splay (node xl xk xr)
      (⟨Dir.left, pk, ps⟩ :: ⟨Dir.left, gk, gs⟩ :: ctx) =
      splay (node xl xk (node xr pk (node ps gk gs))) ctx from rfl, hab]⟩
  | case5 xl xk xr pk ps gk gs ctx ih =>
    intro hx
    obtain ⟨a, b, hab⟩ := ih (by simp)
    exact ⟨a, b, by rw [show splay (node xl xk xr)
      (⟨Dir.right, pk, ps⟩ :: ⟨Dir.right, gk, gs⟩ :: ctx) =
      splay (node (node (node gs gk ps) pk xl) xk xr) ctx from rfl, hab]⟩
  | case6 xl xk xr pk ps gk gs ctx ih =>
    intro hx
    obtain ⟨a, b, hab⟩ := ih (by simp)
    exact ⟨a, b, by rw [show splay (node xl xk xr)
      (⟨Dir.right, pk, ps⟩ :: ⟨Dir.left, gk, gs⟩ :: ctx) =
      splay (node (node ps pk xl) xk (node xr gk gs)) ctx from rfl, hab]⟩
  | case7 xl xk xr pk ps gk gs ctx ih =>
    intro hx
    obtain ⟨a, b, hab⟩ := ih (by simp)
    exact ⟨a, b, by rw [show splay (node xl xk xr)
      (⟨Dir.left, pk, ps⟩ :: ⟨Dir.right, gk, gs⟩ :: ctx) =
      splay (node (node gs gk xl) xk (node xr pk ps)) ctx from rfl, hab]⟩
  | case8 f ctx => exact fun hx => absurd rfl hx

end Splay

namespace Splay

open ST

theorem searchDescend_eq_found {l r : ST} {k key : Int} {ctx : List Frame} (he : key = k) :
    searchDescend (node l k r) ctx key = (true, node l k r, ctx) := by
  cases l <;> cases r <;> simp [searchDescend, he]

theorem searchDescend_lt_nil {r : ST} {k key : Int} {ctx : List Frame}
    (he : key ≠ k) (hlt : key < k) :
    searchDescend (node nil k r) ctx key = (false, node nil k r, ctx) := by
  cases r <;> simp [searchDescend, he, hlt]

theorem searchDescend_lt_node {a r : ST} {b : Int} {c : ST} {k key : Int} {ctx : List Frame}
    (he : key ≠ k) (hlt : key < k) :
    searchDescend (node (node a b c) k r) ctx key =
      searchDescend (node a b c) (⟨Dir.left, k, r⟩ :: ctx) key := by
  cases r <;> simp [searchDescend, he, hlt]

theorem searchDescend_gt_nil {l : ST} {k key : Int} {ctx : List Frame}
    (he : key ≠ k) (hgt : ¬ key < k) :
    searchDescend (node l k nil) ctx key = (false, node l k nil, ctx) := by
  cases l <;> simp [searchDescend, he, hgt]

theorem searchDescend_gt_node {l a : ST} {b : Int} {c : ST} {k key : Int} {ctx : List Frame}
    (he : key ≠ k) (hgt : ¬ key < k) :
    searchDescend (node l k (node a b c)) ctx key =
      searchDescend (node a b c) (⟨Dir.right, k, l⟩ :: ctx) key := by
  cases l <;> simp [searchDescend, he, hgt]

theorem searchPathLast_eq_found {l r : ST} {k key : Int} (he : key = k) :
    searchPathLast (node l k r) key = some k := by
  cases l <;> cases r <;> simp [searchPathLast, he]

theorem searchPathLast_lt_nil {r : ST} {k key : Int} (he : key ≠ k) (hlt : key < k) :
    searchPathLast (node nil k r) key = some k := by
  cases r <;> simp [searchPathLast, he, hlt]

theorem searchPathLast_lt_node {a : ST} {b : Int} {c : ST} {r : ST} {k key : Int}
    (he : key ≠ k) (hlt : key < k) :
    searchPathLast (node (node a b c) k r) key = searchPathLast (node a b c) key := by
  cases r <;> simp [searchPathLast, he, hlt]

theorem searchPathLast_gt_nil {l : ST} {k key : Int} (he : key ≠ k) (hgt : ¬ key < k) :
    searchPathLast (node l k nil) key = some k := by
  cases l <;> simp [searchPathLast, he, hgt]

theorem searchPathLast_gt_node {l a : ST} {b : Int} {c : ST} {k key : Int}
    (he : key ≠ k) (hgt : ¬ key < k) :
    searchPathLast (node l k (node a b c)) key = searchPathLast (node a b c) key := by
  cases l <;> simp [searchPathLast, he, hgt]

theorem searchDescend_plug : ∀ (t : ST) (ctx : List Frame) (key : Int),
    plug (searchDescend t ctx key).2.1 (searchDescend t ctx key).2.2 = plug t ctx := by
  intro t
  induction t with
  | nil => intro ctx key; rfl
  | node l k r ihl ihr =>
    intro ctx key
    by_cases he : key = k
    · rw [searchDescend_eq_found he]
    · by_cases hlt : key < k
      · cases l with
        | nil => rw [searchDescend_lt_nil he hlt]
        | node a b c =>
          rw [searchDescend_lt_node he hlt, ihl (⟨Dir.left, k, r⟩ :: ctx) key]
          rfl
      · cases r with
        | nil => rw [searchDescend_gt_nil he hlt]
        | node a b c =>
          rw [searchDescend_gt_node he hlt, ihr (⟨Dir.right, k, l⟩ :: ctx) key]
          rfl

theorem searchDescend_found : ∀ (t : ST) (ctx : List Frame) (key : Int),
    (searchDescend t ctx key).1 = true →
    ∃ a b, (searchDescend t ctx key).2.1 = node a key b := by
  intro t
  induction t with
  | nil => intro ctx key h; exact absurd h (by simp [searchDescend])
  | node l k r ihl ihr =>
    intro ctx key h
    by_cases he : key = k
    · subst he
      exact ⟨l, r, by rw [searchDescend_eq_found rfl]⟩
    · by_cases hlt : key < k
      · cases l with
        | nil => rw [searchDescend_lt_nil he hlt] at h; exact absurd h (by simp)
        | node a b c =>
          rw [searchDescend_lt_node he hlt] at h ⊢
          exact ihl _ key h
      · cases r with
        | nil => rw [searchDescend_gt_nil he hlt] at h; exact absurd h (by simp)
        | node a b c =>
          rw [searchDescend_gt_node he hlt] at h ⊢
          exact ihr _ key h

theorem searchDescend_lastKey : ∀ (t : ST) (ctx : List Frame) (key : Int), t ≠ nil →
    rootKey (searchDescend t ctx key).2.1 = searchPathLast t key := by
  intro t
  induction t with
  | nil => intro ctx key h; exact absurd rfl h
  | node l k r ihl ihr =>
    intro ctx key _
    by_cases he : key = k
    · rw [searchDescend_eq_found he, searchPathLast_eq_found he]; rfl
    · by_cases hlt : key < k
      · cases l with
        | nil => rw [searchDescend_lt_nil he hlt, searchPathLast_lt_nil he hlt]; rfl
        | node a b c =>
          rw [searchDescend_lt_node he hlt, searchPathLast_lt_node he hlt]
          exact ihl _ key (by simp)
      · cases r with
        | nil => rw [searchDescend_gt_nil he hlt, searchPathLast_gt_nil he hlt]; rfl
        | node a b c =>
          rw [searchDescend_gt_node he hlt, searchPathLast_gt_node he hlt]
          exact ihr _ key (by simp)

theorem searchPathLast_ne_none : ∀ (t : ST) (key : Int), t ≠ nil →
    searchPathLast t key ≠ none := by
  intro t
  induction t with
  | nil => intro key h; exact absurd rfl h
  | node l k r ihl ihr =>
    intro key _
    by_cases he : key = k
    · rw [searchPathLast_eq_found he]; simp
    · by_cases hlt : key < k
      · cases l with
        | nil => rw [searchPathLast_lt_nil he hlt]; simp
        | node a b c =>
          rw [searchPathLast_lt_node he hlt]
          exact ihl key (by simp)
      · cases r with
        | nil => rw [searchPathLast_gt_nil he hlt]; simp
        | node a b c =>
          rw [searchPathLast_gt_node he hlt]
          exact ihr key (by simp)

theorem searchDescend_ne : ∀ (t : ST) (ctx : List Frame) (key : Int), t ≠ nil →
    (searchDescend t ctx key).2.1 ≠ nil := by
  intro t ctx key h hc
  have h1 := searchDescend_lastKey t ctx key h
  rw [hc, show rootKey nil = none from rfl] at h1
  exact searchPathLast_ne_none t key h h1.symm

theorem searchDescend_mem : ∀ (t : ST) (ctx : List Frame) (key : Int),
    (inorder t).Sorted (· < ·) →
    ((searchDescend t ctx key).1 = true ↔ key ∈ inorder t) := by
  intro t
  induction t with
  | nil => intro ctx key _; simp [searchDescend, inorder]
  | node l k r ihl ihr =>
    intro ctx key hs
    rw [show inorder (node l k r) = inorder l ++ k :: inorder r from rfl] at hs ⊢
    obtain ⟨hsl, hsr, -, -⟩ := sorted_node_parts hs
    by_cases he : key = k
    · rw [searchDescend_eq_found he]
      simp [he]
    · by_cases hlt : key < k
      · rw [mem_split_left hs hlt]
      
        cases l with
        | nil => rw [searchDescend_lt_nil he hlt]; simp [inorder]
        | node a b c => rw [searchDescend_lt_node he hlt]; exact ihl _ key hsl
      · rw [mem_split_right hs (by omega)]
        cases r with
        | nil => rw [searchDescend_gt_nil he hlt]; simp [inorder]
        | node a b c => rw [searchDescend_gt_node he hlt]; exact ihr _ key hsr

end Splay

namespace Splay

open ST

theorem rootKey_splay {x : ST} (ctx : List Frame) (hx : x ≠ nil) :
    rootKey (splay x ctx) = rootKey x := by
  obtain ⟨a, b, hab⟩ := splay_node x ctx hx
  rw [hab]
  cases x with
  | nil => exact absurd rfl hx
  | node xl xk xr => rfl

theorem splay_search_spec {t : Tree} (h : Inv t) (key : Int) :
    Inv (t.search key).2 ∧
    inorder (t.search key).2.root = inorder t.root ∧
    (t.search key).2.size = t.size ∧
    ((t.search key).1 = true ↔ key ∈ inorder t.root) ∧
    ((t.search key).1 = true → rootKey (t.search key).2.root = some key) ∧
    (t.root ≠ nil → rootKey (t.search key).2.root = searchPathLast t.root key) := by
  obtain ⟨rt, sz⟩ := t
  obtain ⟨hs, hsz⟩ := h
  rcases rt with _ | ⟨l, k, r⟩
  · exact ⟨⟨hs, hsz⟩, rfl, rfl, by simp [Tree.search, inorder], by simp [Tree.search],
      fun hc => absurd rfl hc⟩
  · have hnn : (node l k r) ≠ nil := by simp
    have he : Tree.search ⟨node l k r, sz⟩ key =
        ((searchDescend (node l k r) [] key).1,
          ⟨splay (searchDescend (node l k r) [] key).2.1
            (searchDescend (node l k r) [] key).2.2, sz⟩) := rfl
    have hxe := searchDescend_ne (node l k r) [] key hnn
    have hio : inorder (splay (searchDescend (node l k r) [] key).2.1
        (searchDescend (node l k r) [] key).2.2) = inorder (node l k r) := by
      rw [inorder_splay _ _ hxe, searchDescend_plug]
      rfl
    rw [he]
    refine ⟨⟨?_, ?_⟩, ?_, rfl, ?_, ?_, ?_⟩
    · simpa [hio] using hs
    · simpa [hio] using hsz
    · exact hio
    · exact searchDescend_mem (node l k r) [] key hs
    · intro hf
      obtain ⟨a, b, hab⟩ := searchDescend_found (node l k r) [] key hf
      dsimp only
      rw [rootKey_splay _ hxe, hab]
      rfl
    · intro _
      dsimp only
      rw [rootKey_splay _ hxe]
      exact searchDescend_lastKey (node l k r) [] key hnn

theorem insertDescend_spec : ∀ (t : ST) (ctx : List Frame) (key : Int),
    (inorder t).Sorted (· < ·) →
    (insertDescend t ctx key).1 ≠ nil ∧
    ((insertDescend t ctx key).2.2 = true ↔ key ∉ inorder t) ∧
    inorder (plug (insertDescend t ctx key).1 (insertDescend t ctx key).2.1) =
      ctxL ctx ++ insList key (inorder t) ++ ctxR ctx := by
  intro t
  induction t with
  | nil =>
    intro ctx key _
    refine ⟨by simp [insertDescend], by simp [insertDescend, inorder], ?_⟩
    rw [show (insertDescend nil ctx key).1 = node nil key nil from rfl,
      show (insertDescend nil ctx key).2.1 = ctx from rfl, inorder_plug]
    simp [inorder, insList]
  | node l k r ihl ihr =>
    intro ctx key hs
    rw [show inorder (node l k r) = inorder l ++ k :: inorder r from rfl] at hs ⊢
    obtain ⟨hsl, hsr, hkl, hkr⟩ := sorted_node_parts hs
    rcases lt_trichotomy key k with hlt | heq | hgt
    · have he : insertDescend (node l k r) ctx key =
          insertDescend l (⟨Dir.left, k, r⟩ :: ctx) key := by
        simp [insertDescend, hlt]
      obtain ⟨ih1, ih2, ih3⟩ := ihl (⟨Dir.left, k, r⟩ :: ctx) key hsl
      rw [he]
      refine ⟨ih1, ?_, ?_⟩
      · rw [ih2, (mem_split_left hs hlt).not]
      · rw [ih3, show ctxL (⟨Dir.left, k, r⟩ :: ctx) = ctxL ctx from rfl,
          show ctxR (⟨Dir.left, k, r⟩ :: ctx) = k :: inorder r ++ ctxR ctx from rfl,
          insList_append_lt hlt]
        simp
    · have he : insertDescend (node l k r) ctx key = (node l k r, ctx, false) := by
        simp [insertDescend, heq]
      rw [he]
      refine ⟨by simp, by simp [heq], ?_⟩
      rw [show (node l k r, ctx, false).1 = node l k r from rfl, inorder_plug,
        insList_of_mem _ hs (by simp [heq])]
      rfl
    · have he : insertDescend (node l k r) ctx key =
          insertDescend r (⟨Dir.right, k, l⟩ :: ctx) key := by
        simp [insertDescend, show ¬ key < k by omega, hgt]
      obtain ⟨ih1, ih2, ih3⟩ := ihr (⟨Dir.right, k, l⟩ :: ctx) key hsr
      rw [he]
      refine ⟨ih1, ?_, ?_⟩
      · rw [ih2, (mem_split_right hs hgt).not]
      · rw [ih3, show ctxL (⟨Dir.right, k, l⟩ :: ctx) = ctxL ctx ++ inorder l ++ [k] from rfl,
          show ctxR (⟨Dir.right, k, l⟩ :: ctx) = ctxR ctx from rfl,
          insList_append_gt hgt _ _ (fun x hx => lt_trans (hkl x hx) hgt)]
        simp

theorem splay_insert_spec {t : Tree} (h : Inv t) (key : Int) :
    Inv (t.insert key) ∧
    inorder (t.insert key).root = insList key (inorder t.root) ∧
    (t.insert key).size = (if key ∈ inorder t.root then t.size else t.size + 1) := by
  obtain ⟨rt, sz⟩ := t
  obtain ⟨hs, hsz⟩ := h
  rcases rt with _ | ⟨l, k, r⟩
  · refine ⟨⟨by simp [Tree.insert, inorder], ?_⟩, by simp [Tree.insert, inorder, insList], ?_⟩
    · simp only [Tree.insert, inorder] at hsz ⊢
      simp at hsz
      simp [hsz]
    · simp [Tree.insert, inorder]
  · have he : Tree.insert ⟨node l k r, sz⟩ key =
        ⟨splay (insertDescend (node l k r) [] key).1
          (insertDescend (node l k r) [] key).2.1,
          if (insertDescend (node l k r) [] key).2.2 then sz + 1 else sz⟩ := rfl
    obtain ⟨i1, i2, i3⟩ := insertDescend_spec (node l k r) [] key hs
    rw [he]
    have hio : inorder (splay (insertDescend (node l k r) [] key).1
        (insertDescend (node l k r) [] key).2.1) = insList key (inorder (node l k r)) := by
      rw [inorder_splay _ _ i1, i3]
      simp [ctxL, ctxR]
    refine ⟨⟨?_, ?_⟩, hio, ?_⟩
    · dsimp only
      rw [hio]
      exact sorted_insList key _ hs
    · dsimp only
      rw [hio]
      by_cases hm : key ∈ inorder (node l k r)
      · rw [if_neg (by rw [i2]; simp [hm]), insList_of_mem _ hs hm]
        exact hsz
      · rw [if_pos (i2.mpr hm), length_insList_of_not_mem _ hm]
        have hsz2 : sz = (inorder (node l k r)).length := hsz
        omega
    · dsimp only
      by_cases hm : key ∈ inorder (node l k r)
      · rw [if_neg (by rw [i2]; simp [hm]), if_pos hm]
      · rw [if_pos (i2.mpr hm), if_neg hm]

end Splay

namespace Splay

open ST

theorem maxDescend_spec : ∀ (r l : ST) (k : Int) (ctx : List Frame),
    (∀ f ∈ ctx, f.dir = Dir.right) →
    ∃ xl xk ctx2, maxDescend (node l k r) ctx = (node xl xk nil, ctx2) ∧
      (∀ f ∈ ctx2, f.dir = Dir.right) ∧
      plug (node xl xk nil) ctx2 = plug (node l k r) ctx := by
  intro r
  induction r with
  | nil =>
    intro l k ctx hctx
    exact ⟨l, k, ctx, by simp [maxDescend], hctx, rfl⟩
  | node rl rk rr ihl ihr =>
    intro l k ctx hctx
    have he : maxDescend (node l k (node rl rk rr)) ctx =
        maxDescend (node rl rk rr) (⟨Dir.right, k, l⟩ :: ctx) := by
      simp [maxDescend]
    obtain ⟨xl, xk, ctx2, h1, h2, h3⟩ := ihr rl rk (⟨Dir.right, k, l⟩ :: ctx) (by
      intro f hf
      rcases List.mem_cons.mp hf with h1 | h1
      · rw [h1]
      · exact hctx f h1)
    exact ⟨xl, xk, ctx2, by rw [he, h1], h2, by rw [h3]; rfl⟩

theorem splay_allRight : ∀ (n : Nat) (ctx : List Frame) (xl : ST) (xk : Int),
    ctx.length ≤ n → (∀ f ∈ ctx, f.dir = Dir.right) →
    ∃ S, splay (node xl xk nil) ctx = node S xk nil ∧
      inorder (node S xk nil) = inorder (plug (node xl xk nil) ctx) := by
  intro n
  induction n with
  | zero =>
    intro ctx xl xk hlen _
    rw [List.eq_nil_of_length_eq_zero (Nat.le_zero.mp hlen)]
    exact ⟨xl, rfl, rfl⟩
  | succ n ih =>
    intro ctx xl xk hlen hctx
    rcases ctx with _ | ⟨⟨d1, k1, s1⟩, ctx1⟩
    · exact ⟨xl, rfl, rfl⟩
    · have hd1 : d1 = Dir.right := hctx ⟨d1, k1, s1⟩ (by simp)
      subst hd1
      rcases ctx1 with _ | ⟨⟨d2, k2, s2⟩, ctx2⟩
      · refine ⟨node s1 k1 xl, by simp [splay], ?_⟩
        rw [inorder_plug]
        simp [inorder, ctxL, ctxR]
      · have hd2 : d2 = Dir.right := hctx ⟨d2, k2, s2⟩ (by simp)
        subst hd2
        have he : splay (node xl xk nil)
            (⟨Dir.right, k1, s1⟩ :: ⟨Dir.right, k2, s2⟩ :: ctx2) =
            splay (node (node (node s2 k2 s1) k1 xl) xk nil) ctx2 := rfl
        obtain ⟨S, h1, h2⟩ := ih ctx2 (node (node s2 k2 s1) k1 xl) xk
          (by simp at hlen ⊢; omega)
          (fun f hf => hctx f (by simp [hf]))
        refine ⟨S, by rw [he, h1], ?_⟩
        rw [h2]
        simp [inorder_plug, inorder, ctxL, ctxR]

theorem splay_delete_spec {t : Tree} (h : Inv t) (key : Int) :
    Inv (t.delete key) ∧
    inorder (t.delete key).root = (inorder t.root).erase key ∧
    (t.delete key).size = (if key ∈ inorder t.root then t.size - 1 else t.size) := by
  obtain ⟨s1, s2, s3, s4, s5, s6⟩ := splay_search_spec h key
  rcases hps : t.search key with ⟨found, t1⟩
  rw [hps] at s1 s2 s3 s4 s5
  dsimp only at s1 s2 s3 s4 s5
  cases found with
  | false =>
    have he : t.delete key = t1 := by
      rw [Tree.delete, hps]
      simp
    have hnm : key ∉ inorder t.root := fun hm => absurd (s4.mpr hm) (by simp)
    rw [he, if_neg hnm, List.erase_of_not_mem hnm]
    exact ⟨s1, s2, s3⟩
  | true =>
    have hm : key ∈ inorder t.root := s4.mp rfl
    rw [if_pos hm]
    have hrk : rootKey t1.root = some key := s5 rfl
    rcases hroot : t1.root with _ | ⟨L, kk, R⟩
    · rw [hroot] at hrk
      exact Option.noConfusion hrk
    · rw [hroot] at hrk
      have hkk : kk = key := by
        rw [show rootKey (node L kk R) = some kk from rfl] at hrk
        exact Option.some.inj hrk
      subst hkk
      rw [hroot] at s2
      have hsort : (inorder L ++ kk :: inorder R).Sorted (· < ·) := by
        have := s1.1
        rw [hroot] at this
        exact this
      obtain ⟨hsL, hsR, hkL, hkR⟩ := sorted_node_parts hsort
      have hsz1 : t1.size = ((inorder L ++ kk :: inorder R).length : Int) := by
        have := s1.2
        rw [hroot] at this
        exact this
      have herase : (inorder t.root).erase kk = inorder L ++ inorder R := by
        rw [← s2, show inorder (node L kk R) = inorder L ++ kk :: inorder R from rfl,
          erase_middle_eq hkL]
      rcases L with _ | ⟨a, b, c⟩
      · have he : t.delete kk = ⟨R, t1.size - 1⟩ := by
          rw [Tree.delete, hps, hroot]
          rfl
        rw [he]
        refine ⟨⟨?_, ?_⟩, ?_, ?_⟩
        · exact hsR
        · dsimp only
          rw [hsz1]
          simp [inorder]
        · dsimp only
          rw [herase]
          simp [inorder]
        · dsimp only
          rw [s3]
      · rcases R with _ | ⟨d, e, f⟩
        · have he : t.delete kk = ⟨node a b c, t1.size - 1⟩ := by
            rw [Tree.delete, hps, hroot]
            rfl
          rw [he]
          refine ⟨⟨hsL, ?_⟩, ?_, ?_⟩
          · dsimp only
            rw [hsz1]
            simp [inorder]
            omega
          · dsimp only
            rw [herase]
            simp [inorder]
          · dsimp only
            rw [s3]
        · obtain ⟨xl, xk, ctx2, m1, m2, m3⟩ :=
            maxDescend_spec c a b ([] : List Frame) (by simp)
          obtain ⟨S, p1, p2⟩ := splay_allRight ctx2.length ctx2 xl xk (le_refl _) m2
          have he : t.delete kk =
              ⟨setRight (splay (maxDescend (node a b c) []).1
                (maxDescend (node a b c) []).2) (node d e f), t1.size - 1⟩ := by
            rw [Tree.delete, hps, hroot]
            rfl
          rw [he, m1]
          dsimp only
          rw [p1, show setRight (node S xk nil) (node d e f) = node S xk (node d e f) from rfl]
          have hioL : inorder S ++ [xk] = inorder (node a b c) := by
            have := p2
            rw [m3] at this
            rw [show plug (node a b c) [] = node a b c from rfl] at this
            simpa [inorder] using this
          have hio : inorder (node S xk (node d e f)) =
              inorder (node a b c) ++ inorder (node d e f) := by
            rw [show inorder (node S xk (node d e f)) =
              inorder S ++ xk :: inorder (node d e f) from rfl, ← hioL]
            simp
          refine ⟨⟨?_, ?_⟩, ?_, ?_⟩
          · rw [show inorder (⟨node S xk (node d e f), t1.size - 1⟩ : Tree).root =
              inorder (node S xk (node d e f)) from rfl, hio, ← herase]
            exact sorted_erase (by rw [← s2]; exact hsort) kk
          · rw [show (⟨node S xk (node d e f), t1.size - 1⟩ : Tree).size =
              t1.size - 1 from rfl, hsz1, hio]
            simp [inorder]
            omega
          · rw [show inorder (⟨node S xk (node d e f), t1.size - 1⟩ : Tree).root =
              inorder (node S xk (node d e f)) from rfl, hio, herase]
          · rw [s3]

theorem sorted_last_max {A : List Int} {m : Int} (h : (A ++ [m]).Sorted (· < ·)) :
    ∀ x ∈ A ++ [m], x ≤ m := by
  rw [List.Sorted, List.pairwise_append] at h
  intro x hx
  rcases List.mem_append.mp hx with h1 | h1
  · exact le_of_lt (h.2.2 x h1 m (by simp))
  · simp at h1
    omega

theorem splay_delete_join {t : Tree} (h : Inv t) {key : Int} {a c d f : ST} {b e : Int}
    (hroot : (t.search key).2.root = node (node a b c) key (node d e f)) :
    ∃ S m, (t.delete key).root = node S m (node d e f) ∧
      inorder S ++ [m] = inorder (node a b c) ∧
      (∀ x ∈ inorder (node a b c), x ≤ m) := by
  obtain ⟨s1, s2, s3, s4, s5, s6⟩ := splay_search_spec h key
  rcases hps : t.search key with ⟨found, t1⟩
  rw [hps] at s1 s2 s4 hroot
  dsimp only at s1 s2 s4 hroot
  have hsort : (inorder (node a b c) ++ key :: inorder (node d e f)).Sorted (· < ·) := by
    have := s1.1
    rw [hroot] at this
    exact this
  obtain ⟨hsL, _, _, _⟩ := sorted_node_parts hsort
  have hfound : found = true := by
    cases found
    · have hnm : key ∉ inorder t.root := fun hm => absurd (s4.mpr hm) (by simp)
      rw [← s2, hroot] at hnm
      exact absurd (by simp [inorder] : key ∈ inorder (node (node a b c) key (node d e f))) hnm
    · rfl
  subst hfound
  obtain ⟨xl, xk, ctx2, m1, m2, m3⟩ :=
    maxDescend_spec c a b ([] : List Frame) (by simp)
  obtain ⟨S, p1, p2⟩ := splay_allRight ctx2.length ctx2 xl xk (le_refl _) m2
  have he : t.delete key =
      ⟨setRight (splay (maxDescend (node a b c) []).1
        (maxDescend (node a b c) []).2) (node d e f), t1.size - 1⟩ := by
    rw [Tree.delete, hps, hroot]
    rfl
  have hioL : inorder S ++ [xk] = inorder (node a b c) := by
    have := p2
    rw [m3] at this
    rw [show plug (node a b c) [] = node a b c from rfl] at this
    simpa [inorder] using this
  refine ⟨S, xk, ?_, hioL, ?_⟩
  · rw [he, m1]
    dsimp only
    rw [p1]
    rfl
  · rw [← hioL]
    exact sorted_last_max (by rw [hioL]; exact hsL)

theorem splay_empty_Inv : Inv Tree.empty := ⟨List.sorted_nil, rfl⟩

theorem splay_step_Inv {t : Tree} (h : Inv t) (op : Op) : Inv (step t op) := by
  cases op with
  | ins k => exact (splay_insert_spec h k).1
  | del k => exact (splay_delete_spec h k).1
  | find k => exact (splay_search_spec h k).1

theorem splay_runOps_Inv (ops : List Op) : Inv (runOps ops) := by
  rw [runOps]
  generalize hs : Tree.empty = t0
  have h0 : Inv t0 := hs ▸ splay_empty_Inv
  clear hs
  induction ops generalizing t0 with
  | nil => exact h0
  | cons op ops ih => exact ih (step t0 op) (splay_step_Inv h0 op)

theorem splay_reachable_Inv {t : Tree} (h : Reachable t) : Inv t := by
  obtain ⟨ops, hops⟩ := h
  exact hops ▸ splay_runOps_Inv ops

end Splay

/-! ## Red-black tree: balance, inorder and functional specifications -/

namespace RB
open RBT

-- ## Basic red-black lemmas

theorem rb_inorder_blacken (t : RBT) : inorder (blacken t) = inorder t := by
  cases t <;> rfl

theorem rb_blacken_of_black {t : RBT} (h : colorOf t = RBColor.black) : blacken t = t := by
  cases t with
  | nil => rfl
  | node c l k r => cases c with
    | red => exact absurd h (by simp [colorOf])
    | black => rfl

theorem rb_colorOf_balanced {t : RBT} {c : RBColor} {n : Nat}
    (h : Balanced t c n) : colorOf t = c := by
  cases h <;> rfl

theorem rb_balanced_black_zero {t : RBT} (h : Balanced t RBColor.black 0) : t = nil := by
  cases h
  rfl

theorem rb_balanced_zero {t : RBT} {c : RBColor} (h : Balanced t c 0) :
    t = nil ∨ ∃ k, t = node RBColor.red nil k nil := by
  cases h with
  | nil => exact Or.inl rfl
  | red hl hr =>
    rw [rb_balanced_black_zero hl, rb_balanced_black_zero hr]
    exact Or.inr ⟨_, rfl⟩

theorem rb_balanced_pos_node {t : RBT} {c : RBColor} {n : Nat}
    (h : Balanced t c (n + 1)) : t ≠ nil := by
  cases h <;> simp

theorem rplug_append (c1 : List RFrame) : ∀ (x : RBT) (c2 : List RFrame),
    rplug x (c1 ++ c2) = rplug (rplug x c1) c2 := by
  induction c1 with
  | nil => intro x c2; rfl
  | cons f rest ih =>
    intro x c2
    rcases f with ⟨d, c, k, s⟩
    cases d
    · rw [List.cons_append, show rplug x (⟨Dir.left, c, k, s⟩ :: (rest ++ c2)) =
        rplug (node c x k s) (rest ++ c2) from rfl, ih,
        show rplug x (⟨Dir.left, c, k, s⟩ :: rest) = rplug (node c x k s) rest from rfl]
    · rw [List.cons_append, show rplug x (⟨Dir.right, c, k, s⟩ :: (rest ++ c2)) =
        rplug (node c s k x) (rest ++ c2) from rfl, ih,
        show rplug x (⟨Dir.right, c, k, s⟩ :: rest) = rplug (node c s k x) rest from rfl]

theorem rb_inorder_rplug : ∀ (ctx : List RFrame) (x : RBT),
    inorder (rplug x ctx) = ctxL ctx ++ inorder x ++ ctxR ctx := by
  intro ctx
  induction ctx with
  | nil => intro x; simp [rplug, ctxL, ctxR]
  | cons f rest ih =>
    intro x
    rcases f with ⟨d, c, k, s⟩
    cases d
    · rw [show rplug x (⟨Dir.left, c, k, s⟩ :: rest) = rplug (node c x k s) rest from rfl, ih]
      simp [ctxL, ctxR, inorder]
    · rw [show rplug x (⟨Dir.right, c, k, s⟩ :: rest) = rplug (node c s k x) rest from rfl, ih]
      simp [ctxL, ctxR, inorder]

theorem ctxL_append (c1 c2 : List RFrame) : ctxL (c1 ++ c2) = ctxL c2 ++ ctxL c1 := by
  induction c1 with
  | nil => simp [ctxL]
  | cons f rest ih =>
    rcases f with ⟨d, c, k, s⟩
    cases d <;> simp [ctxL, ih]

theorem ctxR_append (c1 c2 : List RFrame) : ctxR (c1 ++ c2) = ctxR c1 ++ ctxR c2 := by
  induction c1 with
  | nil => simp [ctxR]
  | cons f rest ih =>
    rcases f with ⟨d, c, k, s⟩
    cases d <;> simp [ctxR, ih]

theorem plugBal {hc : RBColor} {n : Nat} {ctx : List RFrame} {rc : RBColor} {m : Nat}
    (hctx : RCtx hc n ctx rc m) : ∀ {x : RBT}, Balanced x hc n →
    Balanced (rplug x ctx) rc m := by
  induction hctx with
  | nil => intro x hx; exact hx
  | blackL hs hrest ih => intro x hx; exact ih (Balanced.black hx hs)
  | blackR hs hrest ih => intro x hx; exact ih (Balanced.black hs hx)
  | redL hs hrest ih => intro x hx; exact ih (Balanced.red hx hs)
  | redR hs hrest ih => intro x hx; exact ih (Balanced.red hs hx)

theorem RCtx_append {a : RBColor} {na : Nat} {c1 : List RFrame} {b : RBColor} {nb : Nat}
    (h1 : RCtx a na c1 b nb) : ∀ {c2 : List RFrame} {rc : RBColor} {m : Nat},
    RCtx b nb c2 rc m → RCtx a na (c1 ++ c2) rc m := by
  induction h1 with
  | nil => intro c2 rc m h2; exact h2
  | blackL hs hrest ih => intro c2 rc m h2; exact RCtx.blackL hs (ih h2)
  | blackR hs hrest ih => intro c2 rc m h2; exact RCtx.blackR hs (ih h2)
  | redL hs hrest ih => intro c2 rc m h2; exact RCtx.redL hs (ih h2)
  | redR hs hrest ih => intro c2 rc m h2; exact RCtx.redR hs (ih h2)

theorem RCtx_retype {n : Nat} {f : RFrame} {ctx : List RFrame} {rc : RBColor} {m : Nat}
    (h : RCtx RBColor.red n (f :: ctx) rc m) : RCtx RBColor.black n (f :: ctx) rc m := by
  cases h with
  | blackL hs hrest => exact RCtx.blackL hs hrest
  | blackR hs hrest => exact RCtx.blackR hs hrest

theorem rb_balanced_noRedRed {t : RBT} {c : RBColor} {n : Nat}
    (h : Balanced t c n) : NoRedRed t := by
  induction h with
  | nil => trivial
  | red hl hr ihl ihr =>
    exact ⟨ihl, ihr, fun _ => ⟨rb_colorOf_balanced hl, rb_colorOf_balanced hr⟩⟩
  | black hl hr ihl ihr =>
    exact ⟨ihl, ihr, fun hcon => RBColor.noConfusion hcon⟩

theorem rb_balanced_eqBH {t : RBT} {c : RBColor} {n : Nat}
    (h : Balanced t c n) : EqBH t n := by
  induction h with
  | nil => exact EqBH.nil
  | red hl hr ihl ihr =>
    rename_i l n r k
    have h2 := @EqBH.node l n r RBColor.red k ihl ihr
    simpa using h2
  | black hl hr ihl ihr =>
    rename_i l c1 n r c2 k
    have h2 := @EqBH.node l n r RBColor.black k ihl ihr
    simpa using h2

theorem rb_blacken_red {z : RBT} {n : Nat} (h : Balanced z RBColor.red n) :
    Balanced (blacken z) RBColor.black (n + 1) := by
  cases h with
  | red hl hr => exact Balanced.black hl hr

theorem insertFixup_spec : ∀ (fuel : Nat) (ctx : List RFrame) (z : RBT) (n m : Nat),
    ctx.length ≤ fuel →
    Balanced z RBColor.red n →
    RCtx RBColor.black n ctx RBColor.black m →
    ∃ r, insertFixup z ctx = some r ∧ (∃ m', Balanced r RBColor.black m') ∧
      inorder r = inorder (rplug z ctx) := by
  intro fuel
  induction fuel with
  | zero =>
    intro ctx z n m hlen hz hctx
    rw [List.eq_nil_of_length_eq_zero (Nat.le_zero.mp hlen)] at hctx ⊢
    refine ⟨blacken z, by rw [insertFixup.eq_def], ⟨n + 1, rb_blacken_red hz⟩, ?_⟩
    rw [rb_inorder_blacken]
    rfl
  | succ fuel ih =>
    intro ctx z n m hlen hz hctx
    rcases ctx with _ | ⟨f, rest0⟩
    · refine ⟨blacken z, by rw [insertFixup.eq_def], ⟨n + 1, rb_blacken_red hz⟩, ?_⟩
      rw [rb_inorder_blacken]
      rfl
    · cases hctx with
      | blackL hs hrest =>
        rename_i s cs k
        have hb : Balanced (rplug (node RBColor.black z k s) rest0) RBColor.black m :=
          plugBal hrest (Balanced.black hz hs)
        have heq : insertFixup z (⟨Dir.left, RBColor.black, k, s⟩ :: rest0) =
            some (blacken (rplug (node RBColor.black z k s) rest0)) := by
          rw [insertFixup.eq_def]
          rfl
        refine ⟨rplug (node RBColor.black z k s) rest0, ?_, ⟨m, hb⟩, rfl⟩
        rw [heq, rb_blacken_of_black (rb_colorOf_balanced hb)]
      | blackR hs hrest =>
        rename_i s cs k
        have hb : Balanced (rplug (node RBColor.black s k z) rest0) RBColor.black m :=
          plugBal hrest (Balanced.black hs hz)
        have heq : insertFixup z (⟨Dir.right, RBColor.black, k, s⟩ :: rest0) =
            some (blacken (rplug (node RBColor.black s k z) rest0)) := by
          rw [insertFixup.eq_def]
          rfl
        refine ⟨rplug (node RBColor.black s k z) rest0, ?_, ⟨m, hb⟩, rfl⟩
        rw [heq, rb_blacken_of_black (rb_colorOf_balanced hb)]
      | redL hs hrest =>
        rename_i ps pk
        cases hrest with
        | blackL hgs hrest1 =>
          rename_i gs cs rest1 gk
          rcases hcu : colorOf gs with _ | _
          · -- Case 1: uncle red
            have hgs' : Balanced gs RBColor.red n := by
              have h2 := rb_colorOf_balanced hgs
              rw [hcu] at h2
              rw [← h2] at hgs
              exact hgs
            have hz' : Balanced (node RBColor.red (node RBColor.black z pk ps) gk (blacken gs))
                RBColor.red (n + 1) :=
              Balanced.red (Balanced.black hz hs) (rb_blacken_red hgs')
            obtain ⟨r, hr1, hr2, hr3⟩ := ih rest1
              (node RBColor.red (node RBColor.black z pk ps) gk (blacken gs)) (n + 1) m
              (by simp at hlen; omega) hz' hrest1
            have heq : insertFixup z (⟨Dir.left, RBColor.red, pk, ps⟩ ::
                ⟨Dir.left, RBColor.black, gk, gs⟩ :: rest1) =
                insertFixup (node RBColor.red (node RBColor.black z pk ps) gk (blacken gs))
                  rest1 := by
              rw [insertFixup.eq_def]
              rcases gs with _ | ⟨gc, gl, glk, grr⟩
              · exact absurd hcu (by simp [colorOf])
              · cases gc
                · rfl
                · exact absurd hcu (by simp [colorOf])
            refine ⟨r, by rw [heq]; exact hr1, hr2, ?_⟩
            rw [hr3, rb_inorder_rplug, rb_inorder_rplug]
            simp [inorder, ctxL, ctxR, rb_inorder_blacken]
          · -- uncle black, parent and z both left children: Case 3
            have hgs2 : Balanced gs RBColor.black n := by
              have h2 := rb_colorOf_balanced hgs
              rw [hcu] at h2
              rw [← h2] at hgs
              exact hgs
            obtain ⟨r, hr1, hr2, hr3⟩ := ih
              (⟨Dir.left, RBColor.black, pk, node RBColor.red ps gk gs⟩ :: rest1) z n m
              (by simp at hlen ⊢; omega) hz (RCtx.blackL (Balanced.red hs hgs2) hrest1)
            have heq : insertFixup z (⟨Dir.left, RBColor.red, pk, ps⟩ ::
                ⟨Dir.left, RBColor.black, gk, gs⟩ :: rest1) =
                insertFixup z
                  (⟨Dir.left, RBColor.black, pk, node RBColor.red ps gk gs⟩ :: rest1) := by
              rw [insertFixup.eq_def]
              rcases gs with _ | ⟨gc, gl, glk, grr⟩
              · rfl
              · cases gc
                · exact absurd hcu (by simp [colorOf])
                · rfl
            refine ⟨r, by rw [heq]; exact hr1, hr2, ?_⟩
            rw [hr3, rb_inorder_rplug, rb_inorder_rplug]
            simp [inorder, ctxL, ctxR]
        | blackR hgs hrest1 =>
          rename_i gs cs rest1 gk
          rcases hcu : colorOf gs with _ | _
          · -- Case 1 of the mirrored arm: uncle red
            have hgs' : Balanced gs RBColor.red n := by
              have h2 := rb_colorOf_balanced hgs
              rw [hcu] at h2
              rw [← h2] at hgs
              exact hgs
            have hz' : Balanced (node RBColor.red (blacken gs) gk (node RBColor.black z pk ps))
                RBColor.red (n + 1) :=
              Balanced.red (rb_blacken_red hgs') (Balanced.black hz hs)
            obtain ⟨r, hr1, hr2, hr3⟩ := ih rest1
              (node RBColor.red (blacken gs) gk (node RBColor.black z pk ps)) (n + 1) m
              (by simp at hlen; omega) hz' hrest1
            have heq : insertFixup z (⟨Dir.left, RBColor.red, pk, ps⟩ ::
                ⟨Dir.right, RBColor.black, gk, gs⟩ :: rest1) =
                insertFixup (node RBColor.red (blacken gs) gk (node RBColor.black z pk ps))
                  rest1 := by
              rw [insertFixup.eq_def]
              rcases gs with _ | ⟨gc, gl, glk, grr⟩
              · exact absurd hcu (by simp [colorOf])
              · cases gc
                · rfl
                · exact absurd hcu (by simp [colorOf])
            refine ⟨r, by rw [heq]; exact hr1, hr2, ?_⟩
            rw [hr3, rb_inorder_rplug, rb_inorder_rplug]
            simp [inorder, ctxL, ctxR, rb_inorder_blacken]
          · -- uncle black, z a left child under a right-child parent: Cases 2+3 mirrored
            cases hz with
            | red hzl hzr =>
              rename_i zl zr zk
              have hgs2 : Balanced gs RBColor.black n := by
                have h2 := rb_colorOf_balanced hgs
                rw [hcu] at h2
                rw [← h2] at hgs
                exact hgs
              obtain ⟨r, hr1, hr2, hr3⟩ := ih
                (⟨Dir.right, RBColor.black, zk, node RBColor.red gs gk zl⟩ :: rest1)
                (node RBColor.red zr pk ps) n m
                (by simp at hlen ⊢; omega) (Balanced.red hzr hs)
                (RCtx.blackR (Balanced.red hgs2 hzl) hrest1)
              have heq : insertFixup (node RBColor.red zl zk zr)
                  (⟨Dir.left, RBColor.red, pk, ps⟩ ::
                    ⟨Dir.right, RBColor.black, gk, gs⟩ :: rest1) =
                  insertFixup (node RBColor.red zr pk ps)
                    (⟨Dir.right, RBColor.black, zk, node RBColor.red gs gk zl⟩ :: rest1) := by
                rw [insertFixup.eq_def]
                rcases gs with _ | ⟨gc, gl, glk, grr⟩
                · rfl
                · cases gc
                  · exact absurd hcu (by simp [colorOf])
                  · rfl
              refine ⟨r, by rw [heq]; exact hr1, hr2, ?_⟩
              rw [hr3, rb_inorder_rplug, rb_inorder_rplug]
              simp [inorder, ctxL, ctxR]
      | redR hs hrest =>
        rename_i ps pk
        cases hrest with
        | blackR hgs hrest1 =>
          rename_i gs cs rest1 gk
          rcases hcu : colorOf gs with _ | _
          · -- Case 1 mirrored: uncle red
            have hgs' : Balanced gs RBColor.red n := by
              have h2 := rb_colorOf_balanced hgs
              rw [hcu] at h2
              rw [← h2] at hgs
              exact hgs
            have hz' : Balanced (node RBColor.red (blacken gs) gk (node RBColor.black ps pk z))
                RBColor.red (n + 1) :=
              Balanced.red (rb_blacken_red hgs') (Balanced.black hs hz)
            obtain ⟨r, hr1, hr2, hr3⟩ := ih rest1
              (node RBColor.red (blacken gs) gk (node RBColor.black ps pk z)) (n + 1) m
              (by simp at hlen; omega) hz' hrest1
            have heq : insertFixup z (⟨Dir.right, RBColor.red, pk, ps⟩ ::
                ⟨Dir.right, RBColor.black, gk, gs⟩ :: rest1) =
                insertFixup (node RBColor.red (blacken gs) gk (node RBColor.black ps pk z))
                  rest1 := by
              rw [insertFixup.eq_def]
              rcases gs with _ | ⟨gc, gl, glk, grr⟩
              · exact absurd hcu (by simp [colorOf])
              · cases gc
                · rfl
                · exact absurd hcu (by simp [colorOf])
            refine ⟨r, by rw [heq]; exact hr1, hr2, ?_⟩
            rw [hr3, rb_inorder_rplug, rb_inorder_rplug]
            simp [inorder, ctxL, ctxR, rb_inorder_blacken]
          · -- uncle black, parent and z both right children: Case 3 mirrored
            have hgs2 : Balanced gs RBColor.black n := by
              have h2 := rb_colorOf_balanced hgs
              rw [hcu] at h2
              rw [← h2] at hgs
              exact hgs
            obtain ⟨r, hr1, hr2, hr3⟩ := ih
              (⟨Dir.right, RBColor.black, pk, node RBColor.red gs gk ps⟩ :: rest1) z n m
              (by simp at hlen ⊢; omega) hz (RCtx.blackR (Balanced.red hgs2 hs) hrest1)
            have heq : insertFixup z (⟨Dir.right, RBColor.red, pk, ps⟩ ::
                ⟨Dir.right, RBColor.black, gk, gs⟩ :: rest1) =
                insertFixup z
                  (⟨Dir.right, RBColor.black, pk, node RBColor.red gs gk ps⟩ :: rest1) := by
              rw [insertFixup.eq_def]
              rcases gs with _ | ⟨gc, gl, glk, grr⟩
              · rfl
              · cases gc
                · exact absurd hcu (by simp [colorOf])
                · rfl
            refine ⟨r, by rw [heq]; exact hr1, hr2, ?_⟩
            rw [hr3, rb_inorder_rplug, rb_inorder_rplug]
            simp [inorder, ctxL, ctxR]
        | blackL hgs hrest1 =>
          rename_i gs cs rest1 gk
          rcases hcu : colorOf gs with _ | _
          · -- Case 1: uncle red
            have hgs' : Balanced gs RBColor.red n := by
              have h2 := rb_colorOf_balanced hgs
              rw [hcu] at h2
              rw [← h2] at hgs
              exact hgs
            have hz' : Balanced (node RBColor.red (node RBColor.black ps pk z) gk (blacken gs))
                RBColor.red (n + 1) :=
              Balanced.red (Balanced.black hs hz) (rb_blacken_red hgs')
            obtain ⟨r, hr1, hr2, hr3⟩ := ih rest1
              (node RBColor.red (node RBColor.black ps pk z) gk (blacken gs)) (n + 1) m
              (by simp at hlen; omega) hz' hrest1
            have heq : insertFixup z (⟨Dir.right, RBColor.red, pk, ps⟩ ::
                ⟨Dir.left, RBColor.black, gk, gs⟩ :: rest1) =
                insertFixup (node RBColor.red (node RBColor.black ps pk z) gk (blacken gs))
                  rest1 := by
              rw [insertFixup.eq_def]
              rcases gs with _ | ⟨gc, gl, glk, grr⟩
              · exact absurd hcu (by simp [colorOf])
              · cases gc
                · rfl
                · exact absurd hcu (by simp [colorOf])
            refine ⟨r, by rw [heq]; exact hr1, hr2, ?_⟩
            rw [hr3, rb_inorder_rplug, rb_inorder_rplug]
            simp [inorder, ctxL, ctxR, rb_inorder_blacken]
          · -- uncle black, z a right child under a left-child parent: Cases 2+3
            cases hz with
            | red hzl hzr =>
              rename_i zl zr zk
              have hgs2 : Balanced gs RBColor.black n := by
                have h2 := rb_colorOf_balanced hgs
                rw [hcu] at h2
                rw [← h2] at hgs
                exact hgs
              obtain ⟨r, hr1, hr2, hr3⟩ := ih
                (⟨Dir.left, RBColor.black, zk, node RBColor.red zr gk gs⟩ :: rest1)
                (node RBColor.red ps pk zl) n m
                (by simp at hlen ⊢; omega) (Balanced.red hs hzl)
                (RCtx.blackL (Balanced.red hzr hgs2) hrest1)
              have heq : insertFixup (node RBColor.red zl zk zr)
                  (⟨Dir.right, RBColor.red, pk, ps⟩ ::
                    ⟨Dir.left, RBColor.black, gk, gs⟩ :: rest1) =
                  insertFixup (node RBColor.red ps pk zl)
                    (⟨Dir.left, RBColor.black, zk, node RBColor.red zr gk gs⟩ :: rest1) := by
                rw [insertFixup.eq_def]
                rcases gs with _ | ⟨gc, gl, glk, grr⟩
                · rfl
                · cases gc
                  · exact absurd hcu (by simp [colorOf])
                  · rfl
              refine ⟨r, by rw [heq]; exact hr1, hr2, ?_⟩
              rw [hr3, rb_inorder_rplug, rb_inorder_rplug]
              simp [inorder, ctxL, ctxR]

theorem insDescend_spec : ∀ (t : RBT) (c : RBColor) (n : Nat) (key : Int) (ctx0 : List RFrame),
    Balanced t c n → (inorder t).Sorted (· < ·) →
    (insDescend t ctx0 key = none → key ∈ inorder t) ∧
    (∀ ctx, insDescend t ctx0 key = some ctx → key ∉ inorder t ∧
      ∃ ctx1, ctx = ctx1 ++ ctx0 ∧ RCtx RBColor.black 0 ctx1 c n ∧
        ctxL ctx1 ++ key :: ctxR ctx1 = insList key (inorder t)) := by
  intro t
  induction t with
  | nil =>
    intro c n key ctx0 hb hs
    refine ⟨fun h => by simp [insDescend] at h, fun ctx h => ?_⟩
    cases hb
    refine ⟨by simp [inorder], [], by simpa [insDescend] using h.symm, RCtx.nil, ?_⟩
    simp [ctxL, ctxR, inorder, insList]
  | node c0 l k r ihl ihr =>
    intro c n key ctx0 hb hs
    rw [show inorder (node c0 l k r) = inorder l ++ k :: inorder r from rfl] at hs ⊢
    obtain ⟨hsl, hsr, hkl, hkr⟩ := sorted_node_parts hs
    rcases lt_trichotomy key k with hlt | heq | hgt
    · have hd : insDescend (node c0 l k r) ctx0 key =
          insDescend l (⟨Dir.left, c0, k, r⟩ :: ctx0) key := by
        simp [insDescend, hlt]
      rw [hd]
      cases hb with
      | red hbl hbr =>
        obtain ⟨ih1, ih2⟩ := ihl RBColor.black n key (⟨Dir.left, RBColor.red, k, r⟩ :: ctx0)
          hbl hsl
        refine ⟨fun h => (mem_split_left hs hlt).mpr (ih1 h), fun ctx h => ?_⟩
        obtain ⟨hnm, ctx1, hc1, hc2, hc3⟩ := ih2 ctx h
        refine ⟨fun hm => hnm ((mem_split_left hs hlt).mp hm),
          ctx1 ++ [⟨Dir.left, RBColor.red, k, r⟩], by simpa using hc1,
          RCtx_append hc2 (RCtx.redL hbr RCtx.nil), ?_⟩
        rw [ctxL_append, ctxR_append, insList_append_lt hlt, ← hc3]
        simp [ctxL, ctxR]
      | black hbl hbr =>
        obtain ⟨ih1, ih2⟩ := ihl _ _ key (⟨Dir.left, RBColor.black, k, r⟩ :: ctx0) hbl hsl
        refine ⟨fun h => (mem_split_left hs hlt).mpr (ih1 h), fun ctx h => ?_⟩
        obtain ⟨hnm, ctx1, hc1, hc2, hc3⟩ := ih2 ctx h
        refine ⟨fun hm => hnm ((mem_split_left hs hlt).mp hm),
          ctx1 ++ [⟨Dir.left, RBColor.black, k, r⟩], by simpa using hc1,
          RCtx_append hc2 (RCtx.blackL hbr RCtx.nil), ?_⟩
        rw [ctxL_append, ctxR_append, insList_append_lt hlt, ← hc3]
        simp [ctxL, ctxR]
    · subst heq
      refine ⟨fun _ => by simp, fun ctx h => ?_⟩
      rw [show insDescend (node c0 l key r) ctx0 key = none by
        simp [insDescend, lt_irrefl]] at h
      exact Option.noConfusion h
    · have hd : insDescend (node c0 l k r) ctx0 key =
          insDescend r (⟨Dir.right, c0, k, l⟩ :: ctx0) key := by
        simp [insDescend, show ¬ key < k by omega, hgt]
      rw [hd]
      have hklk : ∀ x ∈ inorder l, x < key := fun x hx => lt_trans (hkl x hx) hgt
      cases hb with
      | red hbl hbr =>
        obtain ⟨ih1, ih2⟩ := ihr RBColor.black n key (⟨Dir.right, RBColor.red, k, l⟩ :: ctx0)
          hbr hsr
        refine ⟨fun h => (mem_split_right hs hgt).mpr (ih1 h), fun ctx h => ?_⟩
        obtain ⟨hnm, ctx1, hc1, hc2, hc3⟩ := ih2 ctx h
        refine ⟨fun hm => hnm ((mem_split_right hs hgt).mp hm),
          ctx1 ++ [⟨Dir.right, RBColor.red, k, l⟩], by simpa using hc1,
          RCtx_append hc2 (RCtx.redR hbl RCtx.nil), ?_⟩
        rw [ctxL_append, ctxR_append, insList_append_gt hgt _ _ hklk, ← hc3]
        simp [ctxL, ctxR]
      | black hbl hbr =>
        obtain ⟨ih1, ih2⟩ := ihr _ _ key (⟨Dir.right, RBColor.black, k, l⟩ :: ctx0) hbr hsr
        refine ⟨fun h => (mem_split_right hs hgt).mpr (ih1 h), fun ctx h => ?_⟩
        obtain ⟨hnm, ctx1, hc1, hc2, hc3⟩ := ih2 ctx h
        refine ⟨fun hm => hnm ((mem_split_right hs hgt).mp hm),
          ctx1 ++ [⟨Dir.right, RBColor.black, k, l⟩], by simpa using hc1,
          RCtx_append hc2 (RCtx.blackR hbl RCtx.nil), ?_⟩
        rw [ctxL_append, ctxR_append, insList_append_gt hgt _ _ hklk, ← hc3]
        simp [ctxL, ctxR]

theorem searchFrom_spec : ∀ (t : RBT) (key : Int), (inorder t).Sorted (· < ·) →
    (searchFrom t key = true ↔ key ∈ inorder t) := by
  intro t
  induction t with
  | nil => intro key _; simp [searchFrom, inorder]
  | node c0 l k r ihl ihr =>
    intro key hs
    rw [show inorder (node c0 l k r) = inorder l ++ k :: inorder r from rfl] at hs ⊢
    obtain ⟨hsl, hsr, -, -⟩ := sorted_node_parts hs
    rcases lt_trichotomy key k with hlt | heq | hgt
    · rw [show searchFrom (node c0 l k r) key = searchFrom l key by
        simp [searchFrom, hlt, show key ≠ k by omega]]
      rw [ihl key hsl, mem_split_left hs hlt]
    · subst heq
      simp [searchFrom]
    · rw [show searchFrom (node c0 l k r) key = searchFrom r key by
        simp [searchFrom, show ¬ key < k by omega, show key ≠ k by omega]]
      rw [ihr key hsr, mem_split_right hs hgt]

theorem findDescend_spec : ∀ (t : RBT) (c : RBColor) (n : Nat) (ctx0 : List RFrame) (key : Int),
    Balanced t c n → (inorder t).Sorted (· < ·) →
    ((findDescend t ctx0 key).1 = nil → key ∉ inorder t) ∧
    (∀ zc zl zk zr ctxz, findDescend t ctx0 key = (node zc zl zk zr, ctxz) →
      zk = key ∧ ∃ ctx1 nz, ctxz = ctx1 ++ ctx0 ∧
        Balanced (node zc zl zk zr) zc nz ∧ RCtx zc nz ctx1 c n ∧
        ctxL ctx1 ++ inorder (node zc zl zk zr) ++ ctxR ctx1 = inorder t) := by
  intro t
  induction t with
  | nil =>
    intro c n ctx0 key hb hs
    exact ⟨fun _ => by simp [inorder], fun zc zl zk zr ctxz h => by
      simp [findDescend] at h⟩
  | node c0 l k r ihl ihr =>
    intro c n ctx0 key hb hs
    rw [show inorder (node c0 l k r) = inorder l ++ k :: inorder r from rfl] at hs ⊢
    obtain ⟨hsl, hsr, hkl, hkr⟩ := sorted_node_parts hs
    rcases lt_trichotomy key k with hlt | heq | hgt
    · have hd : findDescend (node c0 l k r) ctx0 key =
          findDescend l (⟨Dir.left, c0, k, r⟩ :: ctx0) key := by
        simp [findDescend, hlt, show key ≠ k by omega]
      rw [hd]
      cases hb with
      | red hbl hbr =>
        obtain ⟨ih1, ih2⟩ := ihl RBColor.black n (⟨Dir.left, RBColor.red, k, r⟩ :: ctx0) key
          hbl hsl
        refine ⟨fun h hm => ih1 h ((mem_split_left hs hlt).mp hm), ?_⟩
        intro zc zl zk zr ctxz h
        obtain ⟨hzk, ctx1, nz, hc1, hc2, hc3, hc4⟩ := ih2 zc zl zk zr ctxz h
        refine ⟨hzk, ctx1 ++ [⟨Dir.left, RBColor.red, k, r⟩], nz, by simpa using hc1, hc2,
          RCtx_append hc3 (RCtx.redL hbr RCtx.nil), ?_⟩
        rw [ctxL_append, ctxR_append, ← hc4]
        simp [ctxL, ctxR]
      | black hbl hbr =>
        obtain ⟨ih1, ih2⟩ := ihl _ _ (⟨Dir.left, RBColor.black, k, r⟩ :: ctx0) key hbl hsl
        refine ⟨fun h hm => ih1 h ((mem_split_left hs hlt).mp hm), ?_⟩
        intro zc zl zk zr ctxz h
        obtain ⟨hzk, ctx1, nz, hc1, hc2, hc3, hc4⟩ := ih2 zc zl zk zr ctxz h
        refine ⟨hzk, ctx1 ++ [⟨Dir.left, RBColor.black, k, r⟩], nz, by simpa using hc1, hc2,
          RCtx_append hc3 (RCtx.blackL hbr RCtx.nil), ?_⟩
        rw [ctxL_append, ctxR_append, ← hc4]
        simp [ctxL, ctxR]
    · subst heq
      have hd : findDescend (node c0 l key r) ctx0 key = (node c0 l key r, ctx0) := by
        simp [findDescend]
      rw [hd]
      refine ⟨fun h => by simp at h, ?_⟩
      intro zc zl zk zr ctxz h
      have hcc : c0 = c := rb_colorOf_balanced hb
      subst hcc
      injection h with h1 h2
      injection h1 with e1 e2 e3 e4
      subst e1; subst e2; subst e3; subst e4; subst h2
      exact ⟨rfl, [], n, by simp, hb, RCtx.nil, by simp [ctxL, ctxR, inorder]⟩
    · have hd : findDescend (node c0 l k r) ctx0 key =
          findDescend r (⟨Dir.right, c0, k, l⟩ :: ctx0) key := by
        simp [findDescend, show ¬ key < k by omega, show key ≠ k by omega]
      rw [hd]
      cases hb with
      | red hbl hbr =>
        obtain ⟨ih1, ih2⟩ := ihr RBColor.black n (⟨Dir.right, RBColor.red, k, l⟩ :: ctx0) key
          hbr hsr
        refine ⟨fun h hm => ih1 h ((mem_split_right hs hgt).mp hm), ?_⟩
        intro zc zl zk zr ctxz h
        obtain ⟨hzk, ctx1, nz, hc1, hc2, hc3, hc4⟩ := ih2 zc zl zk zr ctxz h
        refine ⟨hzk, ctx1 ++ [⟨Dir.right, RBColor.red, k, l⟩], nz, by simpa using hc1, hc2,
          RCtx_append hc3 (RCtx.redR hbl RCtx.nil), ?_⟩
        rw [ctxL_append, ctxR_append, ← hc4]
        simp [ctxL, ctxR]
      | black hbl hbr =>
        obtain ⟨ih1, ih2⟩ := ihr _ _ (⟨Dir.right, RBColor.black, k, l⟩ :: ctx0) key hbr hsr
        refine ⟨fun h hm => ih1 h ((mem_split_right hs hgt).mp hm), ?_⟩
        intro zc zl zk zr ctxz h
        obtain ⟨hzk, ctx1, nz, hc1, hc2, hc3, hc4⟩ := ih2 zc zl zk zr ctxz h
        refine ⟨hzk, ctx1 ++ [⟨Dir.right, RBColor.black, k, l⟩], nz, by simpa using hc1, hc2,
          RCtx_append hc3 (RCtx.blackR hbl RCtx.nil), ?_⟩
        rw [ctxL_append, ctxR_append, ← hc4]
        simp [ctxL, ctxR]

theorem minDescend_spec : ∀ (t : RBT) (c : RBColor) (n : Nat) (ctx0 : List RFrame),
    Balanced t c n → t ≠ nil →
    ∃ yc yk yr ctxm ctx1 ny,
      minDescend t ctx0 = (node yc nil yk yr, ctxm) ∧
      ctxm = ctx1 ++ ctx0 ∧
      Balanced (node yc nil yk yr) yc ny ∧ RCtx yc ny ctx1 c n ∧
      ctxL ctx1 = [] ∧
      inorder (node yc nil yk yr) ++ ctxR ctx1 = inorder t := by
  intro t
  induction t with
  | nil => intro c n ctx0 _ hne; exact absurd rfl hne
  | node c0 l k r ihl ihr =>
    intro c n ctx0 hb hne
    rcases l with _ | ⟨lc, ll, lk, lr⟩
    · have hcc : c0 = c := rb_colorOf_balanced hb
      subst hcc
      exact ⟨c0, k, r, ctx0, [], n, by rw [minDescend.eq_def], by simp, hb, RCtx.nil,
        rfl, by simp [ctxR]⟩
    · cases hb with
      | red hbl hbr =>
        obtain ⟨yc, yk, yr, ctxm, ctx1, ny, h1, h2, h3, h4, h5, h6⟩ :=
          ihl RBColor.black n (⟨Dir.left, RBColor.red, k, r⟩ :: ctx0) hbl (by simp)
        refine ⟨yc, yk, yr, ctxm, ctx1 ++ [⟨Dir.left, RBColor.red, k, r⟩], ny,
          by rw [minDescend.eq_def]; exact h1, by simpa using h2, h3,
          RCtx_append h4 (RCtx.redL hbr RCtx.nil), by simp [ctxL_append, ctxL, h5], ?_⟩
        rw [ctxR_append, show inorder (node RBColor.red (node lc ll lk lr) k r) =
          inorder (node lc ll lk lr) ++ k :: inorder r from rfl, ← h6]
        simp [ctxR]
      | black hbl hbr =>
        obtain ⟨yc, yk, yr, ctxm, ctx1, ny, h1, h2, h3, h4, h5, h6⟩ :=
          ihl _ _ (⟨Dir.left, RBColor.black, k, r⟩ :: ctx0) hbl (by simp)
        refine ⟨yc, yk, yr, ctxm, ctx1 ++ [⟨Dir.left, RBColor.black, k, r⟩], ny,
          by rw [minDescend.eq_def]; exact h1, by simpa using h2, h3,
          RCtx_append h4 (RCtx.blackL hbr RCtx.nil), by simp [ctxL_append, ctxL, h5], ?_⟩
        rw [ctxR_append, show inorder (node RBColor.black (node lc ll lk lr) k r) =
          inorder (node lc ll lk lr) ++ k :: inorder r from rfl, ← h6]
        simp [ctxR]

theorem rb_insert_spec {t : Tree} (h : Inv t) (key : Int) :
    ∃ t', t.insert key = some t' ∧ Inv t' ∧
      inorder t'.root = insList key (inorder t.root) ∧
      t'.size = (if key ∈ inorder t.root then t.size else t.size + 1) := by
  obtain ⟨⟨n, hbal⟩, hsort, hsz⟩ := h
  obtain ⟨hd1, hd2⟩ := insDescend_spec t.root RBColor.black n key [] hbal hsort
  rcases hdd : insDescend t.root [] key with _ | ctx
  · have hm : key ∈ inorder t.root := hd1 hdd
    refine ⟨t, ?_, ⟨⟨n, hbal⟩, hsort, hsz⟩, ?_, ?_⟩
    · rw [Tree.insert, hdd]
    · rw [insList_of_mem _ hsort hm]
    · rw [if_pos hm]
  · obtain ⟨hnm, ctx1, hc1, hc2, hc3⟩ := hd2 ctx hdd
    simp at hc1
    subst hc1
    obtain ⟨r, hr1, ⟨m', hr2⟩, hr3⟩ := insertFixup_spec ctx.length ctx
      (node RBColor.red nil key nil) 0 n (le_refl _)
      (Balanced.red Balanced.nil Balanced.nil) hc2
    have hio : inorder r = insList key (inorder t.root) := by
      rw [hr3, rb_inorder_rplug, ← hc3]
      simp [inorder]
    refine ⟨⟨r, t.size + 1⟩, ?_, ⟨⟨m', hr2⟩, ?_, ?_⟩, hio, ?_⟩
    · rw [Tree.insert, hdd]
      dsimp only
      rw [hr1]
      rfl
    · rw [show inorder (⟨r, t.size + 1⟩ : Tree).root = inorder r from rfl, hio]
      exact sorted_insList key _ hsort
    · rw [show inorder (⟨r, t.size + 1⟩ : Tree).root = inorder r from rfl, hio,
        length_insList_of_not_mem _ hnm]
      rw [show (⟨r, t.size + 1⟩ : Tree).size = t.size + 1 from rfl, hsz]
      push_cast
      ring
    · rw [if_neg hnm]

theorem rb_blacken_any {x : RBT} {cx : RBColor} {n : Nat} (h : Balanced x cx n) :
    ∃ m', Balanced (blacken x) RBColor.black m' := by
  cases cx with
  | red => exact ⟨n + 1, rb_blacken_red h⟩
  | black => exact ⟨n, by rw [rb_blacken_of_black (rb_colorOf_balanced h)]; exact h⟩

theorem deleteFixup_spec : ∀ (fuel : Nat) (ctx : List RFrame) (x : RBT) (cx : RBColor)
    (n m : Nat), ctx.length ≤ fuel →
    Balanced x cx n →
    RCtx RBColor.black (n + 1) ctx RBColor.black m →
    ∃ r, deleteFixup x ctx = some r ∧ (∃ m', Balanced r RBColor.black m') ∧
      inorder r = inorder (rplug x ctx) := by
  intro fuel
  induction fuel with
  | zero =>
    intro ctx x cx n m hlen hx hctx
    rw [List.eq_nil_of_length_eq_zero (Nat.le_zero.mp hlen)] at hctx ⊢
    refine ⟨blacken x, by rw [deleteFixup.eq_def], rb_blacken_any hx, ?_⟩
    rw [rb_inorder_blacken]
    rfl
  | succ fuel ih =>
    intro ctx x cx n m hlen hx hctx
    rcases ctx with _ | ⟨f, rest⟩
    · refine ⟨blacken x, by rw [deleteFixup.eq_def], rb_blacken_any hx, ?_⟩
      rw [rb_inorder_blacken]
      rfl
    · rcases hcx : colorOf x with _ | _
      · -- x is red: blacken it and stop
        have hcx2 : cx = RBColor.red := by rw [← rb_colorOf_balanced hx, hcx]
        subst hcx2
        cases hx with
        | red hxl hxr =>
          rename_i xl xr xk
          refine ⟨rplug (node RBColor.black xl xk xr) (f :: rest),
            by rw [deleteFixup.eq_def]; rfl,
            ⟨m, plugBal hctx (Balanced.black hxl hxr)⟩, ?_⟩
          rw [rb_inorder_rplug, rb_inorder_rplug]
          rfl
      · -- x is black (possibly the sentinel)
        have hcx2 : cx = RBColor.black := by rw [← rb_colorOf_balanced hx, hcx]
        subst hcx2
        cases hctx with
        | blackL hw hrest =>
          rename_i w cs k
          cases hw with
          | red hwl hwr =>
            rename_i wl wr wk
            -- sibling w is red (Case 1); its left child is the new sibling
            cases hwl with
            | black hwa hwb =>
              rename_i wa ca wb cb wak
              rcases hca : colorOf wa with _ | _ <;> rcases hcb : colorOf wb with _ | _
              · -- wa red, wb red: Case 4 after Case 1
                have hca2 : ca = RBColor.red := by rw [← rb_colorOf_balanced hwa, hca]
                have hcb2 : cb = RBColor.red := by rw [← rb_colorOf_balanced hwb, hcb]
                subst hca2; subst hcb2
                cases hwb with
                | red hba hbb =>
                  rename_i ba bb bk
                  refine ⟨blacken (rplug
                      (node RBColor.red (node RBColor.black x k wa) wak
                        (node RBColor.black ba bk bb))
                      (⟨Dir.left, RBColor.black, wk, wr⟩ :: rest)), ?_, ?_, ?_⟩
                  · rw [deleteFixup.eq_def]
                    simp [hcx, hca, hcb, blacken]
                  · have hb : Balanced (rplug
                        (node RBColor.red (node RBColor.black x k wa) wak
                          (node RBColor.black ba bk bb))
                        (⟨Dir.left, RBColor.black, wk, wr⟩ :: rest)) RBColor.black m :=
                      plugBal (RCtx.blackL hwr hrest)
                        (Balanced.red (Balanced.black hx hwa) (Balanced.black hba hbb))
                    rw [rb_blacken_of_black (rb_colorOf_balanced hb)]
                    exact ⟨m, hb⟩
                  · rw [rb_inorder_blacken, rb_inorder_rplug, rb_inorder_rplug]
                    simp [ctxL, ctxR, inorder]
              · -- wa red, wb black: Case 3 then Case 4 after Case 1
                have hca2 : ca = RBColor.red := by rw [← rb_colorOf_balanced hwa, hca]
                have hcb2 : cb = RBColor.black := by rw [← rb_colorOf_balanced hwb, hcb]
                subst hca2; subst hcb2
                cases hwa with
                | red haa hab =>
                  rename_i waa wab wk2
                  refine ⟨blacken (rplug
                      (node RBColor.red (node RBColor.black x k waa) wk2
                        (node RBColor.black wab wak wb))
                      (⟨Dir.left, RBColor.black, wk, wr⟩ :: rest)), ?_, ?_, ?_⟩
                  · rw [deleteFixup.eq_def]
                    simp [hcx, hca, hcb, blacken]
                  · have hb : Balanced (rplug
                        (node RBColor.red (node RBColor.black x k waa) wk2
                          (node RBColor.black wab wak wb))
                        (⟨Dir.left, RBColor.black, wk, wr⟩ :: rest)) RBColor.black m :=
                      plugBal (RCtx.blackL hwr hrest)
                        (Balanced.red (Balanced.black hx haa) (Balanced.black hab hwb))
                    rw [rb_blacken_of_black (rb_colorOf_balanced hb)]
                    exact ⟨m, hb⟩
                  · rw [rb_inorder_blacken, rb_inorder_rplug, rb_inorder_rplug]
                    simp [ctxL, ctxR, inorder]
              · -- wa black, wb red: Case 4 after Case 1
                have hca2 : ca = RBColor.black := by rw [← rb_colorOf_balanced hwa, hca]
                have hcb2 : cb = RBColor.red := by rw [← rb_colorOf_balanced hwb, hcb]
                subst hca2; subst hcb2
                cases hwb with
                | red hba hbb =>
                  rename_i ba bb bk
                  refine ⟨blacken (rplug
                      (node RBColor.red (node RBColor.black x k wa) wak
                        (node RBColor.black ba bk bb))
                      (⟨Dir.left, RBColor.black, wk, wr⟩ :: rest)), ?_, ?_, ?_⟩
                  · rw [deleteFixup.eq_def]
                    simp [hcx, hca, hcb, blacken]
                  · have hb : Balanced (rplug
                        (node RBColor.red (node RBColor.black x k wa) wak
                          (node RBColor.black ba bk bb))
                        (⟨Dir.left, RBColor.black, wk, wr⟩ :: rest)) RBColor.black m :=
                      plugBal (RCtx.blackL hwr hrest)
                        (Balanced.red (Balanced.black hx hwa) (Balanced.black hba hbb))
                    rw [rb_blacken_of_black (rb_colorOf_balanced hb)]
                    exact ⟨m, hb⟩
                  · rw [rb_inorder_blacken, rb_inorder_rplug, rb_inorder_rplug]
                    simp [ctxL, ctxR, inorder]
              · -- wa black, wb black: Case 2 after Case 1 (loop exits on the red parent)
                have hca2 : ca = RBColor.black := by rw [← rb_colorOf_balanced hwa, hca]
                have hcb2 : cb = RBColor.black := by rw [← rb_colorOf_balanced hwb, hcb]
                subst hca2; subst hcb2
                refine ⟨rplug (node RBColor.black x k (node RBColor.red wa wak wb))
                    (⟨Dir.left, RBColor.black, wk, wr⟩ :: rest), ?_, ?_, ?_⟩
                · rw [deleteFixup.eq_def]
                  simp [hcx, hca, hcb, blacken]
                · exact ⟨m, plugBal (RCtx.blackL hwr hrest)
                    (Balanced.black hx (Balanced.red hwa hwb))⟩
                · rw [rb_inorder_rplug, rb_inorder_rplug]
                  simp [ctxL, ctxR, inorder]
          | black hwl hwr =>
            rename_i wl cl wr cr wk
            rcases hcl : colorOf wl with _ | _ <;> rcases hcr : colorOf wr with _ | _
            · -- wl red, wr red: Case 4
              have hcl2 : cl = RBColor.red := by rw [← rb_colorOf_balanced hwl, hcl]
              have hcr2 : cr = RBColor.red := by rw [← rb_colorOf_balanced hwr, hcr]
              subst hcl2; subst hcr2
              cases hwr with
              | red hra hrb =>
                rename_i ra rb rk
                refine ⟨blacken (rplug
                    (node RBColor.black (node RBColor.black x k wl) wk
                      (node RBColor.black ra rk rb)) rest), ?_, ?_, ?_⟩
                · rw [deleteFixup.eq_def]
                  simp [hcx, hcl, hcr, blacken]
                · have hb : Balanced (rplug
                      (node RBColor.black (node RBColor.black x k wl) wk
                        (node RBColor.black ra rk rb)) rest) RBColor.black m :=
                    plugBal hrest
                      (Balanced.black (Balanced.black hx hwl) (Balanced.black hra hrb))
                  rw [rb_blacken_of_black (rb_colorOf_balanced hb)]
                  exact ⟨m, hb⟩
                · rw [rb_inorder_blacken, rb_inorder_rplug, rb_inorder_rplug]
                  simp [ctxL, ctxR, inorder]
            · -- wl red, wr black: Case 3
              have hcl2 : cl = RBColor.red := by rw [← rb_colorOf_balanced hwl, hcl]
              have hcr2 : cr = RBColor.black := by rw [← rb_colorOf_balanced hwr, hcr]
              subst hcl2; subst hcr2
              cases hwl with
              | red hwa hwb =>
                rename_i wa wb wak
                refine ⟨blacken (rplug
                    (node RBColor.black (node RBColor.black x k wa) wak
                      (node RBColor.black wb wk wr)) rest), ?_, ?_, ?_⟩
                · rw [deleteFixup.eq_def]
                  simp [hcx, hcl, hcr, blacken]
                · have hb : Balanced (rplug
                      (node RBColor.black (node RBColor.black x k wa) wak
                        (node RBColor.black wb wk wr)) rest) RBColor.black m :=
                    plugBal hrest
                      (Balanced.black (Balanced.black hx hwa) (Balanced.black hwb hwr))
                  rw [rb_blacken_of_black (rb_colorOf_balanced hb)]
                  exact ⟨m, hb⟩
                · rw [rb_inorder_blacken, rb_inorder_rplug, rb_inorder_rplug]
                  simp [ctxL, ctxR, inorder]
            · -- wl black, wr red: Case 4
              have hcl2 : cl = RBColor.black := by rw [← rb_colorOf_balanced hwl, hcl]
              have hcr2 : cr = RBColor.red := by rw [← rb_colorOf_balanced hwr, hcr]
              subst hcl2; subst hcr2
              cases hwr with
              | red hra hrb =>
                rename_i ra rb rk
                refine ⟨blacken (rplug
                    (node RBColor.black (node RBColor.black x k wl) wk
                      (node RBColor.black ra rk rb)) rest), ?_, ?_, ?_⟩
                · rw [deleteFixup.eq_def]
                  simp [hcx, hcl, hcr, blacken]
                · have hb : Balanced (rplug
                      (node RBColor.black (node RBColor.black x k wl) wk
                        (node RBColor.black ra rk rb)) rest) RBColor.black m :=
                    plugBal hrest
                      (Balanced.black (Balanced.black hx hwl) (Balanced.black hra hrb))
                  rw [rb_blacken_of_black (rb_colorOf_balanced hb)]
                  exact ⟨m, hb⟩
                · rw [rb_inorder_blacken, rb_inorder_rplug, rb_inorder_rplug]
                  simp [ctxL, ctxR, inorder]
            · -- wl black, wr black: Case 2, the deficit moves up
              have hcl2 : cl = RBColor.black := by rw [← rb_colorOf_balanced hwl, hcl]
              have hcr2 : cr = RBColor.black := by rw [← rb_colorOf_balanced hwr, hcr]
              subst hcl2; subst hcr2
              obtain ⟨r, hr1, hr2, hr3⟩ := ih rest
                (node RBColor.black x k (node RBColor.red wl wk wr)) RBColor.black (n + 1) m
                (by simp at hlen; omega) (Balanced.black hx (Balanced.red hwl hwr)) hrest
              refine ⟨r, ?_, hr2, ?_⟩
              · rw [deleteFixup.eq_def]
                simp only [hcx, hcl, hcr]
                simpa using hr1
              · rw [hr3, rb_inorder_rplug, rb_inorder_rplug]
                simp [ctxL, ctxR, inorder]
        | redL hw hrest =>
          rename_i w k
          cases hw with
          | black hwl hwr =>
            rename_i wl cl wr cr wk
            rcases hcl : colorOf wl with _ | _ <;> rcases hcr : colorOf wr with _ | _
            · -- wl red, wr red: Case 4 under a red parent
              have hcl2 : cl = RBColor.red := by rw [← rb_colorOf_balanced hwl, hcl]
              have hcr2 : cr = RBColor.red := by rw [← rb_colorOf_balanced hwr, hcr]
              subst hcl2; subst hcr2
              cases hwr with
              | red hra hrb =>
                rename_i ra rb rk
                refine ⟨blacken (rplug
                    (node RBColor.red (node RBColor.black x k wl) wk
                      (node RBColor.black ra rk rb)) rest), ?_, ?_, ?_⟩
                · rw [deleteFixup.eq_def]
                  simp [hcx, hcl, hcr, blacken]
                · have hb : Balanced (rplug
                      (node RBColor.red (node RBColor.black x k wl) wk
                        (node RBColor.black ra rk rb)) rest) RBColor.black m :=
                    plugBal hrest
                      (Balanced.red (Balanced.black hx hwl) (Balanced.black hra hrb))
                  rw [rb_blacken_of_black (rb_colorOf_balanced hb)]
                  exact ⟨m, hb⟩
                · rw [rb_inorder_blacken, rb_inorder_rplug, rb_inorder_rplug]
                  simp [ctxL, ctxR, inorder]
            · -- wl red, wr black: Case 3 under a red parent
              have hcl2 : cl = RBColor.red := by rw [← rb_colorOf_balanced hwl, hcl]
              have hcr2 : cr = RBColor.black := by rw [← rb_colorOf_balanced hwr, hcr]
              subst hcl2; subst hcr2
              cases hwl with
              | red hwa hwb =>
                rename_i wa wb wak
                refine ⟨blacken (rplug
                    (node RBColor.red (node RBColor.black x k wa) wak
                      (node RBColor.black wb wk wr)) rest), ?_, ?_, ?_⟩
                · rw [deleteFixup.eq_def]
                  simp [hcx, hcl, hcr, blacken]
                · have hb : Balanced (rplug
                      (node RBColor.red (node RBColor.black x k wa) wak
                        (node RBColor.black wb wk wr)) rest) RBColor.black m :=
                    plugBal hrest
                      (Balanced.red (Balanced.black hx hwa) (Balanced.black hwb hwr))
                  rw [rb_blacken_of_black (rb_colorOf_balanced hb)]
                  exact ⟨m, hb⟩
                · rw [rb_inorder_blacken, rb_inorder_rplug, rb_inorder_rplug]
                  simp [ctxL, ctxR, inorder]
            · -- wl black, wr red: Case 4 under a red parent
              have hcl2 : cl = RBColor.black := by rw [← rb_colorOf_balanced hwl, hcl]
              have hcr2 : cr = RBColor.red := by rw [← rb_colorOf_balanced hwr, hcr]
              subst hcl2; subst hcr2
              cases hwr with
              | red hra hrb =>
                rename_i ra rb rk
                refine ⟨blacken (rplug
                    (node RBColor.red (node RBColor.black x k wl) wk
                      (node RBColor.black ra rk rb)) rest), ?_, ?_, ?_⟩
                · rw [deleteFixup.eq_def]
                  simp [hcx, hcl, hcr, blacken]
                · have hb : Balanced (rplug
                      (node RBColor.red (node RBColor.black x k wl) wk
                        (node RBColor.black ra rk rb)) rest) RBColor.black m :=
                    plugBal hrest
                      (Balanced.red (Balanced.black hx hwl) (Balanced.black hra hrb))
                  rw [rb_blacken_of_black (rb_colorOf_balanced hb)]
                  exact ⟨m, hb⟩
                · rw [rb_inorder_blacken, rb_inorder_rplug, rb_inorder_rplug]
                  simp [ctxL, ctxR, inorder]
            · -- wl black, wr black: Case 2, the red parent absorbs the deficit
              have hcl2 : cl = RBColor.black := by rw [← rb_colorOf_balanced hwl, hcl]
              have hcr2 : cr = RBColor.black := by rw [← rb_colorOf_balanced hwr, hcr]
              subst hcl2; subst hcr2
              rcases rest with _ | ⟨g, rest1⟩
              · cases hrest
              · have hb : Balanced (rplug
                    (node RBColor.black x k (node RBColor.red wl wk wr)) (g :: rest1))
                    RBColor.black m :=
                  plugBal (RCtx_retype hrest)
                    (Balanced.black hx (Balanced.red hwl hwr))
                refine ⟨rplug (node RBColor.black x k (node RBColor.red wl wk wr)) (g :: rest1),
                  ?_, ⟨m, hb⟩, ?_⟩
                · have heq1 : deleteFixup x (⟨Dir.left, RBColor.red, k,
                      node RBColor.black wl wk wr⟩ :: g :: rest1) =
                      deleteFixup (node RBColor.red x k (node RBColor.red wl wk wr))
                        (g :: rest1) := by
                    rw [deleteFixup.eq_def]
                    simp [hcx, hcl, hcr]
                  rw [heq1, deleteFixup.eq_def]
                  rfl
                · rw [rb_inorder_rplug, rb_inorder_rplug]
                  simp [ctxL, ctxR, inorder]
        | blackR hw hrest =>
          rename_i w cs k
          cases hw with
          | red hwl hwr =>
            rename_i wl wr wk
            -- sibling w (on the left) is red (Case 1); its right child is the new sibling
            cases hwr with
            | black hwa hwb =>
              rename_i wa ca wb cb wak
              rcases hca : colorOf wa with _ | _ <;> rcases hcb : colorOf wb with _ | _
              · -- wa red, wb red: Case 4 after Case 1
                have hca2 : ca = RBColor.red := by rw [← rb_colorOf_balanced hwa, hca]
                have hcb2 : cb = RBColor.red := by rw [← rb_colorOf_balanced hwb, hcb]
                subst hca2; subst hcb2
                cases hwa with
                | red haa hab =>
                  rename_i aa ab ak
                  refine ⟨blacken (rplug
                      (node RBColor.red (node RBColor.black aa ak ab) wak
                        (node RBColor.black wb k x))
                      (⟨Dir.right, RBColor.black, wk, wl⟩ :: rest)), ?_, ?_, ?_⟩
                  · rw [deleteFixup.eq_def]
                    simp [hcx, hca, hcb, blacken]
                  · have hb : Balanced (rplug
                        (node RBColor.red (node RBColor.black aa ak ab) wak
                          (node RBColor.black wb k x))
                        (⟨Dir.right, RBColor.black, wk, wl⟩ :: rest)) RBColor.black m :=
                      plugBal (RCtx.blackR hwl hrest)
                        (Balanced.red (Balanced.black haa hab) (Balanced.black hwb hx))
                    rw [rb_blacken_of_black (rb_colorOf_balanced hb)]
                    exact ⟨m, hb⟩
                  · rw [rb_inorder_blacken, rb_inorder_rplug, rb_inorder_rplug]
                    simp [ctxL, ctxR, inorder]
              · -- wa red, wb black: Case 4 after Case 1
                have hca2 : ca = RBColor.red := by rw [← rb_colorOf_balanced hwa, hca]
                have hcb2 : cb = RBColor.black := by rw [← rb_colorOf_balanced hwb, hcb]
                subst hca2; subst hcb2
                cases hwa with
                | red haa hab =>
                  rename_i aa ab ak
                  refine ⟨blacken (rplug
                      (node RBColor.red (node RBColor.black aa ak ab) wak
                        (node RBColor.black wb k x))
                      (⟨Dir.right, RBColor.black, wk, wl⟩ :: rest)), ?_, ?_, ?_⟩
                  · rw [deleteFixup.eq_def]
                    simp [hcx, hca, hcb, blacken]
                  · have hb : Balanced (rplug
                        (node RBColor.red (node RBColor.black aa ak ab) wak
                          (node RBColor.black wb k x))
                        (⟨Dir.right, RBColor.black, wk, wl⟩ :: rest)) RBColor.black m :=
                      plugBal (RCtx.blackR hwl hrest)
                        (Balanced.red (Balanced.black haa hab) (Balanced.black hwb hx))
                    rw [rb_blacken_of_black (rb_colorOf_balanced hb)]
                    exact ⟨m, hb⟩
                  · rw [rb_inorder_blacken, rb_inorder_rplug, rb_inorder_rplug]
                    simp [ctxL, ctxR, inorder]
              · -- wa black, wb red: Case 3 then Case 4 after Case 1
                have hca2 : ca = RBColor.black := by rw [← rb_colorOf_balanced hwa, hca]
                have hcb2 : cb = RBColor.red := by rw [← rb_colorOf_balanced hwb, hcb]
                subst hca2; subst hcb2
                cases hwb with
                | red hba hbb =>
                  rename_i wba wbb wk2
                  refine ⟨blacken (rplug
                      (node RBColor.red (node RBColor.black wa wak wba) wk2
                        (node RBColor.black wbb k x))
                      (⟨Dir.right, RBColor.black, wk, wl⟩ :: rest)), ?_, ?_, ?_⟩
                  · rw [deleteFixup.eq_def]
                    simp [hcx, hca, hcb, blacken]
                  · have hb : Balanced (rplug
                        (node RBColor.red (node RBColor.black wa wak wba) wk2
                          (node RBColor.black wbb k x))
                        (⟨Dir.right, RBColor.black, wk, wl⟩ :: rest)) RBColor.black m :=
                      plugBal (RCtx.blackR hwl hrest)
                        (Balanced.red (Balanced.black hwa hba) (Balanced.black hbb hx))
                    rw [rb_blacken_of_black (rb_colorOf_balanced hb)]
                    exact ⟨m, hb⟩
                  · rw [rb_inorder_blacken, rb_inorder_rplug, rb_inorder_rplug]
                    simp [ctxL, ctxR, inorder]
              · -- wa black, wb black: Case 2 after Case 1 (loop exits on the red parent)
                have hca2 : ca = RBColor.black := by rw [← rb_colorOf_balanced hwa, hca]
                have hcb2 : cb = RBColor.black := by rw [← rb_colorOf_balanced hwb, hcb]
                subst hca2; subst hcb2
                refine ⟨rplug (node RBColor.black (node RBColor.red wa wak wb) k x)
                    (⟨Dir.right, RBColor.black, wk, wl⟩ :: rest), ?_, ?_, ?_⟩
                · rw [deleteFixup.eq_def]
                  simp [hcx, hca, hcb, blacken]
                · exact ⟨m, plugBal (RCtx.blackR hwl hrest)
                    (Balanced.black (Balanced.red hwa hwb) hx)⟩
                · rw [rb_inorder_rplug, rb_inorder_rplug]
                  simp [ctxL, ctxR, inorder]
          | black hwl hwr =>
            rename_i wl cl wr cr wk
            rcases hcl : colorOf wl with _ | _ <;> rcases hcr : colorOf wr with _ | _
            · -- wl red, wr red: Case 4
              have hcl2 : cl = RBColor.red := by rw [← rb_colorOf_balanced hwl, hcl]
              have hcr2 : cr = RBColor.red := by rw [← rb_colorOf_balanced hwr, hcr]
              subst hcl2; subst hcr2
              cases hwl with
              | red hla hlb =>
                rename_i la lb lk
                refine ⟨blacken (rplug
                    (node RBColor.black (node RBColor.black la lk lb) wk
                      (node RBColor.black wr k x)) rest), ?_, ?_, ?_⟩
                · rw [deleteFixup.eq_def]
                  simp [hcx, hcl, hcr, blacken]
                · have hb : Balanced (rplug
                      (node RBColor.black (node RBColor.black la lk lb) wk
                        (node RBColor.black wr k x)) rest) RBColor.black m :=
                    plugBal hrest
                      (Balanced.black (Balanced.black hla hlb) (Balanced.black hwr hx))
                  rw [rb_blacken_of_black (rb_colorOf_balanced hb)]
                  exact ⟨m, hb⟩
                · rw [rb_inorder_blacken, rb_inorder_rplug, rb_inorder_rplug]
                  simp [ctxL, ctxR, inorder]
            · -- wl red, wr black: Case 4
              have hcl2 : cl = RBColor.red := by rw [← rb_colorOf_balanced hwl, hcl]
              have hcr2 : cr = RBColor.black := by rw [← rb_colorOf_balanced hwr, hcr]
              subst hcl2; subst hcr2
              cases hwl with
              | red hla hlb =>
                rename_i la lb lk
                refine ⟨blacken (rplug
                    (node RBColor.black (node RBColor.black la lk lb) wk
                      (node RBColor.black wr k x)) rest), ?_, ?_, ?_⟩
                · rw [deleteFixup.eq_def]
                  simp [hcx, hcl, hcr, blacken]
                · have hb : Balanced (rplug
                      (node RBColor.black (node RBColor.black la lk lb) wk
                        (node RBColor.black wr k x)) rest) RBColor.black m :=
                    plugBal hrest
                      (Balanced.black (Balanced.black hla hlb) (Balanced.black hwr hx))
                  rw [rb_blacken_of_black (rb_colorOf_balanced hb)]
                  exact ⟨m, hb⟩
                · rw [rb_inorder_blacken, rb_inorder_rplug, rb_inorder_rplug]
                  simp [ctxL, ctxR, inorder]
            · -- wl black, wr red: Case 3
              have hcl2 : cl = RBColor.black := by rw [← rb_colorOf_balanced hwl, hcl]
              have hcr2 : cr = RBColor.red := by rw [← rb_colorOf_balanced hwr, hcr]
              subst hcl2; subst hcr2
              cases hwr with
              | red hwa hwb =>
                rename_i wa wb wak
                refine ⟨blacken (rplug
                    (node RBColor.black (node RBColor.black wl wk wa) wak
                      (node RBColor.black wb k x)) rest), ?_, ?_, ?_⟩
                · rw [deleteFixup.eq_def]
                  simp [hcx, hcl, hcr, blacken]
                · have hb : Balanced (rplug
                      (node RBColor.black (node RBColor.black wl wk wa) wak
                        (node RBColor.black wb k x)) rest) RBColor.black m :=
                    plugBal hrest
                      (Balanced.black (Balanced.black hwl hwa) (Balanced.black hwb hx))
                  rw [rb_blacken_of_black (rb_colorOf_balanced hb)]
                  exact ⟨m, hb⟩
                · rw [rb_inorder_blacken, rb_inorder_rplug, rb_inorder_rplug]
                  simp [ctxL, ctxR, inorder]
            · -- wl black, wr black: Case 2, the deficit moves up
              have hcl2 : cl = RBColor.black := by rw [← rb_colorOf_balanced hwl, hcl]
              have hcr2 : cr = RBColor.black := by rw [← rb_colorOf_balanced hwr, hcr]
              subst hcl2; subst hcr2
              obtain ⟨r, hr1, hr2, hr3⟩ := ih rest
                (node RBColor.black (node RBColor.red wl wk wr) k x) RBColor.black (n + 1) m
                (by simp at hlen; omega) (Balanced.black (Balanced.red hwl hwr) hx) hrest
              refine ⟨r, ?_, hr2, ?_⟩
              · rw [deleteFixup.eq_def]
                simp only [hcx, hcl, hcr]
                simpa using hr1
              · rw [hr3, rb_inorder_rplug, rb_inorder_rplug]
                simp [ctxL, ctxR, inorder]
        | redR hw hrest =>
          rename_i w k
          cases hw with
          | black hwl hwr =>
            rename_i wl cl wr cr wk
            rcases hcl : colorOf wl with _ | _ <;> rcases hcr : colorOf wr with _ | _
            · -- wl red, wr red: Case 4 under a red parent
              have hcl2 : cl = RBColor.red := by rw [← rb_colorOf_balanced hwl, hcl]
              have hcr2 : cr = RBColor.red := by rw [← rb_colorOf_balanced hwr, hcr]
              subst hcl2; subst hcr2
              cases hwl with
              | red hla hlb =>
                rename_i la lb lk
                refine ⟨blacken (rplug
                    (node RBColor.red (node RBColor.black la lk lb) wk
                      (node RBColor.black wr k x)) rest), ?_, ?_, ?_⟩
                · rw [deleteFixup.eq_def]
                  simp [hcx, hcl, hcr, blacken]
                · have hb : Balanced (rplug
                      (node RBColor.red (node RBColor.black la lk lb) wk
                        (node RBColor.black wr k x)) rest) RBColor.black m :=
                    plugBal hrest
                      (Balanced.red (Balanced.black hla hlb) (Balanced.black hwr hx))
                  rw [rb_blacken_of_black (rb_colorOf_balanced hb)]
                  exact ⟨m, hb⟩
                · rw [rb_inorder_blacken, rb_inorder_rplug, rb_inorder_rplug]
                  simp [ctxL, ctxR, inorder]
            · -- wl red, wr black: Case 4 under a red parent
              have hcl2 : cl = RBColor.red := by rw [← rb_colorOf_balanced hwl, hcl]
              have hcr2 : cr = RBColor.black := by rw [← rb_colorOf_balanced hwr, hcr]
              subst hcl2; subst hcr2
              cases hwl with
              | red hla hlb =>
                rename_i la lb lk
                refine ⟨blacken (rplug
                    (node RBColor.red (node RBColor.black la lk lb) wk
                      (node RBColor.black wr k x)) rest), ?_, ?_, ?_⟩
                · rw [deleteFixup.eq_def]
                  simp [hcx, hcl, hcr, blacken]
                · have hb : Balanced (rplug
                      (node RBColor.red (node RBColor.black la lk lb) wk
                        (node RBColor.black wr k x)) rest) RBColor.black m :=
                    plugBal hrest
                      (Balanced.red (Balanced.black hla hlb) (Balanced.black hwr hx))
                  rw [rb_blacken_of_black (rb_colorOf_balanced hb)]
                  exact ⟨m, hb⟩
                · rw [rb_inorder_blacken, rb_inorder_rplug, rb_inorder_rplug]
                  simp [ctxL, ctxR, inorder]
            · -- wl black, wr red: Case 3 under a red parent
              have hcl2 : cl = RBColor.black := by rw [← rb_colorOf_balanced hwl, hcl]
              have hcr2 : cr = RBColor.red := by rw [← rb_colorOf_balanced hwr, hcr]
              subst hcl2; subst hcr2
              cases hwr with
              | red hwa hwb =>
                rename_i wa wb wak
                refine ⟨blacken (rplug
                    (node RBColor.red (node RBColor.black wl wk wa) wak
                      (node RBColor.black wb k x)) rest), ?_, ?_, ?_⟩
                · rw [deleteFixup.eq_def]
                  simp [hcx, hcl, hcr, blacken]
                · have hb : Balanced (rplug
                      (node RBColor.red (node RBColor.black wl wk wa) wak
                        (node RBColor.black wb k x)) rest) RBColor.black m :=
                    plugBal hrest
                      (Balanced.red (Balanced.black hwl hwa) (Balanced.black hwb hx))
                  rw [rb_blacken_of_black (rb_colorOf_balanced hb)]
                  exact ⟨m, hb⟩
                · rw [rb_inorder_blacken, rb_inorder_rplug, rb_inorder_rplug]
                  simp [ctxL, ctxR, inorder]
            · -- wl black, wr black: Case 2, the red parent absorbs the deficit
              have hcl2 : cl = RBColor.black := by rw [← rb_colorOf_balanced hwl, hcl]
              have hcr2 : cr = RBColor.black := by rw [← rb_colorOf_balanced hwr, hcr]
              subst hcl2; subst hcr2
              rcases rest with _ | ⟨g, rest1⟩
              · cases hrest
              · have hb : Balanced (rplug
                    (node RBColor.black (node RBColor.red wl wk wr) k x) (g :: rest1))
                    RBColor.black m :=
                  plugBal (RCtx_retype hrest)
                    (Balanced.black (Balanced.red hwl hwr) hx)
                refine ⟨rplug (node RBColor.black (node RBColor.red wl wk wr) k x) (g :: rest1),
                  ?_, ⟨m, hb⟩, ?_⟩
                · have heq1 : deleteFixup x (⟨Dir.right, RBColor.red, k,
                      node RBColor.black wl wk wr⟩ :: g :: rest1) =
                      deleteFixup (node RBColor.red (node RBColor.red wl wk wr) k x)
                        (g :: rest1) := by
                    rw [deleteFixup.eq_def]
                    simp [hcx, hcl, hcr]
                  rw [heq1, deleteFixup.eq_def]
                  rfl
                · rw [rb_inorder_rplug, rb_inorder_rplug]
                  simp [ctxL, ctxR, inorder]

theorem rb_delete_endgame {t : Tree} {key : Int}
    (hsort : (inorder t.root).Sorted (· < ·))
    (hsz : t.size = (inorder t.root).length) {r : RBT} {m' : Nat}
    (hb : Balanced r RBColor.black m') (hm : key ∈ inorder t.root)
    (hio : inorder r = (inorder t.root).erase key) :
    Inv ⟨r, t.size - 1⟩ ∧
    inorder (⟨r, t.size - 1⟩ : Tree).root = (inorder t.root).erase key ∧
    (⟨r, t.size - 1⟩ : Tree).size =
      (if key ∈ inorder t.root then t.size - 1 else t.size) := by
  have hlen : ((inorder t.root).erase key).length = (inorder t.root).length - 1 :=
    List.length_erase_of_mem hm
  have hpos : 0 < (inorder t.root).length := List.length_pos.mpr (List.ne_nil_of_mem hm)
  refine ⟨⟨⟨m', hb⟩, ?_, ?_⟩, hio, ?_⟩
  · rw [show inorder (⟨r, t.size - 1⟩ : Tree).root = inorder r from rfl, hio]
    exact sorted_erase hsort key
  · rw [show inorder (⟨r, t.size - 1⟩ : Tree).root = inorder r from rfl, hio,
      show (⟨r, t.size - 1⟩ : Tree).size = t.size - 1 from rfl, hsz, hlen]
    omega
  · rw [if_pos hm]

theorem rb_delete_spec {t : Tree} (h : Inv t) (key : Int) :
    ∃ t', t.delete key = some t' ∧ Inv t' ∧
      inorder t'.root = (inorder t.root).erase key ∧
      t'.size = (if key ∈ inorder t.root then t.size - 1 else t.size) := by
  obtain ⟨⟨n, hbal⟩, hsort, hsz⟩ := h
  obtain ⟨hf1, hf2⟩ := findDescend_spec t.root RBColor.black n [] key hbal hsort
  rcases hfd : findDescend t.root [] key with ⟨z, ctxz⟩
  rcases z with _ | ⟨zc, zl, zk, zr⟩
  · have hnm : key ∉ inorder t.root := hf1 (by rw [hfd])
    refine ⟨t, ?_, ⟨⟨n, hbal⟩, hsort, hsz⟩, ?_, ?_⟩
    · rw [Tree.delete, hfd]
    · rw [List.erase_of_not_mem hnm]
    · rw [if_neg hnm]
  · obtain ⟨hzk, ctx1, nz, hc1, hbz, hcz, hio⟩ := hf2 zc zl zk zr ctxz hfd
    rw [hzk] at hbz hio hfd
    simp only [List.append_nil] at hc1
    have hc1s : ctx1 = ctxz := hc1.symm
    subst hc1s
    have hm : key ∈ inorder t.root := by
      rw [← hio]
      simp [inorder]
    rcases zl with _ | ⟨a, b, c, d⟩
    · -- z has no left child: transplant the right child
      have hform : inorder t.root = ctxL ctx1 ++ key :: (inorder zr ++ ctxR ctx1) := by
        rw [← hio]
        simp [inorder]
      have hA : ∀ v ∈ ctxL ctx1, v < key := by
        have h2 := hform ▸ hsort
        exact (sorted_node_parts (by simpa using h2)).2.2.1
      have herase : (inorder t.root).erase key = ctxL ctx1 ++ inorder zr ++ ctxR ctx1 := by
        rw [hform, erase_middle_eq hA]
        simp
      cases hbz with
      | red h1 h2 =>
        cases h1
        -- z is red with sentinel left child: its right child is the sentinel too
        rcases hctx1 : ctx1 with _ | ⟨g, rest1⟩
        · rw [hctx1] at hcz
          cases hcz
        · rw [hctx1] at hcz hio herase hfd
          have hb : Balanced (rplug zr (g :: rest1)) RBColor.black n :=
            plugBal (RCtx_retype hcz) h2
          have he : t.delete key = some ⟨rplug zr (g :: rest1), t.size - 1⟩ := by
            rw [Tree.delete, hfd]
            rfl
          refine ⟨⟨rplug zr (g :: rest1), t.size - 1⟩, he, ?_⟩
          exact rb_delete_endgame hsort hsz hb hm
            (by rw [rb_inorder_rplug, herase])
      | black h1 h2 =>
        cases h1
        obtain ⟨r, hr1, ⟨m', hr2⟩, hr3⟩ := deleteFixup_spec ctx1.length ctx1 zr _ 0 n
          (le_refl _) h2 hcz
        have he : t.delete key = some ⟨r, t.size - 1⟩ := by
          rw [Tree.delete, hfd]
          dsimp only
          rw [hr1]
          rfl
        refine ⟨⟨r, t.size - 1⟩, he, ?_⟩
        exact rb_delete_endgame hsort hsz hr2 hm
          (by rw [hr3, rb_inorder_rplug, herase])
    · rcases zr with _ | ⟨e, ff, g, i⟩
      · -- z has a left child but no right child
        have hform : inorder t.root =
            (ctxL ctx1 ++ inorder (node a b c d)) ++ key :: ctxR ctx1 := by
          rw [← hio]
          simp [inorder]
        have hA : ∀ v ∈ ctxL ctx1 ++ inorder (node a b c d), v < key := by
          have h2 := hform ▸ hsort
          exact (sorted_node_parts h2).2.2.1
        have herase : (inorder t.root).erase key =
            ctxL ctx1 ++ inorder (node a b c d) ++ ctxR ctx1 := by
          rw [hform, erase_middle_eq hA]
        cases hbz with
        | red h1 h2 =>
          cases h2
          cases h1
        | black h1 h2 =>
          cases h2
          obtain ⟨r, hr1, ⟨m', hr2⟩, hr3⟩ := deleteFixup_spec ctx1.length ctx1
            (node a b c d) _ 0 n (le_refl _) h1 hcz
          have he : t.delete key = some ⟨r, t.size - 1⟩ := by
            rw [Tree.delete, hfd]
            dsimp only
            rw [hr1]
            rfl
          refine ⟨⟨r, t.size - 1⟩, he, ?_⟩
          refine rb_delete_endgame hsort hsz hr2 hm ?_
          rw [hr3, rb_inorder_rplug, herase]
      · -- z has two children: splice in the successor
        have hform : inorder t.root = (ctxL ctx1 ++ inorder (node a b c d)) ++
            key :: (inorder (node e ff g i) ++ ctxR ctx1) := by
          rw [← hio]
          simp [inorder]
        have hA : ∀ v ∈ ctxL ctx1 ++ inorder (node a b c d), v < key := by
          have h2 := hform ▸ hsort
          exact (sorted_node_parts h2).2.2.1
        have herase : (inorder t.root).erase key = ctxL ctx1 ++ inorder (node a b c d) ++
            (inorder (node e ff g i) ++ ctxR ctx1) := by
          rw [hform, erase_middle_eq hA]
        cases hbz with
        | red h1 h2 =>
          obtain ⟨yc, yk, yr, ctxm, ctxm1, ny, hmd, hm2, hby, hcy, hctxL, hioy⟩ :=
            minDescend_spec (node e ff g i) RBColor.black nz [] h2 (by simp)
          simp only [List.append_nil] at hm2
          subst hm2
          rcases yc with _ | _
          · -- the successor is red: detach it directly
            cases hby with
            | red hy1 hy2 =>
              cases hy1
              rcases hctxm : ctxm with _ | ⟨gm, restm⟩
              · rw [hctxm] at hcy
                cases hcy
              · rw [hctxm] at hcy hioy hctxL
                have hctot : RCtx RBColor.black 0
                    ((ctxm ++ [⟨Dir.right, RBColor.red, yk, node a b c d⟩]) ++ ctx1)
                    RBColor.black n := by
                  rw [hctxm]
                  exact RCtx_append (RCtx_append (RCtx_retype hcy)
                    (RCtx.redR h1 RCtx.nil)) hcz
                rw [← hctxm] at hcy hioy hctxL
                have hb : Balanced (rplug yr
                    ((ctxm ++ [⟨Dir.right, RBColor.red, yk, node a b c d⟩]) ++ ctx1))
                    RBColor.black n := plugBal hctot hy2
                have he : t.delete key = some ⟨rplug yr
                    (ctxm ++ ⟨Dir.right, RBColor.red, yk, node a b c d⟩ :: ctx1),
                    t.size - 1⟩ := by
                  rw [Tree.delete, hfd]
                  dsimp only
                  rw [hmd]
                  rfl
                rw [show ctxm ++ ⟨Dir.right, RBColor.red, yk, node a b c d⟩ :: ctx1 =
                  (ctxm ++ [⟨Dir.right, RBColor.red, yk, node a b c d⟩]) ++ ctx1 by simp] at he
                refine ⟨_, he, ?_⟩
                refine rb_delete_endgame hsort hsz hb hm ?_
                rw [rb_inorder_rplug, herase, ctxL_append, ctxL_append, ctxR_append,
                  ctxR_append, hctxL]
                have hioy2 : yk :: inorder yr ++ ctxR ctxm = inorder (node e ff g i) := by
                  simpa [inorder] using hioy
                rw [← hioy2]
                simp [ctxL, ctxR]
          · -- the successor is black: remove it and fix up the deficit
            cases hby with
            | black hy1 hy2 =>
              cases hy1
              have hctot : RCtx RBColor.black 1
                  ((ctxm ++ [⟨Dir.right, RBColor.red, yk, node a b c d⟩]) ++ ctx1)
                  RBColor.black n :=
                RCtx_append (RCtx_append hcy (RCtx.redR h1 RCtx.nil)) hcz
              obtain ⟨r, hr1, ⟨m', hr2⟩, hr3⟩ := deleteFixup_spec _
                ((ctxm ++ [⟨Dir.right, RBColor.red, yk, node a b c d⟩]) ++ ctx1) yr _ 0 n
                (le_refl _) hy2 hctot
              have he : t.delete key = some ⟨r, t.size - 1⟩ := by
                rw [Tree.delete, hfd]
                dsimp only
                rw [hmd]
                dsimp only
                rw [show ctxm ++ ⟨Dir.right, RBColor.red, yk, node a b c d⟩ :: ctx1 =
                  (ctxm ++ [⟨Dir.right, RBColor.red, yk, node a b c d⟩]) ++ ctx1 by simp,
                  hr1]
                rfl
              refine ⟨_, he, ?_⟩
              refine rb_delete_endgame hsort hsz hr2 hm ?_
              rw [hr3, rb_inorder_rplug, herase, ctxL_append, ctxL_append, ctxR_append,
                ctxR_append, hctxL]
              have hioy2 : yk :: inorder yr ++ ctxR ctxm = inorder (node e ff g i) := by
                simpa [inorder] using hioy
              rw [← hioy2]
              simp [ctxL, ctxR]
        | black h1 h2 =>
          rename_i c1 n0 c2
          obtain ⟨yc, yk, yr, ctxm, ctxm1, ny, hmd, hm2, hby, hcy, hctxL, hioy⟩ :=
            minDescend_spec (node e ff g i) c2 n0 [] h2 (by simp)
          simp only [List.append_nil] at hm2
          subst hm2
          rcases yc with _ | _
          · cases hby with
            | red hy1 hy2 =>
              cases hy1
              have hcy3 : RCtx RBColor.black 0
                  (ctxm ++ [⟨Dir.right, RBColor.black, yk, node a b c d⟩])
                  RBColor.black (n0 + 1) := by
                rcases hctxm : ctxm with _ | ⟨gm, restm⟩
                · rw [hctxm] at hcy
                  cases hcy
                  exact RCtx.blackR h1 RCtx.nil
                · rw [hctxm] at hcy
                  exact RCtx_append (RCtx_retype hcy) (RCtx.blackR h1 RCtx.nil)
              have hctot : RCtx RBColor.black 0
                  ((ctxm ++ [⟨Dir.right, RBColor.black, yk, node a b c d⟩]) ++ ctx1)
                  RBColor.black n :=
                RCtx_append hcy3 hcz
              have hb : Balanced (rplug yr
                  ((ctxm ++ [⟨Dir.right, RBColor.black, yk, node a b c d⟩]) ++ ctx1))
                  RBColor.black n := plugBal hctot hy2
              have he : t.delete key = some ⟨rplug yr
                  ((ctxm ++ [⟨Dir.right, RBColor.black, yk, node a b c d⟩]) ++ ctx1),
                  t.size - 1⟩ := by
                rw [Tree.delete, hfd]
                dsimp only
                rw [hmd]
                dsimp only
                rw [show ctxm ++ ⟨Dir.right, RBColor.black, yk, node a b c d⟩ :: ctx1 =
                  (ctxm ++ [⟨Dir.right, RBColor.black, yk, node a b c d⟩]) ++ ctx1 by simp]
                rfl
              refine ⟨_, he, ?_⟩
              refine rb_delete_endgame hsort hsz hb hm ?_
              rw [rb_inorder_rplug, herase, ctxL_append, ctxL_append, ctxR_append,
                ctxR_append, hctxL]
              have hioy2 : yk :: inorder yr ++ ctxR ctxm = inorder (node e ff g i) := by
                simpa [inorder] using hioy
              rw [← hioy2]
              simp [ctxL, ctxR]
          · cases hby with
            | black hy1 hy2 =>
              cases hy1
              have hctot : RCtx RBColor.black 1
                  ((ctxm ++ [⟨Dir.right, RBColor.black, yk, node a b c d⟩]) ++ ctx1)
                  RBColor.black n :=
                RCtx_append (RCtx_append hcy (RCtx.blackR h1 RCtx.nil)) hcz
              obtain ⟨r, hr1, ⟨m', hr2⟩, hr3⟩ := deleteFixup_spec _
                ((ctxm ++ [⟨Dir.right, RBColor.black, yk, node a b c d⟩]) ++ ctx1) yr _ 0 n
                (le_refl _) hy2 hctot
              have he : t.delete key = some ⟨r, t.size - 1⟩ := by
                rw [Tree.delete, hfd]
                dsimp only
                rw [hmd]
                dsimp only
                rw [show ctxm ++ ⟨Dir.right, RBColor.black, yk, node a b c d⟩ :: ctx1 =
                  (ctxm ++ [⟨Dir.right, RBColor.black, yk, node a b c d⟩]) ++ ctx1 by simp,
                  hr1]
                rfl
              refine ⟨_, he, ?_⟩
              refine rb_delete_endgame hsort hsz hr2 hm ?_
              rw [hr3, rb_inorder_rplug, herase, ctxL_append, ctxL_append, ctxR_append,
                ctxR_append, hctxL]
              have hioy2 : yk :: inorder yr ++ ctxR ctxm = inorder (node e ff g i) := by
                simpa [inorder] using hioy
              rw [← hioy2]
              simp [ctxL, ctxR]


theorem rb_search_spec {t : Tree} (h : Inv t) (key : Int) :
    (t.search key = true ↔ key ∈ inorder t.root) :=
  searchFrom_spec t.root key h.2.1

theorem rb_empty_Inv : Inv Tree.empty := ⟨⟨0, Balanced.nil⟩, List.sorted_nil, rfl⟩

theorem rb_step_spec {t : Tree} (h : Inv t) (op : Op) :
    ∃ t', step t op = some t' ∧ Inv t' := by
  cases op with
  | ins k =>
    obtain ⟨t', h1, h2, -, -⟩ := rb_insert_spec h k
    exact ⟨t', h1, h2⟩
  | del k =>
    obtain ⟨t', h1, h2, -, -⟩ := rb_delete_spec h k
    exact ⟨t', h1, h2⟩
  | find k => exact ⟨t, rfl, h⟩

theorem rb_foldl_Inv : ∀ (ops : List Op) (t0 : Tree), Inv t0 →
    ∀ t, ops.foldl (fun s op => s.bind fun u => step u op) (some t0) = some t → Inv t := by
  intro ops
  induction ops with
  | nil =>
    intro t0 h0 t ht
    simp at ht
    exact ht ▸ h0
  | cons op ops ih =>
    intro t0 h0 t ht
    obtain ⟨t1, h1, h2⟩ := rb_step_spec h0 op
    rw [List.foldl_cons, show (some t0).bind (fun u => step u op) = step t0 op from rfl,
      h1] at ht
    exact ih t1 h2 t ht

theorem rb_reachable_Inv {t : Tree} (h : Reachable t) : Inv t := by
  obtain ⟨ops, hops⟩ := h
  exact rb_foldl_Inv ops Tree.empty rb_empty_Inv t hops

end RB

/-! ## Round trips: inserting distinct keys, then deleting them all -/

theorem perm_insList {key : Int} : ∀ {l : List Int}, key ∉ l →
    (insList key l).Perm (key :: l) := by
  intro l
  induction l with
  | nil => intro _; simp [insList]
  | cons a as ih =>
    intro hm
    have hne : key ≠ a := fun h => hm (h ▸ List.mem_cons_self a as)
    by_cases h1 : key < a
    · simp [insList, h1]
    · have h2 : a < key := lt_of_le_of_ne (not_lt.mp h1) (fun h => hne h.symm)
      rw [show insList key (a :: as) = a :: insList key as by simp [insList, h1, h2]]
      exact (List.Perm.cons a (ih (fun h => hm (List.mem_cons_of_mem a h)))).trans
        (List.Perm.swap key a as)

namespace AVL

theorem avl_inorder_nil : ∀ {t : AVLT}, inorder t = [] → t = AVLT.leaf := by
  intro t h
  cases t with
  | leaf => rfl
  | node l k hh r => simp [inorder] at h

theorem avl_insert_phase : ∀ (ks : List Int) (t : Tree), Inv t → ks.Nodup →
    (∀ k ∈ ks, k ∉ inorder t.root) →
    Inv (ks.foldl Tree.insert t) ∧
    (inorder (ks.foldl Tree.insert t).root).Perm (inorder t.root ++ ks) ∧
    (ks.foldl Tree.insert t).size = t.size + ks.length := by
  intro ks
  induction ks with
  | nil =>
    intro t h _ _
    exact ⟨h, by simpa using List.Perm.refl (inorder t.root), by simp⟩
  | cons k ks ih =>
    intro t h hnd hfresh
    have hkf : k ∉ inorder t.root := hfresh k (by simp)
    obtain ⟨h1, h2, h3⟩ := insert_spec h k
    rw [List.foldl_cons]
    have hfresh2 : ∀ k2 ∈ ks, k2 ∉ inorder (t.insert k).root := by
      intro k2 hk2 hmem
      rw [h2] at hmem
      rcases (mem_insList k k2 _).mp hmem with he | hmem2
      · exact (List.nodup_cons.mp hnd).1 (he ▸ hk2)
      · exact hfresh k2 (by simp [hk2]) hmem2
    obtain ⟨g1, g2, g3⟩ := ih (t.insert k) h1 (List.nodup_cons.mp hnd).2 hfresh2
    refine ⟨g1, ?_, ?_⟩
    · refine g2.trans ?_
      rw [h2]
      exact (List.Perm.append_right ks (perm_insList hkf)).trans List.perm_middle.symm
    · rw [g3, h3, if_neg hkf]
      push_cast [List.length_cons]
      ring

theorem avl_delete_phase : ∀ (ds : List Int) (t : Tree), Inv t →
    ds.Perm (inorder t.root) →
    (ds.foldl Tree.delete t).root = AVLT.leaf ∧
    (ds.foldl Tree.delete t).size = t.size - ds.length := by
  intro ds
  induction ds with
  | nil =>
    intro t h hp
    have hnil : inorder t.root = [] := List.Perm.eq_nil hp.symm
    exact ⟨avl_inorder_nil hnil, by simp⟩
  | cons d ds ih =>
    intro t h hp
    obtain ⟨hmem, hperm2⟩ := List.cons_perm_iff_perm_erase.mp hp
    obtain ⟨h1, h2, h3⟩ := delete_spec h d
    rw [List.foldl_cons]
    obtain ⟨g1, g2⟩ := ih (t.delete d) h1 (by rw [h2]; exact hperm2)
    refine ⟨g1, ?_⟩
    rw [g2, h3]
    push_cast [List.length_cons]
    ring

theorem avl_roundtrip (ks ds : List Int) (hnd : ks.Nodup) (hperm : ds.Perm ks) :
    (ds.foldl Tree.delete (ks.foldl Tree.insert Tree.empty)).root = AVLT.leaf ∧
    (ds.foldl Tree.delete (ks.foldl Tree.insert Tree.empty)).size = 0 := by
  obtain ⟨h1, h2, h3⟩ := avl_insert_phase ks Tree.empty empty_Inv hnd
    (by intro k _; simp [Tree.empty, inorder])
  have hp2 : ds.Perm (inorder (ks.foldl Tree.insert Tree.empty).root) :=
    hperm.trans (by simpa [Tree.empty, inorder] using h2.symm)
  obtain ⟨g1, g2⟩ := avl_delete_phase ds _ h1 hp2
  refine ⟨g1, ?_⟩
  rw [g2, h3]
  have hlen := hperm.length_eq
  rw [show (Tree.empty).size = 0 from rfl, hlen]
  ring

end AVL

namespace Splay

theorem splay_inorder_nil : ∀ {t : ST}, inorder t = [] → t = ST.nil := by
  intro t h
  cases t with
  | nil => rfl
  | node l k r => simp [inorder] at h

theorem splay_insert_phase : ∀ (ks : List Int) (t : Tree), Inv t → ks.Nodup →
    (∀ k ∈ ks, k ∉ inorder t.root) →
    Inv (ks.foldl Tree.insert t) ∧
    (inorder (ks.foldl Tree.insert t).root).Perm (inorder t.root ++ ks) ∧
    (ks.foldl Tree.insert t).size = t.size + ks.length := by
  intro ks
  induction ks with
  | nil =>
    intro t h _ _
    exact ⟨h, by simpa using List.Perm.refl (inorder t.root), by simp⟩
  | cons k ks ih =>
    intro t h hnd hfresh
    have hkf : k ∉ inorder t.root := hfresh k (by simp)
    obtain ⟨h1, h2, h3⟩ := splay_insert_spec h k
    rw [List.foldl_cons]
    have hfresh2 : ∀ k2 ∈ ks, k2 ∉ inorder (t.insert k).root := by
      intro k2 hk2 hmem
      rw [h2] at hmem
      rcases (mem_insList k k2 _).mp hmem with he | hmem2
      · exact (List.nodup_cons.mp hnd).1 (he ▸ hk2)
      · exact hfresh k2 (by simp [hk2]) hmem2
    obtain ⟨g1, g2, g3⟩ := ih (t.insert k) h1 (List.nodup_cons.mp hnd).2 hfresh2
    refine ⟨g1, ?_, ?_⟩
    · refine g2.trans ?_
      rw [h2]
      exact (List.Perm.append_right ks (perm_insList hkf)).trans List.perm_middle.symm
    · rw [g3, h3, if_neg hkf]
      push_cast [List.length_cons]
      ring

theorem splay_delete_phase : ∀ (ds : List Int) (t : Tree), Inv t →
    ds.Perm (inorder t.root) →
    (ds.foldl Tree.delete t).root = ST.nil ∧
    (ds.foldl Tree.delete t).size = t.size - ds.length := by
  intro ds
  induction ds with
  | nil =>
    intro t h hp
    have hnil : inorder t.root = [] := List.Perm.eq_nil hp.symm
    exact ⟨splay_inorder_nil hnil, by simp⟩
  | cons d ds ih =>
    intro t h hp
    obtain ⟨hmem, hperm2⟩ := List.cons_perm_iff_perm_erase.mp hp
    obtain ⟨h1, h2, h3⟩ := splay_delete_spec h d
    rw [List.foldl_cons]
    obtain ⟨g1, g2⟩ := ih (t.delete d) h1 (by rw [h2]; exact hperm2)
    refine ⟨g1, ?_⟩
    rw [g2, h3, if_pos hmem]
    push_cast [List.length_cons]
    ring

theorem splay_roundtrip (ks ds : List Int) (hnd : ks.Nodup) (hperm : ds.Perm ks) :
    (ds.foldl Tree.delete (ks.foldl Tree.insert Tree.empty)).root = ST.nil ∧
    (ds.foldl Tree.delete (ks.foldl Tree.insert Tree.empty)).size = 0 := by
  obtain ⟨h1, h2, h3⟩ := splay_insert_phase ks Tree.empty splay_empty_Inv hnd
    (by intro k _; simp [Tree.empty, inorder])
  have hp2 : ds.Perm (inorder (ks.foldl Tree.insert Tree.empty).root) :=
    hperm.trans (by simpa [Tree.empty, inorder] using h2.symm)
  obtain ⟨g1, g2⟩ := splay_delete_phase ds _ h1 hp2
  refine ⟨g1, ?_⟩
  rw [g2, h3]
  have hlen := hperm.length_eq
  rw [show (Tree.empty).size = 0 from rfl, hlen]
  ring

end Splay

namespace RB
open RBT

theorem rb_inorder_nil : ∀ {t : RBT}, inorder t = [] → t = RBT.nil := by
  intro t h
  cases t with
  | nil => rfl
  | node c l k r => simp [inorder] at h

theorem rb_insert_phase : ∀ (ks : List Int) (t : Tree), Inv t → ks.Nodup →
    (∀ k ∈ ks, k ∉ inorder t.root) →
    ∃ t1, ks.foldl (fun s k => s.bind fun u => Tree.insert u k) (some t) = some t1 ∧
      Inv t1 ∧ (inorder t1.root).Perm (inorder t.root ++ ks) ∧
      t1.size = t.size + ks.length := by
  intro ks
  induction ks with
  | nil =>
    intro t h _ _
    exact ⟨t, by simp, h, by simpa using List.Perm.refl (inorder t.root), by simp⟩
  | cons k ks ih =>
    intro t h hnd hfresh
    have hkf : k ∉ inorder t.root := hfresh k (by simp)
    obtain ⟨t2, h0, h1, h2, h3⟩ := rb_insert_spec h k
    have hfresh2 : ∀ k2 ∈ ks, k2 ∉ inorder t2.root := by
      intro k2 hk2 hmem
      rw [h2] at hmem
      rcases (mem_insList k k2 _).mp hmem with he | hmem2
      · exact (List.nodup_cons.mp hnd).1 (he ▸ hk2)
      · exact hfresh k2 (by simp [hk2]) hmem2
    obtain ⟨t1, g0, g1, g2, g3⟩ := ih t2 h1 (List.nodup_cons.mp hnd).2 hfresh2
    refine ⟨t1, ?_, g1, ?_, ?_⟩
    · rw [List.foldl_cons, show (some t).bind (fun u => Tree.insert u k) =
        Tree.insert t k from rfl, h0]
      exact g0
    · refine g2.trans ?_
      rw [h2]
      exact (List.Perm.append_right ks (perm_insList hkf)).trans List.perm_middle.symm
    · rw [g3, h3, if_neg hkf]
      push_cast [List.length_cons]
      ring

theorem rb_delete_phase : ∀ (ds : List Int) (t : Tree), Inv t →
    ds.Perm (inorder t.root) →
    ∃ t1, ds.foldl (fun s k => s.bind fun u => Tree.delete u k) (some t) = some t1 ∧
      t1.root = RBT.nil ∧ t1.size = t.size - ds.length := by
  intro ds
  induction ds with
  | nil =>
    intro t h hp
    have hnil : inorder t.root = [] := List.Perm.eq_nil hp.symm
    exact ⟨t, by simp, rb_inorder_nil hnil, by simp⟩
  | cons d ds ih =>
    intro t h hp
    obtain ⟨hmem, hperm2⟩ := List.cons_perm_iff_perm_erase.mp hp
    obtain ⟨t2, h0, h1, h2, h3⟩ := rb_delete_spec h d
    obtain ⟨t1, g0, g1, g2⟩ := ih t2 h1 (by rw [h2]; exact hperm2)
    refine ⟨t1, ?_, g1, ?_⟩
    · rw [List.foldl_cons, show (some t).bind (fun u => Tree.delete u d) =
        Tree.delete t d from rfl, h0]
      exact g0
    · rw [g2, h3, if_pos hmem]
      push_cast [List.length_cons]
      ring

theorem rb_roundtrip (ks ds : List Int) (hnd : ks.Nodup) (hperm : ds.Perm ks) :
    ds.foldl (fun s k => s.bind fun u => Tree.delete u k)
      (ks.foldl (fun s k => s.bind fun u => Tree.insert u k) (some Tree.empty)) =
      some Tree.empty := by
  obtain ⟨t1, h0, h1, h2, h3⟩ := rb_insert_phase ks Tree.empty rb_empty_Inv hnd
    (by intro k _; simp [Tree.empty, inorder])
  have hp2 : ds.Perm (inorder t1.root) :=
    hperm.trans (by simpa [Tree.empty, inorder] using h2.symm)
  obtain ⟨t2, g0, g1, g2⟩ := rb_delete_phase ds t1 h1 hp2
  rw [h0, g0]
  have hsz : t2.size = 0 := by
    rw [g2, h3]
    have hlen := hperm.length_eq
    rw [show (Tree.empty).size = 0 from rfl, hlen]
    ring
  obtain ⟨rt, sz⟩ := t2
  simp only at g1 hsz
  rw [g1, hsz]
  rfl

end RB

namespace RB
open RBT

theorem rb_runOps_ins5 :
    runOps [Op.ins 5] = some ⟨node RBColor.black nil 5 nil, 1⟩ := by
  rw [show runOps [Op.ins 5] =
    (insertFixup (node RBColor.red nil 5 nil) []).map
      (fun r => ⟨r, Tree.empty.size + 1⟩) from rfl, insertFixup.eq_def]
  rfl

theorem rb_reach5 : Reachable ⟨node RBColor.black nil 5 nil, 1⟩ :=
  ⟨[Op.ins 5], rb_runOps_ins5⟩

end RB

/-! ## The claims -/

/-- Claim C1: for every engine, after any sequence of operations from the
empty tree, `size()` equals the number of distinct stored keys, and duplicate
inserts and absent-key deletes leave it unchanged.  REFUTED for `AVLTree`:
`AVLTree.delete` decrements the counter unconditionally, so after inserting 1
and deleting the absent key 2 the tree still holds one key while `size()` is
0. -/
theorem claim_C1 : ∃ ops : List Op,
    (AVL.runOps ops).size ≠ ((AVL.inorder (AVL.runOps ops).root).length : Int) :=
  ⟨[Op.ins 1, Op.del 2], by decide⟩

/-- Claim C2: `AVLTree.delete` decrements the size counter on every call,
also when the key is absent from a reachable state, while `RedBlackTree` and
`SplayTree` decrement it exactly when a key is removed. -/
theorem claim_C2 :
    (∀ (t : AVL.Tree) (key : Int), (t.delete key).size = t.size - 1) ∧
    (∃ t : AVL.Tree, AVL.Reachable t ∧ ∃ key : Int, key ∉ AVL.inorder t.root ∧
      (t.delete key).size = t.size - 1) ∧
    (∀ t : Splay.Tree, Splay.Reachable t → ∀ key : Int,
      (t.delete key).size =
        (if key ∈ Splay.inorder t.root then t.size - 1 else t.size)) ∧
    (∀ t : RB.Tree, RB.Reachable t → ∀ key : Int, ∃ t2, t.delete key = some t2 ∧
      t2.size = (if key ∈ RB.inorder t.root then t.size - 1 else t.size)) := by
  refine ⟨fun t key => rfl, ⟨AVL.runOps [Op.ins 1], ⟨[Op.ins 1], rfl⟩, 2, by decide, rfl⟩,
    fun t ht key => ?_, fun t ht key => ?_⟩
  · exact (Splay.splay_delete_spec (Splay.splay_reachable_Inv ht) key).2.2
  · obtain ⟨t2, h1, -, -, h4⟩ := RB.rb_delete_spec (RB.rb_reachable_Inv ht) key
    exact ⟨t2, h1, h4⟩

/-- Claim C2, witnessed: the reachable one-key AVL tree loses a size unit on
deleting the absent key 2; the reachable one-key splay and red-black trees
keep their size on deleting the absent key 3. -/
theorem claim_C2_witness :
    ((AVL.runOps [Op.ins 1]).delete 2).size = (AVL.runOps [Op.ins 1]).size - 1 ∧
    ((Splay.runOps [Op.ins 5]).delete 3).size =
      (if 3 ∈ Splay.inorder (Splay.runOps [Op.ins 5]).root
       then (Splay.runOps [Op.ins 5]).size - 1 else (Splay.runOps [Op.ins 5]).size) ∧
    (∃ t2, (⟨RB.RBT.node RB.RBColor.black RB.RBT.nil 5 RB.RBT.nil, 1⟩ : RB.Tree).delete 3 =
        some t2 ∧
      t2.size = (if 3 ∈ RB.inorder (⟨RB.RBT.node RB.RBColor.black RB.RBT.nil 5 RB.RBT.nil,
        (1 : Int)⟩ : RB.Tree).root
       then (1 : Int) - 1 else 1)) :=
  ⟨claim_C2.1 (AVL.runOps [Op.ins 1]) 2,
   claim_C2.2.2.1 (Splay.runOps [Op.ins 5]) ⟨[Op.ins 5], rfl⟩ 3,
   claim_C2.2.2.2 ⟨RB.RBT.node RB.RBColor.black RB.RBT.nil 5 RB.RBT.nil, 1⟩
     RB.rb_reach5 3⟩

/-- Claim C3: for every engine and every reachable state, the in-order
traversal lists the stored keys in strictly ascending order (hence each at
most once). -/
theorem claim_C3 :
    (∀ t : AVL.Tree, AVL.Reachable t → (AVL.inorder t.root).Sorted (· < ·)) ∧
    (∀ t : Splay.Tree, Splay.Reachable t → (Splay.inorder t.root).Sorted (· < ·)) ∧
    (∀ t : RB.Tree, RB.Reachable t → (RB.inorder t.root).Sorted (· < ·)) :=
  ⟨fun _ ht => (AVL.reachable_Inv ht).2.2,
   fun _ ht => (Splay.splay_reachable_Inv ht).1,
   fun _ ht => (RB.rb_reachable_Inv ht).2.1⟩

/-- Claim C3, witnessed on reachable two-key states of each engine. -/
theorem claim_C3_witness :
    (AVL.inorder (AVL.runOps [Op.ins 2, Op.ins 1]).root).Sorted (· < ·) ∧
    (Splay.inorder (Splay.runOps [Op.ins 2, Op.ins 1]).root).Sorted (· < ·) ∧
    (RB.inorder (⟨RB.RBT.node RB.RBColor.black RB.RBT.nil 5 RB.RBT.nil,
        1⟩ : RB.Tree).root).Sorted (· < ·) :=
  ⟨claim_C3.1 (AVL.runOps [Op.ins 2, Op.ins 1]) ⟨[Op.ins 2, Op.ins 1], rfl⟩,
   claim_C3.2.1 (Splay.runOps [Op.ins 2, Op.ins 1]) ⟨[Op.ins 2, Op.ins 1], rfl⟩,
   claim_C3.2.2 ⟨RB.RBT.node RB.RBColor.black RB.RBT.nil 5 RB.RBT.nil, 1⟩ RB.rb_reach5⟩

/-- Claim C4: from any reachable AVL state, after every insert and every
delete all stored height fields equal `1 + max` of the children's stored
heights (0 for an absent child) and every node's stored heights differ by at
most one between its children. -/
theorem claim_C4 : ∀ t : AVL.Tree, AVL.Reachable t → ∀ key : Int,
    (AVL.HeightFieldsOK (t.insert key).root ∧ AVL.BalancedStored (t.insert key).root) ∧
    (AVL.HeightFieldsOK (t.delete key).root ∧ AVL.BalancedStored (t.delete key).root) := by
  intro t ht key
  have h := AVL.reachable_Inv ht
  obtain ⟨i1, i2, -⟩ := (AVL.insert_spec h key).1
  obtain ⟨d1, d2, -⟩ := (AVL.delete_spec h key).1
  exact ⟨⟨AVL.hOK_fields i1, AVL.balT_fields i1 i2⟩,
    ⟨AVL.hOK_fields d1, AVL.balT_fields d1 d2⟩⟩

/-- Claim C4, witnessed: inserting 3 into and deleting 1 from a reachable
two-key AVL tree. -/
theorem claim_C4_witness :
    (AVL.HeightFieldsOK ((AVL.runOps [Op.ins 2, Op.ins 1]).insert 3).root ∧
      AVL.BalancedStored ((AVL.runOps [Op.ins 2, Op.ins 1]).insert 3).root) ∧
    (AVL.HeightFieldsOK ((AVL.runOps [Op.ins 2, Op.ins 1]).delete 3).root ∧
      AVL.BalancedStored ((AVL.runOps [Op.ins 2, Op.ins 1]).delete 3).root) :=
  claim_C4 (AVL.runOps [Op.ins 2, Op.ins 1]) ⟨[Op.ins 2, Op.ins 1], rfl⟩ 3

/-- Claim C5: from any reachable red-black state, every insert and every
delete returns (without crashing) a tree whose root is BLACK, in which no RED
node has a RED child and every root-to-sentinel path carries the same number
of BLACK nodes; the sentinel itself is BLACK. -/
theorem claim_C5 :
    RB.colorOf RB.RBT.nil = RB.RBColor.black ∧
    ∀ t : RB.Tree, RB.Reachable t → ∀ key : Int,
      (∃ t2, t.insert key = some t2 ∧ RB.colorOf t2.root = RB.RBColor.black ∧
        RB.NoRedRed t2.root ∧ ∃ nb, RB.EqBH t2.root nb) ∧
      (∃ t2, t.delete key = some t2 ∧ RB.colorOf t2.root = RB.RBColor.black ∧
        RB.NoRedRed t2.root ∧ ∃ nb, RB.EqBH t2.root nb) := by
  refine ⟨rfl, fun t ht key => ?_⟩
  have h := RB.rb_reachable_Inv ht
  obtain ⟨t2, h1, ⟨⟨n2, hb2⟩, -, -⟩, -, -⟩ := RB.rb_insert_spec h key
  obtain ⟨t3, g1, ⟨⟨n3, hb3⟩, -, -⟩, -, -⟩ := RB.rb_delete_spec h key
  exact ⟨⟨t2, h1, RB.rb_colorOf_balanced hb2, RB.rb_balanced_noRedRed hb2,
      n2, RB.rb_balanced_eqBH hb2⟩,
    ⟨t3, g1, RB.rb_colorOf_balanced hb3, RB.rb_balanced_noRedRed hb3,
      n3, RB.rb_balanced_eqBH hb3⟩⟩

/-- Claim C5, witnessed on a reachable one-key red-black tree with key 5,
inserting and deleting 3. -/
theorem claim_C5_witness :
    (∃ t2, (⟨RB.RBT.node RB.RBColor.black RB.RBT.nil 5 RB.RBT.nil, 1⟩ : RB.Tree).insert 3 =
        some t2 ∧ RB.colorOf t2.root = RB.RBColor.black ∧
      RB.NoRedRed t2.root ∧ ∃ nb, RB.EqBH t2.root nb) ∧
    (∃ t2, (⟨RB.RBT.node RB.RBColor.black RB.RBT.nil 5 RB.RBT.nil, 1⟩ : RB.Tree).delete 3 =
        some t2 ∧ RB.colorOf t2.root = RB.RBColor.black ∧
      RB.NoRedRed t2.root ∧ ∃ nb, RB.EqBH t2.root nb) :=
  claim_C5.2 ⟨RB.RBT.node RB.RBColor.black RB.RBT.nil 5 RB.RBT.nil, 1⟩
    RB.rb_reach5 3

/-- Claim C6: in any reachable splay state, searching a present key `k`
leaves `k` at the root, and searching an absent key in a non-empty tree
leaves at the root the last node visited on the BST search path for `k`. -/
theorem claim_C6 : ∀ t : Splay.Tree, Splay.Reachable t → ∀ key : Int,
    (key ∈ Splay.inorder t.root →
      Splay.rootKey (t.search key).2.root = some key) ∧
    (t.root ≠ Splay.ST.nil →
      Splay.rootKey (t.search key).2.root = Splay.searchPathLast t.root key) := by
  intro t ht key
  obtain ⟨-, -, -, s4, s5, s6⟩ := Splay.splay_search_spec (Splay.splay_reachable_Inv ht) key
  exact ⟨fun hm => s5 (s4.mpr hm), s6⟩

/-- Claim C6, witnessed: searching the present key 1 and (via the same
theorem) the search-path property on a reachable two-key splay tree. -/
theorem claim_C6_witness :
    (1 ∈ Splay.inorder (Splay.runOps [Op.ins 2, Op.ins 1]).root →
      Splay.rootKey ((Splay.runOps [Op.ins 2, Op.ins 1]).search 1).2.root = some 1) ∧
    ((Splay.runOps [Op.ins 2, Op.ins 1]).root ≠ Splay.ST.nil →
      Splay.rootKey ((Splay.runOps [Op.ins 2, Op.ins 1]).search 1).2.root =
        Splay.searchPathLast (Splay.runOps [Op.ins 2, Op.ins 1]).root 1) :=
  claim_C6 (Splay.runOps [Op.ins 2, Op.ins 1]) ⟨[Op.ins 2, Op.ins 1], rfl⟩ 1

/-- Claim C7: in every reachable state of every engine, `search(key)` is true
exactly when the key is stored; AVL and red-black search leave the state
unchanged, and splay search may restructure but preserves the key list and
the size. -/
theorem claim_C7 :
    (∀ t : AVL.Tree, AVL.Reachable t → ∀ key : Int,
      (t.search key = true ↔ key ∈ AVL.inorder t.root) ∧
      AVL.step t (Op.find key) = t) ∧
    (∀ t : RB.Tree, RB.Reachable t → ∀ key : Int,
      (t.search key = true ↔ key ∈ RB.inorder t.root) ∧
      RB.step t (Op.find key) = some t) ∧
    (∀ t : Splay.Tree, Splay.Reachable t → ∀ key : Int,
      ((t.search key).1 = true ↔ key ∈ Splay.inorder t.root) ∧
      Splay.inorder (t.search key).2.root = Splay.inorder t.root ∧
      (t.search key).2.size = t.size) := by
  refine ⟨fun t ht key => ⟨AVL.search_spec (AVL.reachable_Inv ht) key, rfl⟩,
    fun t ht key => ⟨RB.rb_search_spec (RB.rb_reachable_Inv ht) key, rfl⟩,
    fun t ht key => ?_⟩
  obtain ⟨-, s2, s3, s4, -, -⟩ := Splay.splay_search_spec (Splay.splay_reachable_Inv ht) key
  exact ⟨s4, s2, s3⟩

/-- Claim C7, witnessed with key 1 on reachable two-key states. -/
theorem claim_C7_witness :
    (((AVL.runOps [Op.ins 2, Op.ins 1]).search 1 = true ↔
        1 ∈ AVL.inorder (AVL.runOps [Op.ins 2, Op.ins 1]).root) ∧
      AVL.step (AVL.runOps [Op.ins 2, Op.ins 1]) (Op.find 1) =
        AVL.runOps [Op.ins 2, Op.ins 1]) ∧
    (((⟨RB.RBT.node RB.RBColor.black RB.RBT.nil 5 RB.RBT.nil, 1⟩ : RB.Tree).search 5 = true ↔
        5 ∈ RB.inorder (⟨RB.RBT.node RB.RBColor.black RB.RBT.nil 5 RB.RBT.nil,
          (1 : Int)⟩ : RB.Tree).root)) ∧
    (((Splay.runOps [Op.ins 2, Op.ins 1]).search 1).1 = true ↔
        1 ∈ Splay.inorder (Splay.runOps [Op.ins 2, Op.ins 1]).root) :=
  ⟨claim_C7.1 (AVL.runOps [Op.ins 2, Op.ins 1]) ⟨[Op.ins 2, Op.ins 1], rfl⟩ 1,
   (claim_C7.2.1 ⟨RB.RBT.node RB.RBColor.black RB.RBT.nil 5 RB.RBT.nil, 1⟩
     RB.rb_reach5 5).1,
   (claim_C7.2.2 (Splay.runOps [Op.ins 2, Op.ins 1]) ⟨[Op.ins 2, Op.ins 1], rfl⟩ 1).1⟩

/-- Claim C8: deleting a present key from a reachable splay state whose node,
splayed to the root by the search, has two non-empty subtrees, makes the
maximum of the old left subtree (the in-order predecessor) the new root and
reattaches the old right subtree unchanged as its right child. -/
theorem claim_C8 : ∀ t : Splay.Tree, Splay.Reachable t → ∀ key : Int,
    ∀ (a c d f : Splay.ST) (b e : Int),
    (t.search key).2.root = Splay.ST.node (Splay.ST.node a b c) key (Splay.ST.node d e f) →
    ∃ S m, (t.delete key).root = Splay.ST.node S m (Splay.ST.node d e f) ∧
      m ∈ Splay.inorder (Splay.ST.node a b c) ∧
      (∀ x ∈ Splay.inorder (Splay.ST.node a b c), x ≤ m) ∧
      Splay.inorder S ++ [m] = Splay.inorder (Splay.ST.node a b c) := by
  intro t ht key a c d f b e hroot
  obtain ⟨S, m, h1, h2, h3⟩ :=
    Splay.splay_delete_join (Splay.splay_reachable_Inv ht) hroot
  exact ⟨S, m, h1, by rw [← h2]; simp, h3, h2⟩

/-- Claim C8, witnessed: deleting 2 from the reachable splay tree built by
inserting 2, 1, 3, whose search for 2 leaves children 1 and 3 at the root. -/
theorem claim_C8_witness :
    ∃ S m, ((Splay.runOps [Op.ins 2, Op.ins 1, Op.ins 3]).delete 2).root =
      Splay.ST.node S m (Splay.ST.node Splay.ST.nil 3 Splay.ST.nil) ∧
      m ∈ Splay.inorder (Splay.ST.node Splay.ST.nil 1 Splay.ST.nil) ∧
      (∀ x ∈ Splay.inorder (Splay.ST.node Splay.ST.nil 1 Splay.ST.nil), x ≤ m) ∧
      Splay.inorder S ++ [m] = Splay.inorder (Splay.ST.node Splay.ST.nil 1 Splay.ST.nil) :=
  claim_C8 (Splay.runOps [Op.ins 2, Op.ins 1, Op.ins 3])
    ⟨[Op.ins 2, Op.ins 1, Op.ins 3], rfl⟩ 2
    Splay.ST.nil Splay.ST.nil Splay.ST.nil Splay.ST.nil 1 3 (by decide)

/-- Claim C9: for every engine, inserting a duplicate-free list of keys into
the empty tree and then deleting all of them, in any order, returns the empty
tree with `size() = 0`. -/
theorem claim_C9 : ∀ ks ds : List Int, ks.Nodup → ds.Perm ks →
    ((ds.foldl AVL.Tree.delete (ks.foldl AVL.Tree.insert AVL.Tree.empty)).root =
        AVL.AVLT.leaf ∧
      (ds.foldl AVL.Tree.delete (ks.foldl AVL.Tree.insert AVL.Tree.empty)).size = 0) ∧
    ((ds.foldl Splay.Tree.delete (ks.foldl Splay.Tree.insert Splay.Tree.empty)).root =
        Splay.ST.nil ∧
      (ds.foldl Splay.Tree.delete (ks.foldl Splay.Tree.insert Splay.Tree.empty)).size = 0) ∧
    ds.foldl (fun s k => s.bind fun u => RB.Tree.delete u k)
      (ks.foldl (fun s k => s.bind fun u => RB.Tree.insert u k) (some RB.Tree.empty)) =
      some RB.Tree.empty :=
  fun ks ds hnd hperm =>
    ⟨AVL.avl_roundtrip ks ds hnd hperm, Splay.splay_roundtrip ks ds hnd hperm,
     RB.rb_roundtrip ks ds hnd hperm⟩

/-- Claim C9, witnessed: inserting 1, 2 and deleting 2, 1. -/
theorem claim_C9_witness :
    (([2, 1].foldl AVL.Tree.delete ([1, 2].foldl AVL.Tree.insert AVL.Tree.empty)).root =
        AVL.AVLT.leaf ∧
      (([2, 1] : List Int).foldl AVL.Tree.delete
        ([1, 2].foldl AVL.Tree.insert AVL.Tree.empty)).size = 0) ∧
    (([2, 1].foldl Splay.Tree.delete ([1, 2].foldl Splay.Tree.insert Splay.Tree.empty)).root =
        Splay.ST.nil ∧
      (([2, 1] : List Int).foldl Splay.Tree.delete
        ([1, 2].foldl Splay.Tree.insert Splay.Tree.empty)).size = 0) ∧
    ([2, 1] : List Int).foldl (fun s k => s.bind fun u => RB.Tree.delete u k)
      (([1, 2] : List Int).foldl (fun s k => s.bind fun u => RB.Tree.insert u k)
        (some RB.Tree.empty)) = some RB.Tree.empty :=
  claim_C9 [1, 2] [2, 1] (by decide) (List.Perm.swap 1 2 [])
